import Mathlib

/-!
Verification of the rotamer-library builder `PlpRotTemp/PlopRotTemp.py`.

Shallow embedding conventions used throughout this file:
* Python lists of numbers become `List ℤ` / `List ℚ` / `List ℝ`; indexed reads
  `l[i]` become `List.getD` (all uses proved or checked in range), and the one
  place the source indexes with a possibly negative Python index is embedded
  with Python's negative-index semantics (`pyGet`).
* `while` loops that can genuinely diverge are embedded with an explicit fuel
  parameter returning `Option`; divergence is `none` for every fuel.
* Python floats are embedded as `ℚ` where the source only does ring
  operations and comparisons, and as `ℝ` where it uses `sqrt`/`acos`/`sin`.
* Python 2 `round` (round half away from zero) is embedded as `pyRound`.
-/

/-- Python 2 `round` on exact values: round half away from zero, as in
`round(element / float(lib_gridres))` in `make_lib_from_mae`. -/
def pyRound (q : ℚ) : ℤ :=
  if 0 ≤ q then ⌊q + 1/2⌋ else -⌊-q + 1/2⌋

/-- Embedding of `min_value` (PlopRotTemp.py, lines 519-527) for a nonempty
list; the source returns `[]` on an empty list, which no caller uses. -/
def minValue : List ℤ → ℤ
  | [] => 0
  | a :: t => t.foldl min a

/-- Embedding of `max_value` (PlopRotTemp.py, lines 531-539) for a nonempty
list; the source returns `[]` on an empty list, which no caller uses. -/
def maxValue : List ℤ → ℤ
  | [] => 0
  | a :: t => t.foldl max a

/-- Python list read `l[i]` with Python's negative-index semantics
(`l[-1]` is the last element).  Out-of-range reads return 0; every use in
this development is in range. -/
def pyGet (l : List ℤ) (i : ℤ) : ℤ :=
  if 0 ≤ i then l.getD i.toNat 0 else l.getD (l.length - (-i).toNat) 0

/-! ## LibraryBuilder: grid quantization (`make_lib_from_mae`, lines 2113-2136)

The torsion samples `tors_values` reach this code as a list of tuples (one
tuple of torsion values per conformer).  Lines 2113-2118 round each value by
the grid resolution, lines 2122-2127 sort the rows with a double loop that
swaps `grid_entries[i]` and `grid_entries[j]` whenever
`grid_entries[i] < grid_entries[j]` (Python list comparison = lexicographic),
and lines 2132-2136 drop a row equal to the row immediately before it. -/

/-- Rounding of each torsion tuple onto the storage grid
(`element = round(element / float(lib_gridres))`, lines 2113-2118). -/
def gridEntries (torsValues : List (List ℚ)) (libGridres : ℚ) : List (List ℤ) :=
  torsValues.map (fun tv => tv.map (fun e => pyRound (e / libGridres)))

/-- Python's `<` on lists of integers (lexicographic, shorter list that is a
prefix compares smaller), as an executable comparison. -/
def listLtb : List ℤ → List ℤ → Bool
  | [], [] => false
  | [], _ :: _ => true
  | _ :: _, [] => false
  | a :: as, b :: bs => if a < b then true else if b < a then false else listLtb as bs

/-- Swap the values at positions `i` and `j` of an array (modelled as a
function from positions to values). -/
def swapIdx (A : ℕ → α) (i j : ℕ) : ℕ → α :=
  fun k => if k = i then A j else if k = j then A i else A k

/-- One comparison of the double-loop sort (lines 2123-2127): if
`A[i] < A[j]`, swap them.  `ltb` is the executable comparison. -/
def cmpSwap (ltb : α → α → Bool) (A : ℕ → α) (i j : ℕ) : ℕ → α :=
  if ltb (A i) (A j) then swapIdx A i j else A

/-- The inner loop `for j in range(n)` of the sort, for a fixed `i`:
`sortRow ltb A i j` has processed `j = 0, 1, ..., j-1` in order. -/
def sortRow (ltb : α → α → Bool) (A : ℕ → α) (i : ℕ) : ℕ → (ℕ → α)
  | 0 => A
  | j + 1 => cmpSwap ltb (sortRow ltb A i j) i j

/-- The outer loop `for i in range(n)`: `sortPassAux ltb n A i` has run the
inner loop for rows `0, 1, ..., i-1` in order. -/
def sortPassAux (ltb : α → α → Bool) (n : ℕ) (A : ℕ → α) : ℕ → (ℕ → α)
  | 0 => A
  | i + 1 => sortRow ltb (sortPassAux ltb n A i) i n

/-- The complete double-loop swap sort of lines 2122-2127 on an array of `n`
entries. -/
def swapSort (ltb : α → α → Bool) (n : ℕ) (A : ℕ → α) : ℕ → α :=
  sortPassAux ltb n A n

/-- The sorting pass applied to the list of grid entries (the list is read
and written through its indices in the source). -/
def sortGridEntries (l : List (List ℤ)) : List (List ℤ) :=
  (List.range l.length).map (swapSort listLtb l.length (fun k => l.getD k []))

/-- Tail worker for the duplicate elimination of lines 2132-2136: `prev` is
`grid_entries[i-1]`, the element of the original list just before the ones
still to process. -/
def elimAdjDupGo (prev : α) [DecidableEq α] : List α → List α
  | [] => []
  | b :: t => if b ≠ prev then b :: elimAdjDupGo b t else elimAdjDupGo b t

/-- Duplicate elimination of lines 2132-2136: keep `grid_entries[i]` iff
`i == 0` or `grid_entries[i-1] != grid_entries[i]`. -/
def elimAdjDup [DecidableEq α] : List α → List α
  | [] => []
  | a :: t => a :: elimAdjDupGo a t

/-- The final `unique_grid_entries` of `make_lib_from_mae` as a function of
the sampled torsion tuples and the storage grid resolution. -/
def uniqueGridEntries (torsValues : List (List ℚ)) (libGridres : ℚ) : List (List ℤ) :=
  elimAdjDup (sortGridEntries (gridEntries torsValues libGridres))

/-! ## CoreSelector: rank assignment (`assign_rank`, lines 543-561)

`assign_rank` seeds rank 0 on every atom in the same rigid group (`assign`
value) as the start atom, then repeatedly propagates `rank+1` across bonds
from atoms whose rank equals the current maximum, until no rank is negative.
The outer `while` diverges when some atom is unreachable, so it is embedded
with fuel. -/

/-- Embedding of `assign_rank_group` (lines 510-515): every atom in the same
group as `atomNum` receives rank `rankNum`.  `atomNum` is read with Python
index semantics because `FindCore_GetCoreAtom` can call this with -1. -/
def assignRankGroup (atomNum : ℤ) (assign rank : List ℤ) (rankNum : ℤ) : List ℤ :=
  (List.range assign.length).foldl
    (fun r i => if assign.getD i 0 = pyGet assign atomNum then r.set i rankNum else r)
    rank

/-- One of the two symmetric conditional updates done per bond in the inner
loop of `assign_rank` (lines 555-560): if the rank at `x` equals `cur_rank`
and the rank at `y` is unassigned, set `rank[y] = rank[x] + 1` and raise the
changed flag. -/
def arHalf (curRank : ℤ) (x y : ℕ) (st : List ℤ × Bool) : List ℤ × Bool :=
  if st.1.getD x 0 = curRank ∧ st.1.getD y 0 < 0 then
    (st.1.set y (st.1.getD x 0 + 1), true)
  else st

/-- Processing of a single bond inside the inner loop: the source tests the
bond in both directions, the second test seeing the result of the first. -/
def arStep (curRank : ℤ) (st : List ℤ × Bool) (b : ℕ × ℕ) : List ℤ × Bool :=
  arHalf curRank b.2 b.1 (arHalf curRank b.1 b.2 st)

/-- One pass of the inner `while changed` loop of `assign_rank`
(lines 552-560): scan all bonds in order, propagating `cur_rank + 1` to an
unranked endpoint whose partner currently has rank `cur_rank`; the flag
records whether anything changed. -/
def arPass (bonds : List (ℕ × ℕ)) (curRank : ℤ) (st : List ℤ × Bool) : List ℤ × Bool :=
  bonds.foldl (arStep curRank) st

/-- Number of still-unassigned (negative) entries of a rank list; the inner
and outer loops of `assign_rank` strictly decrease it whenever they change
anything. -/
def negCount (r : List ℤ) : ℕ :=
  r.countP (fun v => decide (v < 0))

/-- The inner `while (changed == 1)` loop of `assign_rank`: repeat `arPass`
until a pass changes nothing. -/
def arInner (fuel : ℕ) (bonds : List (ℕ × ℕ)) (curRank : ℤ) (rank : List ℤ) :
    Option (List ℤ) :=
  match fuel with
  | 0 => none
  | fuel + 1 =>
    let st := arPass bonds curRank (rank, false)
    if st.2 then arInner fuel bonds curRank st.1 else some st.1

/-- The outer `while (min_value(rank) < 0)` loop of `assign_rank`: as long as
some rank is negative, run the inner loop with `cur_rank = max_value(rank)`.
This loop never exits when part of the bond graph is unreachable. -/
def arOuter (fuel : ℕ) (bonds : List (ℕ × ℕ)) (rank : List ℤ) : Option (List ℤ) :=
  match fuel with
  | 0 => none
  | fuel + 1 =>
    if minValue rank < 0 then
      match arInner fuel bonds (maxValue rank) rank with
      | none => none
      | some r2 => arOuter fuel bonds r2
    else some rank

/-- Embedding of `assign_rank` (lines 543-561). -/
def assignRank (fuel : ℕ) (bonds : List (ℕ × ℕ)) (assign : List ℤ) (atomNum : ℤ) :
    Option (List ℤ) :=
  arOuter fuel bonds (assignRankGroup atomNum assign (assign.map (fun _ => (-1 : ℤ))) 0)

/-- Two atoms joined by some bond of the list (bonds are unordered pairs). -/
def adjacentBond (bonds : List (ℕ × ℕ)) (a b : ℕ) : Prop :=
  (a, b) ∈ bonds ∨ (b, a) ∈ bonds

/-- Atom `j` is reachable through the bond list from the rigid group that
contains the start atom (the atoms sharing its `assign` value). -/
def reachesFromGroup (bonds : List (ℕ × ℕ)) (assign : List ℤ) (atomNum : ℤ) (j : ℕ) :
    Prop :=
  ∃ s, s < assign.length ∧ assign.getD s 0 = pyGet assign atomNum ∧
    Relation.ReflTransGen (adjacentBond bonds) s j

/-! ## CoreSelector: ligand groups, start atom and core selection
(`assign_ligand_groups`, `get_start_atom`, `FindCore_GetCoreAtom`). -/

/-- Embedding of `get_start_atom` (lines 674-689): count the rank-0 atoms and
return the first rank-0 atom that is endpoint of no torsion, or -100. -/
def getStartAtom (tors : List (ℕ × ℕ)) (rank : List ℤ) : ℤ × ℕ :=
  let numCore := rank.countP (fun v => decide (v = 0))
  let start :=
    match (List.range rank.length).find? (fun i =>
        decide (rank.getD i 0 = 0 ∧ ∀ t ∈ tors, ¬(t.1 = i ∨ t.2 = i))) with
    | some i => (i : ℤ)
    | none => -100
  (start, numCore)

/-- Embedding of `remove_tors` (lines 220-230): the bonds of the first list
that occur nowhere in the second. -/
def removeTors (tors1 tors2 : List (ℕ × ℕ)) : List (ℕ × ℕ) :=
  tors1.filter (fun t => decide (¬ t ∈ tors2))

/-- Embedding of the mutually recursive DFS `find_connected` (lines 437-447):
spread the group id of `atom` to every yet-unassigned neighbor, recursively.
`rest` is the part of the bond list the `for` loop still has to scan.  The
recursion is fuelled (one unit per loop step); the source always terminates
because each recursive call first marks an atom, so any fuel quadratic in the
input size is enough. -/
def fcRun (fuel : ℕ) (atom : ℕ) (bonds rest : List (ℕ × ℕ)) (assign : List ℤ) :
    Option (List ℤ) :=
  match fuel with
  | 0 => none
  | fuel + 1 =>
    match rest with
    | [] => some assign
    | b :: rest =>
      match (if b.1 = atom ∧ assign.getD b.2 0 = 0 then
          fcRun fuel b.2 bonds bonds (assign.set b.2 (assign.getD atom 0))
        else some assign) with
      | none => none
      | some a1 =>
        match (if b.2 = atom ∧ a1.getD b.1 0 = 0 then
            fcRun fuel b.1 bonds bonds (a1.set b.1 (a1.getD atom 0))
          else some a1) with
        | none => none
        | some a2 => fcRun fuel atom bonds rest a2

/-- Entry point of `find_connected`. -/
def findConnected (fuel : ℕ) (atom : ℕ) (bonds : List (ℕ × ℕ)) (assign : List ℤ) :
    Option (List ℤ) :=
  fcRun fuel atom bonds bonds assign

/-- The `while (done == 0)` loop of `assign_ligand_groups` (lines 459-469):
find the first unassigned atom, open a new group, flood it. -/
def algLoop (fuel : ℕ) (bonds : List (ℕ × ℕ)) (cGroup : ℤ) (assign : List ℤ) :
    Option (List ℤ) :=
  match fuel with
  | 0 => none
  | fuel + 1 =>
    match (List.range assign.length).find? (fun i => decide (assign.getD i 0 = 0)) with
    | none => some assign
    | some i =>
      match findConnected fuel i bonds (assign.set i (cGroup + 1)) with
      | none => none
      | some a2 => algLoop fuel bonds (cGroup + 1) a2

/-- Embedding of `assign_ligand_groups` (lines 451-470): connected components
of the bond graph with the rotatable bonds removed, numbered from 1 in
discovery order (0 = unassigned marker). -/
def assignLigandGroups (fuel : ℕ) (tors allBonds : List (ℕ × ℕ)) (natoms : ℕ) :
    Option (List ℤ) :=
  algLoop fuel (removeTors allBonds tors) 0 (List.replicate natoms 0)

/-- One bond step of the flood fill inside `assign_group` (lines 586-596);
the state is (group list, atoms_in_group, edit_any). -/
def agFloodPass (curGroup : ℤ) (st : List ℤ × ℤ × Bool) (b : ℕ × ℕ) :
    List ℤ × ℤ × Bool :=
  let st1 :=
    if st.1.getD b.1 0 = curGroup ∧ st.1.getD b.2 0 = -2 then
      (st.1.set b.2 curGroup, st.2.1 + 1, true)
    else st
  if st1.1.getD b.2 0 = curGroup ∧ st1.1.getD b.1 0 = -2 then
    (st1.1.set b.1 curGroup, st1.2.1 + 1, true)
  else st1

/-- The `while (edit_any == 1)` flood fill of `assign_group`. -/
def agFlood (fuel : ℕ) (bonds : List (ℕ × ℕ)) (curGroup : ℤ) (group : List ℤ)
    (count : ℤ) : Option (List ℤ × ℤ) :=
  match fuel with
  | 0 => none
  | fuel + 1 =>
    let st := bonds.foldl (agFloodPass curGroup) (group, count, false)
    if st.2.2 then agFlood fuel bonds curGroup st.1 st.2.1 else some (st.1, st.2.1)

/-- The `while (min_value(group) < -1)` loop of `assign_group` (lines
573-600): pick the first rank-1 unassigned atom, open a group, flood fill,
fold singleton groups back into the core (-1).  When no rank-1 unassigned
atom exists the source prints "ERROR 2042!!" and repeats the flood with the
stale current group, which erases it; with no progress the loop never exits. -/
def agLoop (fuel : ℕ) (bonds : List (ℕ × ℕ)) (rank : List ℤ) (curGroup : ℤ)
    (group : List ℤ) : Option (List ℤ) :=
  match fuel with
  | 0 => none
  | fuel + 1 =>
    if minValue group < -1 then
      match (List.range rank.length).find? (fun i =>
          decide (rank.getD i 0 = 1 ∧ group.getD i 0 = -2)) with
      | some i =>
        match agFlood fuel bonds (curGroup + 1) (group.set i (curGroup + 1)) 1 with
        | none => none
        | some (g2, count) =>
          agLoop fuel bonds rank (curGroup + 1)
            (if count = 1 then g2.map (fun v => if v = curGroup + 1 then -1 else v) else g2)
      | none =>
        match agFlood fuel bonds curGroup group 1 with
        | none => none
        | some (g2, count) =>
          agLoop fuel bonds rank curGroup
            (if count = 1 then g2.map (fun v => if v = curGroup then -1 else v) else g2)
    else some group

/-- Embedding of `assign_group` (lines 565-601). -/
def assignGroup (fuel : ℕ) (bonds : List (ℕ × ℕ)) (rank : List ℤ) : Option (List ℤ) :=
  agLoop fuel bonds rank (-1) (rank.map (fun v => if v = 0 then (-1 : ℤ) else -2))

/-- The candidate loop of `FindCore_GetCoreAtom` (lines 716-727): for each
atom, rank from its rigid group and keep the first atom with a valid start
atom whose maximum rank is strictly smaller than the best so far (initially
10000). -/
def fcLoop (fuel : ℕ) (bonds : List (ℕ × ℕ)) (assign : List ℤ)
    (tors back : List (ℕ × ℕ)) (natoms : ℕ) : Option (ℤ × ℤ) :=
  (List.range natoms).foldlM
    (fun st (atomNum : ℕ) => do
      let rank ← assignRank fuel bonds assign (atomNum : ℤ)
      pure (if maxValue rank < st.1 ∧ 0 ≤ (getStartAtom (tors ++ back) rank).1 then
          (maxValue rank, (atomNum : ℤ))
        else st))
    ((10000 : ℤ), (-1 : ℤ))

/-- Embedding of `FindCore_GetCoreAtom` (lines 706-742).  When no candidate
is valid, `core_atom` stays -1 and the final `assign_rank` call reads
`assign[-1]` (Python negative indexing: the last atom's group). -/
def findCoreGetCoreAtom (fuel : ℕ) (tors bonds : List (ℕ × ℕ)) (natoms : ℕ)
    (userCoreAtom : ℤ) (back : List (ℕ × ℕ)) (useMultLib : Bool) :
    Option (ℤ × List ℤ × List ℤ × List ℤ) := do
  let assign ← assignLigandGroups fuel tors bonds natoms
  let coreAtom ←
    if 0 < userCoreAtom then pure (userCoreAtom - 1)
    else do
      let st ← fcLoop fuel bonds assign tors back natoms
      pure st.2
  let rank ← assignRank fuel bonds assign coreAtom
  let group ←
    if useMultLib then assignGroup fuel bonds rank
    else pure (List.replicate natoms (0 : ℤ))
  pure (coreAtom, assign, rank, group)

/-! ## TreeBuilder (`order_atoms`, lines 605-670)

The ordering is built in three phases: the start atom, the remaining core
(rank-0) atoms along rank-0 bonds, then group by group the branch atoms in
increasing rank, each child appended with a parent exactly one rank lower.
`assign` doubles as the placed-marker: placed atoms get `assign = -1`. -/

/-- The scan for the next core bond to use (lines 617-629): the first bond
joining a placed rank-0 atom to an unplaced rank-0 atom, with the matching
direction of the source checked first. -/
def oaCoreFind (bonds : List (ℕ × ℕ)) (rank asg : List ℤ) : Option (ℕ × ℕ) :=
  match bonds.find? (fun b => decide
      ((rank.getD b.1 0 = 0 ∧ rank.getD b.2 0 = 0 ∧ asg.getD b.1 0 = -1 ∧
          asg.getD b.2 0 > -1) ∨
        (rank.getD b.2 0 = 0 ∧ rank.getD b.1 0 = 0 ∧ asg.getD b.2 0 = -1 ∧
          asg.getD b.1 0 > -1))) with
  | none => none
  | some b =>
    if rank.getD b.1 0 = 0 ∧ rank.getD b.2 0 = 0 ∧ asg.getD b.1 0 = -1 ∧
        asg.getD b.2 0 > -1 then
      some (b.2, b.1)
    else some (b.1, b.2)

/-- The `while (len(ordering) < num_core)` loop (lines 616-629); the source
loops forever when no core bond matches, which the embedding reports as
`none`. -/
def oaCore (fuel : ℕ) (bonds : List (ℕ × ℕ)) (rank : List ℤ) (numCore : ℕ)
    (st : List ℕ × List ℤ × List ℤ) : Option (List ℕ × List ℤ × List ℤ) :=
  match fuel with
  | 0 => none
  | fuel + 1 =>
    if st.1.length < numCore then
      match oaCoreFind bonds rank st.2.2 with
      | none => none
      | some cp =>
        oaCore fuel bonds rank numCore
          (st.1 ++ [cp.1], st.2.1 ++ [(cp.2 : ℤ)], st.2.2.set cp.1 (-1))
    else some st

/-- The scan for the next branch bond to use (lines 636-650): the first bond
joining a placed atom of rank `curRank` to an unplaced atom of the current
group whose rank is exactly one higher, source direction checked first. -/
def oaGroupFind (bonds : List (ℕ × ℕ)) (rank group asg : List ℤ) (grp curRank : ℤ) :
    Option (ℕ × ℕ) :=
  match bonds.find? (fun b => decide
      ((rank.getD b.2 0 - rank.getD b.1 0 = 1 ∧ asg.getD b.1 0 = -1 ∧
          asg.getD b.2 0 > -1 ∧ rank.getD b.1 0 = curRank ∧ group.getD b.2 0 = grp) ∨
        (rank.getD b.1 0 - rank.getD b.2 0 = 1 ∧ asg.getD b.2 0 = -1 ∧
          asg.getD b.1 0 > -1 ∧ rank.getD b.2 0 = curRank ∧ group.getD b.1 0 = grp))) with
  | none => none
  | some b =>
    if rank.getD b.2 0 - rank.getD b.1 0 = 1 ∧ asg.getD b.1 0 = -1 ∧
        asg.getD b.2 0 > -1 ∧ rank.getD b.1 0 = curRank ∧ group.getD b.2 0 = grp then
      some (b.2, b.1)
    else some (b.1, b.2)

/-- The `while (len(ordering) < len(assign))` loop for one group (lines
634-652), raising `cur_rank` when no bond fires and stopping once it passes
the maximum rank. -/
def oaGroupInner (fuel : ℕ) (bonds : List (ℕ × ℕ)) (rank group : List ℤ)
    (grp maxRank curRank : ℤ) (st : List ℕ × List ℤ × List ℤ) :
    Option (List ℕ × List ℤ × List ℤ) :=
  match fuel with
  | 0 => none
  | fuel + 1 =>
    if st.1.length < st.2.2.length then
      match oaGroupFind bonds rank group st.2.2 grp curRank with
      | some cp =>
        if curRank > maxRank then
          some (st.1 ++ [cp.1], st.2.1 ++ [(cp.2 : ℤ)], st.2.2.set cp.1 (-1))
        else
          oaGroupInner fuel bonds rank group grp maxRank curRank
            (st.1 ++ [cp.1], st.2.1 ++ [(cp.2 : ℤ)], st.2.2.set cp.1 (-1))
      | none =>
        if curRank + 1 > maxRank then some st
        else oaGroupInner fuel bonds rank group grp maxRank (curRank + 1) st
    else some st

/-- The `for grp in range(-1, max_value(group) + 1)` loop (lines 632-652). -/
def oaGroups (fuel : ℕ) (bonds : List (ℕ × ℕ)) (rank group : List ℤ) (maxRank : ℤ)
    (grpList : List ℤ) (st : List ℕ × List ℤ × List ℤ) :
    Option (List ℕ × List ℤ × List ℤ) :=
  match grpList with
  | [] => some st
  | grp :: rest =>
    match oaGroupInner fuel bonds rank group grp maxRank 0 st with
    | none => none
    | some st2 => oaGroups fuel bonds rank group maxRank rest st2

/-- Embedding of `order_atoms` (lines 605-670): returns the ordering, the
parent array re-expressed in ordering positions (`ordering.index`), and the
rank and group arrays permuted by the ordering. -/
def orderAtoms (fuel : ℕ) (bonds tors backTors : List (ℕ × ℕ))
    (assign rank group : List ℤ) :
    Option (List ℕ × List ℤ × List ℤ × List ℤ) :=
  let sn := getStartAtom (tors ++ backTors) rank
  if sn.1 < 0 then none  -- the source raises "Core must be at least two atoms"
  else
    match oaCore fuel bonds rank sn.2
        ([sn.1.toNat], [(-1 : ℤ)], assign.set sn.1.toNat (-1)) with
    | none => none
    | some st1 =>
      match oaGroups fuel bonds rank group (maxValue rank)
          ((List.range (maxValue group + 2).toNat).map (fun (k : ℕ) => (k : ℤ) - 1)) st1 with
      | none => none
      | some st2 =>
        some (st2.1,
          (List.range st2.2.1.length).map (fun i =>
            if st2.2.1.getD i 0 < 0 then st2.2.1.getD i 0
            else (st2.1.indexOf (st2.2.1.getD i 0).toNat : ℤ)),
          (List.range st2.2.1.length).map (fun i => rank.getD (st2.1.getD i 0) 0),
          (List.range st2.2.1.length).map (fun i => group.getD (st2.1.getD i 0) 0))

/-- One step along the output parent array of `order_atoms`: the position of
the parent of position `i`. -/
def parentStep (opar : List ℤ) (i : ℕ) : ℕ :=
  (opar.getD i 0).toNat

/-- Invariant of the `order_atoms` construction state `(ordering, parent,
assign)`: lengths agree, `assign = -1` marks exactly the placed atoms, every
position after 0 records a parent atom placed strictly earlier whose rank is
equal (both 0, core phase) or one lower (branch phase), position 0 is the
start atom with parent -1 and rank 0. -/
def stInv (rank : List ℤ) (n : ℕ) (st : List ℕ × List ℤ × List ℤ) : Prop :=
  st.2.1.length = st.1.length ∧
  st.2.2.length = n ∧
  (∀ x, x < n → (st.2.2.getD x 0 = -1 ↔ x ∈ st.1)) ∧
  (∀ i, 0 < i → i < st.1.length → ∃ a : ℕ, a < n ∧ st.2.1.getD i 0 = (a : ℤ) ∧
    (∃ j, j < i ∧ st.1.getD j 0 = a) ∧
    ((rank.getD a 0 = 0 ∧ rank.getD (st.1.getD i 0) 0 = 0) ∨
      rank.getD (st.1.getD i 0) 0 = rank.getD a 0 + 1)) ∧
  (0 < st.1.length ∧ st.2.1.getD 0 0 = -1) ∧
  rank.getD (st.1.getD 0 0) 0 = 0

/-! ## find_tors_in_rings (lines 165-216) -/

/-- The ring-inclusion test of `find_tors_in_rings` (lines 177-183): some
rotatable torsion has both endpoints (1-based) in the ring's atom list. -/
def ftrIncl (tors : List (ℕ × ℕ)) (ringAtoms : List ℕ) : Bool :=
  tors.any (fun t => ringAtoms.contains (t.1 + 1) && ringAtoms.contains (t.2 + 1))

/-- The internal bonds of one included ring, 0-based, in the double-loop
emission order of lines 187-192 (`atom2 > atom1` and bonded). -/
def ringPairs (bond : ℕ → ℕ → Bool) (ringAtoms : List ℕ) : List (ℕ × ℕ) :=
  ringAtoms.flatMap (fun a1 =>
    (ringAtoms.filter (fun a2 => decide (a1 < a2) && bond a1 a2)).map
      (fun a2 => (a1 - 1, a2 - 1)))

/-- One ring of the emission loop of `find_tors_in_rings` (lines 176-192);
the state is (cur_ring_num, out_tors, out_ring). -/
def ftrStep (tors : List (ℕ × ℕ)) (bond : ℕ → ℕ → Bool)
    (st : ℕ × List (ℕ × ℕ) × List ℕ) (ring : List ℕ) : ℕ × List (ℕ × ℕ) × List ℕ :=
  if ftrIncl tors ring then
    (st.1 + 1, st.2.1 ++ ringPairs bond ring,
      st.2.2 ++ (ringPairs bond ring).map (fun _ => st.1 + 1))
  else st

/-- The emission loop of `find_tors_in_rings` (lines 176-192). -/
def ftrEmit (tors : List (ℕ × ℕ)) (bond : ℕ → ℕ → Bool) (rings : List (List ℕ)) :
    ℕ × List (ℕ × ℕ) × List ℕ :=
  rings.foldl (ftrStep tors bond) (0, [], [])

/-- Two emitted ring bonds sharing an endpoint atom (the merge condition of
lines 197-201). -/
def sharesAtomB (t u : ℕ × ℕ) : Bool :=
  decide (t.1 = u.1) || decide (t.1 = u.2) || decide (t.2 = u.1) || decide (t.2 = u.2)

/-- One step (one pair i < j) of the ring-merging double loop (lines
195-203): if the two entries lie in different rings and their bonds share an
atom, relabel the larger ring id to the smaller throughout the list. -/
def mergeStep (outTors : List (ℕ × ℕ)) (outRing : List ℕ) (i j : ℕ) : List ℕ :=
  let ri := outRing.getD i 0
  let rj := outRing.getD j 0
  if ri ≠ rj ∧ sharesAtomB (outTors.getD i (0, 0)) (outTors.getD j (0, 0)) = true then
    outRing.map (fun r => if r = max ri rj then min ri rj else r)
  else outRing

/-- The pair list (i, j) with i < j < n scanned by the merging double loop. -/
def mergePairs (n : ℕ) : List (ℕ × ℕ) :=
  (List.range n).flatMap (fun i =>
    (List.range' (i + 1) (n - (i + 1))).map (fun j => (i, j)))

/-- The full merging pass (lines 195-203). -/
def mergeAll (outTors : List (ℕ × ℕ)) (outRing : List ℕ) : List ℕ :=
  (mergePairs outTors.length).foldl (fun acc p => mergeStep outTors acc p.1 p.2) outRing

/-- Python `max` over a list of naturals (0 on the empty list; the source
only takes the max of nonempty lists of positive ring ids). -/
def maxNat (l : List ℕ) : ℕ := l.foldl max 0

/-- The `while not (ring_number + blanks in out_ring) and ring_number +
blanks < max(out_ring)` loop of lines 207-209, fuelled; fuel `maxNat l + 1`
always suffices because every step requires `target + blanks < maxNat l`. -/
def findBlanks (l : List ℕ) (target : ℕ) : ℕ → ℕ → ℕ
  | 0, blanks => blanks
  | fuel + 1, blanks =>
    if ¬ (target + blanks) ∈ l ∧ target + blanks < maxNat l then
      findBlanks l target fuel (blanks + 1)
    else blanks

/-- One ring number of the gap-filling loop (lines 206-212): count the run
of missing ids starting at `rn` and shift every larger id down by that
amount. -/
def renStep (acc : List ℕ) (rn : ℕ) : List ℕ :=
  let blanks := findBlanks acc rn (maxNat acc + 1) 0
  if 0 < blanks then acc.map (fun r => if rn < r then r - blanks else r) else acc

/-- The gap-filling renumbering of ring ids (lines 205-215). -/
def renumber (outRing : List ℕ) : List ℕ :=
  if 0 < outRing.length then
    (List.range' 1 (maxNat outRing)).foldl renStep outRing
  else outRing

/-- Embedding of `find_tors_in_rings` (lines 165-216), abstracted over the
mae structure: `rings` is the list of ring atom lists (1-based atom numbers,
as `ring.getAtomList` returns) and `bond` is the bond test of the structure. -/
def findTorsInRings (tors : List (ℕ × ℕ)) (bond : ℕ → ℕ → Bool)
    (rings : List (List ℕ)) : List (ℕ × ℕ) × List ℕ :=
  let e := ftrEmit tors bond rings
  (e.2.1, renumber (mergeAll e.2.1 e.2.2))

/-- The bond table of the concrete two-triangle example: rings 1-2-3 and
3-4-5 sharing atom 3. -/
def exBond (a b : ℕ) : Bool :=
  decide ((a, b) ∈ [(1, 2), (1, 3), (2, 3), (3, 4), (3, 5), (4, 5)]) ||
  decide ((b, a) ∈ [(1, 2), (1, 3), (2, 3), (3, 4), (3, 5), (4, 5)])

/-! ## Geometry: `bangle`, `calc_tors`, `xyz2int` (lines 1477-1587)

Real arithmetic is embedded into `ℝ` (each floating-point literal of the
source becomes the corresponding rational); raising an exception is `none`. -/

noncomputable def dummy_atom1 : ℝ × ℝ × ℝ := (8 / 10, 7 / 10, 9 / 10)

noncomputable def dummy_atom2 : ℝ × ℝ × ℝ := (6 / 10, 5 / 10, 4 / 10)

noncomputable def dummy_atom3 : ℝ × ℝ × ℝ := (1 / 10, 2 / 10, 3 / 10)

/-- Python indexing of the Cartesian list (negative indices wrap). -/
noncomputable def pyGetP (l : List (ℝ × ℝ × ℝ)) (i : ℤ) : ℝ × ℝ × ℝ :=
  if 0 ≤ i then l.getD i.toNat (0, 0, 0) else l.getD (l.length - (-i).toNat) (0, 0, 0)

/-- Embedding of `bangle` (lines 1535-1552): the angle at the vertex
(xi, yi, zi); `none` is the `ERROR: zero angle in bangle` exception, raised
exactly when the dot product of the two bond vectors is zero.  The π-side
clamp returns the literal 3.13159 of the source. -/
noncomputable def bangle (xj yj zj xi yi zi xk yk zk : ℝ) : Option ℝ :=
  let dijx := xj - xi
  let dijy := yj - yi
  let dijz := zj - zi
  let dikx := xk - xi
  let diky := yk - yi
  let dikz := zk - zi
  let vdot := dijx * dikx + dijy * diky + dijz * dikz
  if |vdot| > 0 then
    let rij := Real.sqrt (dijx * dijx + dijy * dijy + dijz * dijz)
    let rik := Real.sqrt (dikx * dikx + diky * diky + dikz * dikz)
    let xang := vdot / (rij * rik)
    if xang - 1 > -(1 / 10 ^ 10) then some 0
    else if xang + 1 < 1 / 10 ^ 11 then some (313159 / 100000)
    else some (Real.arccos xang)
  else none

/-- Embedding of `calc_tors` (lines 1556-1587). -/
noncomputable def calc_tors (xi yi zi xj yj zj xk yk zk xl yl zl : ℝ) : ℝ :=
  let dijx := xi - xj
  let dijy := yi - yj
  let dijz := zi - zj
  let dkjx := xk - xj
  let dkjy := yk - yj
  let dkjz := zk - zj
  let dklx := xk - xl
  let dkly := yk - yl
  let dklz := zk - zl
  let ax := dijy * dkjz - dijz * dkjy
  let ay := dijz * dkjx - dijx * dkjz
  let az := dijx * dkjy - dijy * dkjx
  let cx := dkjy * dklz - dkjz * dkly
  let cy := dkjz * dklx - dkjx * dklz
  let cz := dkjx * dkly - dkjy * dklx
  let rac := ax * cx + ay * cy + az * cz
  let ra := ax * ax + ay * ay + az * az
  let rc := cx * cx + cy * cy + cz * cz
  let cosang := rac / Real.sqrt (ra * rc)
  let phi := if cosang - 1 > -(1 / 10 ^ 11) then 0
    else if cosang + 1 < 1 / 10 ^ 11 then Real.pi
    else Real.arccos cosang
  let s := dijx * cx + dijy * cy + dijz * cz
  if s < 0 then -phi else phi

/-- One z-matrix row of `xyz2int` (lines 1499-1529); `none` if `bangle`
raises. -/
noncomputable def zmatRow (cart : List (ℝ × ℝ × ℝ)) (parent ordering : List ℤ)
    (i : ℤ) : Option (ℝ × ℝ × ℝ) :=
  let jatom := pyGet parent i
  let katom := pyGet parent jatom
  let latom := pyGet parent katom
  let ci := pyGetP cart (pyGet ordering i)
  let cj := pyGetP cart (pyGet ordering jatom)
  let ck := pyGetP cart (pyGet ordering katom)
  let cl := pyGetP cart (pyGet ordering latom)
  let dx := ci.1 - cj.1
  let dy := ci.2.1 - cj.2.1
  let dz := ci.2.2 - cj.2.2
  let rij := Real.sqrt (dx * dx + dy * dy + dz * dz)
  match bangle ci.1 ci.2.1 ci.2.2 cj.1 cj.2.1 cj.2.2 ck.1 ck.2.1 ck.2.2 with
  | none => none
  | some theta =>
    some (rij, theta * 180 / Real.pi,
      calc_tors ci.1 ci.2.1 ci.2.2 cj.1 cj.2.1 cj.2.2 ck.1 ck.2.1 ck.2.2
        cl.1 cl.2.1 cl.2.2 * 180 / Real.pi)

/-- Embedding of `xyz2int` (lines 1477-1531): prepend the three dummy
atoms, shift ordering and parent entries by 3, and build one z-matrix row
per real atom; `none` if any `bangle` call raises. -/
noncomputable def xyz2int (inCart : List (ℝ × ℝ × ℝ)) (inOrdering inParent : List ℤ) :
    Option (List (ℝ × ℝ × ℝ)) :=
  let cart := [dummy_atom1, dummy_atom2, dummy_atom3] ++ inCart
  let parent := [-1, 0, 1] ++ inParent.map (fun v => v + 3)
  let ordering := [0, 1, 2] ++ inOrdering.map (fun v => v + 3)
  (List.range inParent.length).mapM (fun n => zmatRow cart parent ordering ((n : ℤ) + 3))

/-! ## int2xyz (lines 1591-1692): NeRF reconstruction of Cartesian
coordinates from the z-matrix. -/

/-- The `epsilon` guard of `int2xyz` (line 1609). -/
noncomputable def epsilon : ℝ := 1 / 10 ^ 9

/-- The frame construction and placement of one atom (lines 1622-1687):
given the z-matrix entries (bond length `rcd`, angle `thbcd`, torsion
`phabcd`, already in radians) and the Cartesian positions of parent `cj`,
grandparent `ck` and great-grandparent `cl`, return the new position.  The
`xqa` of line 1662 is computed but never read by the source and is
omitted. -/
noncomputable def nerfPlace (rcd thbcd phabcd : ℝ) (cj ck cl : ℝ × ℝ × ℝ) :
    ℝ × ℝ × ℝ :=
  let xjl0 := cl.1 - cj.1
  let yjl := cl.2.1 - cj.2.1
  let zjl0 := cl.2.2 - cj.2.2
  let xb0 := ck.1 - cj.1
  let yb := ck.2.1 - cj.2.1
  let zb0 := ck.2.2 - cj.2.2
  let xyb0 := Real.sqrt (xb0 * xb0 + yb * yb)
  let pre := if xyb0 ≤ 1 / 10 then (0, zjl0, -(1 : ℝ) * xjl0, zb0, -(1 : ℝ) * xb0)
    else (1, xjl0, zjl0, xb0, zb0)
  let k := pre.1
  let xjl := pre.2.1
  let zjl := pre.2.2.1
  let xb := pre.2.2.2.1
  let zb := pre.2.2.2.2
  let xyb1 := Real.sqrt (xb * xb + yb * yb)
  let xyb := if xyb1 ≤ epsilon then epsilon else xyb1
  let costh := xb / xyb
  let sinth0 := Real.sqrt (1 - costh * costh)
  let sinth := if yb ≤ 0 then -sinth0 else sinth0
  let xpa := xjl * costh + yjl * sinth
  let ypa := yjl * costh - xjl * sinth
  let rbc0 := Real.sqrt (xb * xb + yb * yb + zb * zb)
  let rbc := if rbc0 ≤ epsilon then epsilon else rbc0
  let sinph := zb / rbc
  let cosph := Real.sqrt (1 - sinph * sinph)
  let zqa := zjl * cosph - xpa * sinph
  let yza0 := Real.sqrt (ypa * ypa + zqa * zqa)
  let yza := if yza0 ≤ epsilon then epsilon else yza0
  let coskh := ypa / yza
  let sinkh0 := Real.sqrt (1 - coskh * coskh)
  let sinkh := if zqa < 0 then -(1 : ℝ) * sinkh0 else sinkh0
  let sina := Real.sin thbcd
  let xd := rcd * Real.cos thbcd
  let yd := rcd * sina * Real.cos phabcd
  let zd := rcd * sina * Real.sin phabcd
  let ypd := yd * coskh - zd * sinkh
  let zpd := zd * coskh + yd * sinkh
  let xpd := xd * cosph - zpd * sinph
  let zqd := zpd * cosph + xd * sinph
  let xqd := xpd * costh - ypd * sinth
  let yqd := ypd * costh + xpd * sinth
  let fin := if k ≠ 1 then (-(1 : ℝ) * zqd, xqd) else (xqd, zqd)
  (fin.1 + cj.1, yqd + cj.2.1, fin.2 + cj.2.2)

/-- The per-atom reconstruction body of `int2xyz` (lines 1615-1689): place
atom `i` from its z-matrix row and the coordinates of its parent chain; the
state is (calc, cart).  The source checks `calc[jatom]` twice and never
checks `calc[latom]`; the embedding keeps that. -/
noncomputable def i2xBody (zmat : List (ℝ × ℝ × ℝ)) (parent : List ℤ)
    (st : List ℤ × List (ℝ × ℝ × ℝ)) (i : ℕ) : List ℤ × List (ℝ × ℝ × ℝ) :=
  let jatom := pyGet parent (i : ℤ)
  let katom := pyGet parent jatom
  let latom := pyGet parent katom
  if pyGet st.1 (i : ℤ) = 1 then st
  else if pyGet st.1 jatom = 0 ∨ pyGet st.1 katom = 0 ∨ pyGet st.1 jatom = 0 then st
  else
    let row := pyGetP zmat (i : ℤ)
    (st.1.set i 1,
      st.2.set i (nerfPlace row.1 (row.2.1 * Real.pi / 180)
        (2 * Real.pi - row.2.2 * Real.pi / 180)
        (pyGetP st.2 jatom) (pyGetP st.2 katom) (pyGetP st.2 latom)))

/-- One sweep of the `for i in range(3, len(zmat))` loop (line 1615). -/
noncomputable def i2xPass (zmat : List (ℝ × ℝ × ℝ)) (parent : List ℤ)
    (st : List ℤ × List (ℝ × ℝ × ℝ)) : List ℤ × List (ℝ × ℝ × ℝ) :=
  (List.range (zmat.length - 3)).foldl (fun st n => i2xBody zmat parent st (n + 3)) st

/-- The `while (min_value(calc) < 0.1)` loop (line 1614), fuelled; the
source loops forever when some atom's parents never resolve. -/
noncomputable def i2xLoop (fuel : ℕ) (zmat : List (ℝ × ℝ × ℝ)) (parent : List ℤ)
    (st : List ℤ × List (ℝ × ℝ × ℝ)) : Option (List (ℝ × ℝ × ℝ)) :=
  match fuel with
  | 0 => none
  | fuel + 1 =>
    if (minValue st.1 : ℚ) < 1 / 10 then i2xLoop fuel zmat parent (i2xPass zmat parent st)
    else some st.2

/-- Embedding of `int2xyz` (lines 1591-1692): prepend three dummy atoms and
three zero z-matrix rows, shift the parent entries by 3, reconstruct until
every atom is placed, and drop the dummies. -/
noncomputable def int2xyz (inZmat : List (ℝ × ℝ × ℝ)) (inParent : List ℤ)
    (fuel : ℕ) : Option (List (ℝ × ℝ × ℝ)) :=
  let zmat := [((0 : ℝ), (0 : ℝ), (0 : ℝ)), (0, 0, 0), (0, 0, 0)] ++ inZmat
  let parent := [-1, 0, 1] ++ inParent.map (fun v => v + 3)
  let cart := [dummy_atom1, dummy_atom2, dummy_atom3] ++
    inZmat.map (fun _ => ((0 : ℝ), (0 : ℝ), (0 : ℝ)))
  let calcList := [1, 1, 1] ++ inZmat.map (fun _ => (0 : ℤ))
  match i2xLoop fuel zmat parent (calcList, cart) with
  | none => none
  | some cart2 => some (cart2.drop 3)

-- ===================== THEOREMS =====================

section SwapSortProof

variable {α : Type} [LinearOrder α] {ltb : α → α → Bool}

/-- Row 0 of the double loop moves a maximum of the whole array into
position 0. -/
theorem sortRow_zero_inv (hlt : ∀ a b, ltb a b = true ↔ a < b) (A : ℕ → α) :
    ∀ j : ℕ, (∀ k, k < j → sortRow ltb A 0 j k ≤ sortRow ltb A 0 j 0) ∧
      (∀ k, j ≤ k → k ≠ 0 → sortRow ltb A 0 j k = A k) := by
  intro j
  induction j with
  | zero => exact ⟨fun k hk => absurd hk (Nat.not_lt_zero k), fun k _ _ => rfl⟩
  | succ j ih =>
    obtain ⟨h1, h2⟩ := ih
    by_cases hc : ltb (sortRow ltb A 0 j 0) (sortRow ltb A 0 j j) = true
    · have hj0 : j ≠ 0 := by
        intro h
        subst h
        exact absurd ((hlt _ _).mp hc) (lt_irrefl _)
      have hswap : sortRow ltb A 0 (j + 1) = swapIdx (sortRow ltb A 0 j) 0 j := by
        simp [sortRow, cmpSwap, hc]
      have hlt0j : sortRow ltb A 0 j 0 < sortRow ltb A 0 j j := (hlt _ _).mp hc
      constructor
      · intro k hk
        rw [hswap]
        rcases Nat.eq_or_lt_of_le (Nat.le_of_lt_succ hk) with rfl | hkj
        · simp only [swapIdx, if_pos rfl, if_neg hj0]
          exact le_of_lt hlt0j
        · rcases Nat.eq_zero_or_pos k with rfl | hkpos
          · simp [swapIdx]
          · have hk0 : k ≠ 0 := Nat.pos_iff_ne_zero.mp hkpos
            have hkj2 : k ≠ j := Nat.ne_of_lt hkj
            simp only [swapIdx, if_neg hk0, if_neg hkj2, if_pos rfl,
              Ne.symm hj0, if_neg (Ne.symm hj0)]
            have : sortRow ltb A 0 j k ≤ sortRow ltb A 0 j 0 := h1 k hkj
            calc sortRow ltb A 0 j k ≤ sortRow ltb A 0 j 0 := this
              _ ≤ sortRow ltb A 0 j j := le_of_lt hlt0j
      · intro k hk hk0
        rw [hswap]
        have hkj : k ≠ j := by omega
        simp only [swapIdx, if_neg hk0, if_neg hkj]
        exact h2 k (by omega) hk0
    · have hstay : sortRow ltb A 0 (j + 1) = sortRow ltb A 0 j := by
        simp [sortRow, cmpSwap, hc]
      constructor
      · intro k hk
        rw [hstay]
        rcases Nat.eq_or_lt_of_le (Nat.le_of_lt_succ hk) with hkj | hkj
        · subst hkj
          exact le_of_not_lt (fun h => hc ((hlt _ _).mpr h))
        · exact h1 k hkj
      · intro k hk hk0
        rw [hstay]
        exact h2 k (by omega) hk0

end SwapSortProof

section SwapSortProof2

variable {α : Type} [LinearOrder α] {ltb : α → α → Bool}

/-- Invariants of the inner loop for a row `i ≥ 1`, while it scans the sorted
prefix `0..i-1`: the processed prefix stays sorted, the current element
dominates the processed prefix, unprocessed positions are untouched, all
values stay bounded by the pre-pass maximum `B (i-1)`, and that maximum is
always either at `i` or in the unprocessed part of the prefix. -/
theorem sortRow_inv (hlt : ∀ a b, ltb a b = true ↔ a < b) (B : ℕ → α) (i n : ℕ)
    (hi1 : 1 ≤ i) (hin : i < n)
    (hps : ∀ p q, p ≤ q → q < i → B p ≤ B q)
    (hmax : ∀ k, k < n → B k ≤ B (i - 1)) :
    ∀ j, j ≤ i →
      (∀ p q, p ≤ q → q < j → sortRow ltb B i j p ≤ sortRow ltb B i j q) ∧
      (∀ p, p < j → sortRow ltb B i j p ≤ sortRow ltb B i j i) ∧
      (∀ k, j ≤ k → k ≠ i → sortRow ltb B i j k = B k) ∧
      (∀ p q, p ≤ q → q < i → sortRow ltb B i j p ≤ sortRow ltb B i j q) ∧
      (∀ k, k < n → sortRow ltb B i j k ≤ B (i - 1)) ∧
      (∃ m, (m = i ∨ (j ≤ m ∧ m < i)) ∧ sortRow ltb B i j m = B (i - 1)) := by
  intro j
  induction j with
  | zero =>
    intro _
    refine ⟨fun p q _ hq => absurd hq (Nat.not_lt_zero q),
      fun p hp => absurd hp (Nat.not_lt_zero p), fun k _ _ => rfl, hps, hmax,
      ⟨i - 1, Or.inr ⟨Nat.zero_le _, by omega⟩, rfl⟩⟩
  | succ j ih =>
    intro hsucc
    obtain ⟨c1, c2, c3, c4, c5, c6⟩ := ih (by omega)
    have hji : j < i := by omega
    have hjn : j < n := lt_trans hji hin
    have hij : i ≠ j := Nat.ne_of_gt hji
    have hDj : sortRow ltb B i j j = B j := c3 j le_rfl (Nat.ne_of_lt hji)
    by_cases hc : ltb (sortRow ltb B i j i) (sortRow ltb B i j j) = true
    · -- swap case
      have hS : sortRow ltb B i (j + 1) = swapIdx (sortRow ltb B i j) i j := by
        simp [sortRow, cmpSwap, hc]
      have hlt_ij : sortRow ltb B i j i < sortRow ltb B i j j := (hlt _ _).mp hc
      have sI : sortRow ltb B i (j + 1) i = sortRow ltb B i j j := by
        rw [hS]; simp [swapIdx]
      have sJ : sortRow ltb B i (j + 1) j = sortRow ltb B i j i := by
        rw [hS]; simp [swapIdx, Ne.symm hij]
      have sO : ∀ k, k ≠ i → k ≠ j →
          sortRow ltb B i (j + 1) k = sortRow ltb B i j k := by
        intro k hk1 hk2
        rw [hS]; simp [swapIdx, hk1, hk2]
      refine ⟨?_, ?_, ?_, ?_, ?_, ?_⟩
      · -- c1: processed prefix (length j+1) sorted
        intro p q hpq hq
        rcases Nat.eq_or_lt_of_le (Nat.le_of_lt_succ hq) with rfl | hqj
        · rcases Nat.eq_or_lt_of_le hpq with rfl | hpj
          · exact le_rfl
          · rw [sJ, sO p (by omega) (by omega)]
            exact c2 p hpj
        · rw [sO p (by omega) (by omega), sO q (by omega) (by omega)]
          exact c1 p q hpq hqj
      · -- c2: processed prefix below current element
        intro p hp
        rw [sI]
        rcases Nat.eq_or_lt_of_le (Nat.le_of_lt_succ hp) with rfl | hpj
        · rw [sJ]; exact le_of_lt hlt_ij
        · rw [sO p (by omega) (by omega)]
          exact le_trans (c2 p hpj) (le_of_lt hlt_ij)
      · -- c3: unprocessed positions untouched
        intro k hk hki
        rw [sO k hki (by omega)]
        exact c3 k (by omega) hki
      · -- c4: the whole prefix 0..i-1 stays sorted
        intro p q hpq hq
        by_cases hqj : q = j
        · subst hqj
          rcases Nat.eq_or_lt_of_le hpq with rfl | hpj
          · exact le_rfl
          · rw [sJ, sO p (by omega) (by omega)]
            exact c2 p hpj
        · have hqi : q ≠ i := Nat.ne_of_lt hq
          rw [sO q hqi hqj]
          by_cases hpj : p = j
          · subst hpj
            rw [sJ, c3 q (by omega) hqi]
            exact le_trans (le_of_lt (hDj ▸ hlt_ij)) (hps p q (by omega) hq)
          · rw [sO p (by omega : p ≠ i) hpj]
            exact c4 p q hpq hq
      · -- c5: values bounded by the pre-pass maximum
        intro k hk
        by_cases hki : k = i
        · subst hki; rw [sI, hDj]; exact hmax j hjn
        · by_cases hkj : k = j
          · subst hkj; rw [sJ]; exact c5 i (by omega)
          · rw [sO k hki hkj]; exact c5 k hk
      · -- c6: the maximum is at i or in the unprocessed prefix
        obtain ⟨m, hm, hDm⟩ := c6
        rcases hm with rfl | ⟨hjm, hmi⟩
        · exact absurd (hDm ▸ hlt_ij) (not_lt_of_le (c5 j hjn))
        · rcases Nat.eq_or_lt_of_le hjm with rfl | hjm2
          · exact ⟨i, Or.inl rfl, by rw [sI, hDm]⟩
          · exact ⟨m, Or.inr ⟨by omega, hmi⟩,
              by rw [sO m (Nat.ne_of_lt hmi) (by omega)]; exact hDm⟩
    · -- no-swap case
      have hS : sortRow ltb B i (j + 1) = sortRow ltb B i j := by
        simp [sortRow, cmpSwap, hc]
      have hle : sortRow ltb B i j j ≤ sortRow ltb B i j i :=
        le_of_not_lt (fun h => hc ((hlt _ _).mpr h))
      rw [hS]
      refine ⟨?_, ?_, ?_, c4, c5, ?_⟩
      · intro p q hpq hq
        rcases Nat.eq_or_lt_of_le (Nat.le_of_lt_succ hq) with rfl | hqj
        · exact c4 p q hpq hji
        · exact c1 p q hpq hqj
      · intro p hp
        rcases Nat.eq_or_lt_of_le (Nat.le_of_lt_succ hp) with rfl | hpj
        · exact hle
        · exact c2 p hpj
      · intro k hk hki
        exact c3 k (by omega) hki
      · obtain ⟨m, hm, hDm⟩ := c6
        rcases hm with rfl | ⟨hjm, hmi⟩
        · exact ⟨m, Or.inl rfl, hDm⟩
        · rcases Nat.eq_or_lt_of_le hjm with rfl | hjm2
          · refine ⟨i, Or.inl rfl, le_antisymm (c5 i (by omega)) ?_⟩
            rw [← hDm]
            exact hle
          · exact ⟨m, Or.inr ⟨by omega, hmi⟩, hDm⟩

end SwapSortProof2

section SwapSortProof3

variable {α : Type} [LinearOrder α] {ltb : α → α → Bool}

/-- Once row `i` holds a maximum after scanning the prefix, the comparisons
against positions `j ≥ i` change nothing. -/
theorem sortRow_stable (hlt : ∀ a b, ltb a b = true ↔ a < b) (B : ℕ → α) (i n : ℕ)
    (hmax2 : ∀ k, k < n → sortRow ltb B i i k ≤ sortRow ltb B i i i) :
    ∀ j, i ≤ j → j ≤ n → sortRow ltb B i j = sortRow ltb B i i := by
  intro j hij
  induction j, hij using Nat.le_induction with
  | base => intro _; rfl
  | succ j hij ih =>
    intro hjn
    have hstep := ih (by omega)
    have hc : ¬ ltb (sortRow ltb B i j i) (sortRow ltb B i j j) = true := by
      rw [hstep]
      intro h
      exact absurd ((hlt _ _).mp h) (not_lt_of_le (hmax2 j (by omega)))
    show cmpSwap ltb (sortRow ltb B i j) i j = sortRow ltb B i i
    rw [cmpSwap, if_neg hc, hstep]

/-- Net effect of the inner loop on a row `i ≥ 1` whose prefix `0..i-1` is
sorted with its maximum (a maximum of the whole array) at `i-1`: the prefix
`0..i` is sorted, a maximum sits at `i`, and positions beyond `i` are
untouched. -/
theorem sortRow_full (hlt : ∀ a b, ltb a b = true ↔ a < b) (B : ℕ → α) (i n : ℕ)
    (hi1 : 1 ≤ i) (hin : i < n)
    (hps : ∀ p q, p ≤ q → q < i → B p ≤ B q)
    (hmax : ∀ k, k < n → B k ≤ B (i - 1)) :
    (∀ p q, p ≤ q → q ≤ i → sortRow ltb B i n p ≤ sortRow ltb B i n q) ∧
    (∀ k, k < n → sortRow ltb B i n k ≤ sortRow ltb B i n i) ∧
    (∀ k, i < k → sortRow ltb B i n k = B k) := by
  obtain ⟨c1, c2, c3, _, c5, c6⟩ := sortRow_inv hlt B i n hi1 hin hps hmax i le_rfl
  have hDi : sortRow ltb B i i i = B (i - 1) := by
    obtain ⟨m, hm, hDm⟩ := c6
    rcases hm with rfl | ⟨h1, h2⟩
    · exact hDm
    · omega
  have hmax2 : ∀ k, k < n → sortRow ltb B i i k ≤ sortRow ltb B i i i := by
    intro k hk
    rw [hDi]
    exact c5 k hk
  have hfr := sortRow_stable hlt B i n hmax2 n (le_of_lt hin) le_rfl
  rw [hfr]
  refine ⟨?_, hmax2, ?_⟩
  · intro p q hpq hq
    rcases Nat.eq_or_lt_of_le hq with rfl | hq2
    · rcases Nat.eq_or_lt_of_le hpq with rfl | hp2
      · exact le_rfl
      · exact c2 p hp2
    · exact c1 p q hpq hq2
  · intro k hk
    exact c3 k (le_of_lt hk) (by omega)

/-- After `i` rows of the outer loop (`1 ≤ i ≤ n`), the prefix `0..i-1` is
sorted and a maximum of the whole array sits at position `i-1`. -/
theorem sortPassAux_inv (hlt : ∀ a b, ltb a b = true ↔ a < b) (A : ℕ → α) (n : ℕ) :
    ∀ i, 1 ≤ i → i ≤ n →
      (∀ p q, p ≤ q → q < i → sortPassAux ltb n A i p ≤ sortPassAux ltb n A i q) ∧
      (∀ k, k < n → sortPassAux ltb n A i k ≤ sortPassAux ltb n A i (i - 1)) := by
  intro i
  induction i with
  | zero => omega
  | succ i ih =>
    intro _ hin
    rcases Nat.eq_zero_or_pos i with rfl | hpos
    · constructor
      · intro p q hpq hq
        have hp0 : p = 0 := by omega
        have hq0 : q = 0 := by omega
        subst hp0; subst hq0
        exact le_rfl
      · intro k hk
        exact (sortRow_zero_inv hlt A n).1 k hk
    · obtain ⟨hps, hmax⟩ := ih hpos (by omega)
      obtain ⟨s1, s2, _⟩ :=
        sortRow_full hlt (sortPassAux ltb n A i) i n hpos (by omega) hps hmax
      constructor
      · intro p q hpq hq
        exact s1 p q hpq (by omega)
      · intro k hk
        have : i + 1 - 1 = i := rfl
        rw [this]
        exact s2 k hk

/-- The double-loop swap sort of `make_lib_from_mae` sorts the array in
nondecreasing order: this loop looks like it sorts descending but in fact
sorts ascending. -/
theorem swapSort_sorted (hlt : ∀ a b, ltb a b = true ↔ a < b) (A : ℕ → α) (n : ℕ) :
    ∀ p q, p ≤ q → q < n → swapSort ltb n A p ≤ swapSort ltb n A q := by
  intro p q hpq hq
  exact (sortPassAux_inv hlt A n n (by omega) le_rfl).1 p q hpq hq

end SwapSortProof3

/-- The executable comparison `listLtb` agrees with the lexicographic strict
order on `List ℤ` (Python list `<`). -/
theorem listLtb_iff : ∀ a b : List ℤ, listLtb a b = true ↔ a < b := by
  intro a
  induction a with
  | nil =>
    intro b
    cases b with
    | nil =>
      simp only [listLtb, Bool.false_eq_true, false_iff]
      exact List.Lex.not_nil_right _ _
    | cons b bs =>
      simp only [listLtb, true_iff]
      exact List.Lex.nil
  | cons a as ih =>
    intro b
    cases b with
    | nil =>
      simp only [listLtb, Bool.false_eq_true, false_iff]
      exact List.Lex.not_nil_right _ _
    | cons b bs =>
      by_cases hab : a < b
      · simp only [listLtb, if_pos hab, true_iff]
        exact List.Lex.rel hab
      · by_cases hba : b < a
        · simp only [listLtb, if_neg hab, if_pos hba, Bool.false_eq_true, false_iff]
          intro h
          cases h with
          | rel h => exact hab h
          | cons h => exact lt_irrefl _ hba
        · have heq : a = b := le_antisymm (le_of_not_lt hba) (le_of_not_lt hab)
          subst heq
          simp only [listLtb, if_neg hab, if_neg hba]
          rw [ih bs]
          constructor
          · intro h
            exact List.Lex.cons h
          · intro h
            exact (List.Lex.cons_iff).mp h

/-- The sorted grid-entry list produced by the double-loop sort is pairwise
nondecreasing. -/
theorem sortGridEntries_pairwise (l : List (List ℤ)) :
    (sortGridEntries l).Pairwise (· ≤ ·) := by
  rw [List.pairwise_iff_getElem]
  intro i j hi hj hij
  simp only [sortGridEntries, List.getElem_map, List.getElem_range] at hi hj ⊢
  simp only [List.length_map, List.length_range] at hi hj
  exact swapSort_sorted listLtb_iff _ _ i j (le_of_lt hij) hj

/-- Adjacent-duplicate elimination of a nondecreasing list (tail worker):
the result is strictly increasing and strictly above `prev`. -/
theorem elimAdjDupGo_sorted {α : Type} [LinearOrder α] [DecidableEq α] :
    ∀ (t : List α) (prev : α), (prev :: t).Pairwise (· ≤ ·) →
      (elimAdjDupGo prev t).Pairwise (· < ·) ∧
        ∀ x ∈ elimAdjDupGo prev t, prev < x := by
  intro t
  induction t with
  | nil => exact fun prev _ => ⟨List.Pairwise.nil, by intro x hx; cases hx⟩
  | cons b t ih =>
    intro prev h
    have hpb : prev ≤ b := (List.pairwise_cons.mp h).1 b (List.mem_cons_self b t)
    have htail : (b :: t).Pairwise (· ≤ ·) := (List.pairwise_cons.mp h).2
    by_cases hne : b ≠ prev
    · have hlt : prev < b := lt_of_le_of_ne hpb (Ne.symm hne)
      obtain ⟨hsorted, habove⟩ := ih b htail
      constructor
      · rw [show elimAdjDupGo prev (b :: t) = b :: elimAdjDupGo b t by
          simp [elimAdjDupGo, hne]]
        exact List.pairwise_cons.mpr ⟨habove, hsorted⟩
      · rw [show elimAdjDupGo prev (b :: t) = b :: elimAdjDupGo b t by
          simp [elimAdjDupGo, hne]]
        intro x hx
        rcases List.mem_cons.mp hx with rfl | hx2
        · exact hlt
        · exact lt_trans hlt (habove x hx2)
    · push_neg at hne
      subst hne
      obtain ⟨hsorted, habove⟩ := ih b htail
      rw [show elimAdjDupGo b (b :: t) = elimAdjDupGo b t by simp [elimAdjDupGo]]
      exact ⟨hsorted, habove⟩

/-- Adjacent-duplicate elimination of a nondecreasing list yields a strictly
increasing list. -/
theorem elimAdjDup_sorted {α : Type} [LinearOrder α] [DecidableEq α]
    (l : List α) (h : l.Pairwise (· ≤ ·)) : (elimAdjDup l).Pairwise (· < ·) := by
  cases l with
  | nil => exact List.Pairwise.nil
  | cons a t =>
    obtain ⟨hsorted, habove⟩ := elimAdjDupGo_sorted t a h
    exact List.pairwise_cons.mpr ⟨habove, hsorted⟩

/-- C8.  For every input sequence of torsion-value tuples and every grid
resolution, the rows that survive `make_lib_from_mae`'s double-loop swap sort
and adjacent-duplicate elimination are in strictly ascending lexicographic
order; in particular they are sorted ascending and contain no duplicate
tuples. -/
theorem claim_C8_grid_rows_sorted_nodup (torsValues : List (List ℚ)) (res : ℚ) :
    (uniqueGridEntries torsValues res).Pairwise (fun r s => List.Lex (· < ·) r s) :=
  elimAdjDup_sorted _ (sortGridEntries_pairwise (gridEntries torsValues res))

/-- C7 counterexample.  The quantization code of `make_lib_from_mae` performs
no wrapping: a torsion sample of 190 degrees on a 15-degree grid quantizes to
`round(190/15) = 13`, not to `-11` as the claim states (the samples 10 and 12
do quantize to 1 and 1); deduplication still leaves two rows. -/
theorem claim_C7_counterexample :
    gridEntries [[10], [12], [190]] 15 = [[1], [1], [13]] ∧
    gridEntries [[10], [12], [190]] 15 ≠ [[1], [1], [-11]] ∧
    uniqueGridEntries [[10], [12], [190]] 15 = [[1], [13]] := by
  have h : gridEntries [[10], [12], [190]] 15 = [[1], [1], [13]] := by
    norm_num [gridEntries, pyRound]
  refine ⟨h, by rw [h]; decide, ?_⟩
  show elimAdjDup (sortGridEntries (gridEntries [[10], [12], [190]] 15)) = [[1], [13]]
  rw [h]
  decide

/-- C7 (amended).  `make_lib_from_mae` itself never wraps: torsion values
reach the quantization already in (-180, 180] because they are produced by
`calc_tors`.  For the samples 10, 12 and -170 (the converter's representation
of 190 degrees) with a 15-degree grid, the grid indices are 1, 1 and -11, and
deduplication leaves exactly two unique rows; for a literal 190-degree sample
the index would be 13 and deduplication still leaves two rows. -/
theorem claim_C7_quantization_example :
    gridEntries [[10], [12], [-170]] 15 = [[1], [1], [-11]] ∧
    uniqueGridEntries [[10], [12], [-170]] 15 = [[-11], [1]] ∧
    (uniqueGridEntries [[10], [12], [-170]] 15).length = 2 ∧
    (uniqueGridEntries [[10], [12], [190]] 15).length = 2 := by
  have h : gridEntries [[10], [12], [-170]] 15 = [[1], [1], [-11]] := by
    norm_num [gridEntries, pyRound]
  have h2 : gridEntries [[10], [12], [190]] 15 = [[1], [1], [13]] := by
    norm_num [gridEntries, pyRound]
  have hu : uniqueGridEntries [[10], [12], [-170]] 15 = [[-11], [1]] := by
    show elimAdjDup (sortGridEntries (gridEntries [[10], [12], [-170]] 15)) = [[-11], [1]]
    rw [h]
    decide
  have hu2 : uniqueGridEntries [[10], [12], [190]] 15 = [[1], [13]] := by
    show elimAdjDup (sortGridEntries (gridEntries [[10], [12], [190]] 15)) = [[1], [13]]
    rw [h2]
    decide
  exact ⟨h, hu, by rw [hu]; rfl, by rw [hu2]; rfl⟩

/-! Lemmas about `minValue`, `maxValue` and `negCount`. -/

theorem foldl_min_le_init (t : List ℤ) (a : ℤ) : t.foldl min a ≤ a := by
  induction t generalizing a with
  | nil => exact le_rfl
  | cons b t ih => exact le_trans (ih (min a b)) (min_le_left a b)

theorem foldl_min_le_mem (t : List ℤ) (a x : ℤ) (hx : x ∈ t) : t.foldl min a ≤ x := by
  induction t generalizing a with
  | nil => cases hx
  | cons b t ih =>
    rcases List.mem_cons.mp hx with rfl | hx2
    · exact le_trans (foldl_min_le_init t (min a x)) (min_le_right a x)
    · exact ih (min a b) hx2

theorem foldl_min_mem (t : List ℤ) (a : ℤ) : t.foldl min a = a ∨ t.foldl min a ∈ t := by
  induction t generalizing a with
  | nil => exact Or.inl rfl
  | cons b t ih =>
    rcases ih (min a b) with h | h
    · rcases min_choice a b with h2 | h2
      · exact Or.inl (by rw [List.foldl_cons, h, h2])
      · exact Or.inr (by rw [List.foldl_cons, h, h2]; exact List.mem_cons_self b t)
    · exact Or.inr (List.mem_cons_of_mem b h)

theorem foldl_max_ge_init (t : List ℤ) (a : ℤ) : a ≤ t.foldl max a := by
  induction t generalizing a with
  | nil => exact le_rfl
  | cons b t ih => exact le_trans (le_max_left a b) (ih (max a b))

theorem foldl_max_ge_mem (t : List ℤ) (a x : ℤ) (hx : x ∈ t) : x ≤ t.foldl max a := by
  induction t generalizing a with
  | nil => cases hx
  | cons b t ih =>
    rcases List.mem_cons.mp hx with rfl | hx2
    · exact le_trans (le_max_right a x) (foldl_max_ge_init t (max a x))
    · exact ih (max a b) hx2

theorem foldl_max_mem (t : List ℤ) (a : ℤ) : t.foldl max a = a ∨ t.foldl max a ∈ t := by
  induction t generalizing a with
  | nil => exact Or.inl rfl
  | cons b t ih =>
    rcases ih (max a b) with h | h
    · rcases max_choice a b with h2 | h2
      · exact Or.inl (by rw [List.foldl_cons, h, h2])
      · exact Or.inr (by rw [List.foldl_cons, h, h2]; exact List.mem_cons_self b t)
    · exact Or.inr (List.mem_cons_of_mem b h)

theorem minValue_le (l : List ℤ) (u : ℕ) (hu : u < l.length) :
    minValue l ≤ l.getD u 0 := by
  cases l with
  | nil => cases hu
  | cons a t =>
    rw [List.getD_eq_getElem _ _ hu]
    rcases List.mem_cons.mp (List.getElem_mem hu) with h | h
    · rw [h]; exact foldl_min_le_init t a
    · exact foldl_min_le_mem t a _ h

theorem maxValue_ge (l : List ℤ) (u : ℕ) (hu : u < l.length) :
    l.getD u 0 ≤ maxValue l := by
  cases l with
  | nil => cases hu
  | cons a t =>
    rw [List.getD_eq_getElem _ _ hu]
    rcases List.mem_cons.mp (List.getElem_mem hu) with h | h
    · rw [h]; exact foldl_max_ge_init t a
    · exact foldl_max_ge_mem t a _ h

theorem minValue_mem (l : List ℤ) (h : l ≠ []) :
    ∃ u, u < l.length ∧ l.getD u 0 = minValue l := by
  cases l with
  | nil => exact absurd rfl h
  | cons a t =>
    rcases foldl_min_mem t a with h2 | h2
    · exact ⟨0, Nat.succ_pos _, by simpa [minValue] using h2.symm⟩
    · obtain ⟨i, hi, hgi⟩ := List.mem_iff_getElem.mp h2
      refine ⟨i + 1, by simpa using Nat.succ_lt_succ hi, ?_⟩
      rw [List.getD_eq_getElem _ _ (by simpa using Nat.succ_lt_succ hi)]
      simpa [minValue] using hgi

theorem maxValue_mem (l : List ℤ) (h : l ≠ []) :
    ∃ u, u < l.length ∧ l.getD u 0 = maxValue l := by
  cases l with
  | nil => exact absurd rfl h
  | cons a t =>
    rcases foldl_max_mem t a with h2 | h2
    · exact ⟨0, Nat.succ_pos _, by simpa [maxValue] using h2.symm⟩
    · obtain ⟨i, hi, hgi⟩ := List.mem_iff_getElem.mp h2
      refine ⟨i + 1, by simpa using Nat.succ_lt_succ hi, ?_⟩
      rw [List.getD_eq_getElem _ _ (by simpa using Nat.succ_lt_succ hi)]
      simpa [maxValue] using hgi

theorem getD_in_range_of_neg (l : List ℤ) (k : ℕ) (h : l.getD k 0 < 0) : k < l.length := by
  by_contra h2
  rw [List.getD_eq_default _ _ (by omega)] at h
  exact absurd h (by norm_num)

theorem negCount_set_le (r : List ℤ) (i : ℕ) (v : ℤ) (hv : 0 ≤ v) :
    negCount (r.set i v) ≤ negCount r := by
  induction r generalizing i with
  | nil => exact le_rfl
  | cons a t ih =>
    cases i with
    | zero =>
      simp only [List.set_cons_zero, negCount, List.countP_cons]
      have : (decide (v < 0)) = false := decide_eq_false (not_lt.mpr hv)
      simp [this]
    | succ i =>
      simp only [List.set_cons_succ, negCount, List.countP_cons]
      have := ih i
      simp only [negCount] at this
      omega

theorem negCount_set_lt (r : List ℤ) (i : ℕ) (v : ℤ) (hneg : r.getD i 0 < 0) (hv : 0 ≤ v) :
    negCount (r.set i v) < negCount r := by
  induction r generalizing i with
  | nil => exact absurd (getD_in_range_of_neg _ _ hneg) (by simp)
  | cons a t ih =>
    cases i with
    | zero =>
      simp only [List.getD_cons_zero] at hneg
      simp only [List.set_cons_zero, negCount, List.countP_cons]
      have h1 : (decide (v < 0)) = false := decide_eq_false (not_lt.mpr hv)
      have h2 : (decide (a < 0)) = true := by simpa
      simp [h1, h2]
    | succ i =>
      simp only [List.getD_cons_succ] at hneg
      simp only [List.set_cons_succ, negCount, List.countP_cons]
      have := ih i hneg
      simp only [negCount] at this
      omega

/-! Lemmas about a single conditional update (`arHalf`), one bond step
(`arStep`), one pass (`arPass`), and the loops of `assign_rank`. -/

theorem set_getD_ne (l : List ℤ) (i k : ℕ) (v : ℤ) (h : k ≠ i) :
    (l.set i v).getD k 0 = l.getD k 0 := by
  simp [List.getD_eq_getElem?_getD, List.getElem?_set_ne (Ne.symm h)]

theorem set_getD_self (l : List ℤ) (i : ℕ) (v : ℤ) (h : i < l.length) :
    (l.set i v).getD i 0 = v := by
  simp [List.getD_eq_getElem?_getD, List.getElem?_set_self, h]

theorem arHalf_length (c : ℤ) (x y : ℕ) (st : List ℤ × Bool) :
    (arHalf c x y st).1.length = st.1.length := by
  by_cases h : st.1.getD x 0 = c ∧ st.1.getD y 0 < 0
  · rw [arHalf, if_pos h]
    exact List.length_set _ _ _
  · rw [arHalf, if_neg h]

theorem arHalf_flag_mono (c : ℤ) (x y : ℕ) (st : List ℤ × Bool) (h : st.2 = true) :
    (arHalf c x y st).2 = true := by
  by_cases hcond : st.1.getD x 0 = c ∧ st.1.getD y 0 < 0
  · rw [arHalf, if_pos hcond]
  · rw [arHalf, if_neg hcond]
    exact h

theorem arHalf_unchanged (c : ℤ) (x y : ℕ) (st : List ℤ × Bool)
    (h : (arHalf c x y st).2 = false) :
    arHalf c x y st = st ∧ ¬(st.1.getD x 0 = c ∧ st.1.getD y 0 < 0) := by
  by_cases hcond : st.1.getD x 0 = c ∧ st.1.getD y 0 < 0
  · rw [arHalf, if_pos hcond] at h
    cases h
  · exact ⟨by rw [arHalf, if_neg hcond], hcond⟩

theorem arHalf_change (c : ℤ) (x y : ℕ) (st : List ℤ × Bool) (hc : 0 ≤ c) :
    ∀ k, (arHalf c x y st).1.getD k 0 ≠ st.1.getD k 0 →
      st.1.getD k 0 < 0 ∧ (arHalf c x y st).1.getD k 0 = c + 1 := by
  intro k hk
  by_cases hcond : st.1.getD x 0 = c ∧ st.1.getD y 0 < 0
  · rw [arHalf, if_pos hcond] at hk ⊢
    by_cases hky : k = y
    · subst hky
      have hrange : k < st.1.length := getD_in_range_of_neg _ _ hcond.2
      refine ⟨hcond.2, ?_⟩
      rw [set_getD_self _ _ _ hrange, hcond.1]
    · exact absurd (set_getD_ne _ _ _ _ hky) hk
  · rw [arHalf, if_neg hcond] at hk
    exact absurd rfl hk

theorem arHalf_negCount_le (c : ℤ) (x y : ℕ) (st : List ℤ × Bool) (hc : 0 ≤ c) :
    negCount (arHalf c x y st).1 ≤ negCount st.1 := by
  by_cases hcond : st.1.getD x 0 = c ∧ st.1.getD y 0 < 0
  · rw [arHalf, if_pos hcond]
    exact negCount_set_le _ _ _ (by omega)
  · rw [arHalf, if_neg hcond]

theorem arHalf_negCount_lt (c : ℤ) (x y : ℕ) (st : List ℤ × Bool) (hc : 0 ≤ c)
    (h0 : st.2 = false) (h1 : (arHalf c x y st).2 = true) :
    negCount (arHalf c x y st).1 < negCount st.1 := by
  by_cases hcond : st.1.getD x 0 = c ∧ st.1.getD y 0 < 0
  · rw [arHalf, if_pos hcond]
    exact negCount_set_lt _ _ _ hcond.2 (by omega)
  · rw [arHalf, if_neg hcond] at h1
    rw [h0] at h1
    cases h1

theorem arHalf_reach (c : ℤ) (x y : ℕ) (st : List ℤ × Bool) (R : ℕ → Prop) (n : ℕ)
    (hc : 0 ≤ c) (hlen : st.1.length = n) (hx : x < n) (hy : y < n)
    (hRxy : R x → R y) (hP : ∀ k, k < n → 0 ≤ st.1.getD k 0 → R k) :
    ∀ k, k < n → 0 ≤ (arHalf c x y st).1.getD k 0 → R k := by
  intro k hk hval
  by_cases hcond : st.1.getD x 0 = c ∧ st.1.getD y 0 < 0
  · by_cases hky : k = y
    · subst hky
      exact hRxy (hP x hx (hcond.1 ▸ hc))
    · rw [arHalf, if_pos hcond] at hval
      rw [set_getD_ne _ _ _ _ hky] at hval
      exact hP k hk hval
  · rw [arHalf, if_neg hcond] at hval
    exact hP k hk hval

theorem arStep_length (c : ℤ) (st : List ℤ × Bool) (b : ℕ × ℕ) :
    (arStep c st b).1.length = st.1.length := by
  rw [arStep, arHalf_length, arHalf_length]

theorem arStep_flag_mono (c : ℤ) (st : List ℤ × Bool) (b : ℕ × ℕ) (h : st.2 = true) :
    (arStep c st b).2 = true :=
  arHalf_flag_mono _ _ _ _ (arHalf_flag_mono _ _ _ _ h)

theorem arStep_unchanged (c : ℤ) (st : List ℤ × Bool) (b : ℕ × ℕ)
    (h : (arStep c st b).2 = false) :
    arStep c st b = st ∧ ¬(st.1.getD b.1 0 = c ∧ st.1.getD b.2 0 < 0) ∧
      ¬(st.1.getD b.2 0 = c ∧ st.1.getD b.1 0 < 0) := by
  have hM : (arHalf c b.1 b.2 st).2 = false := by
    by_contra h2
    rw [arStep] at h
    rw [arHalf_flag_mono _ _ _ _ (Bool.of_not_eq_false h2)] at h
    cases h
  obtain ⟨hMeq, hMcond⟩ := arHalf_unchanged _ _ _ _ hM
  rw [arStep, hMeq] at h ⊢
  obtain ⟨hOeq, hOcond⟩ := arHalf_unchanged _ _ _ _ h
  exact ⟨hOeq, hMcond, hOcond⟩

theorem arStep_change (c : ℤ) (st : List ℤ × Bool) (b : ℕ × ℕ) (hc : 0 ≤ c) :
    ∀ k, (arStep c st b).1.getD k 0 ≠ st.1.getD k 0 →
      st.1.getD k 0 < 0 ∧ (arStep c st b).1.getD k 0 = c + 1 := by
  intro k hk
  rw [arStep] at hk ⊢
  by_cases hmid : (arHalf c b.1 b.2 st).1.getD k 0 = st.1.getD k 0
  · rw [← hmid] at hk ⊢
    exact (arHalf_change _ _ _ _ hc k hk).imp (hmid ▸ id) id
  · obtain ⟨hneg, hval⟩ := arHalf_change c b.1 b.2 st hc k hmid
    by_cases houter : (arHalf c b.2 b.1 (arHalf c b.1 b.2 st)).1.getD k 0 =
        (arHalf c b.1 b.2 st).1.getD k 0
    · rw [houter, hval]
      exact ⟨hneg, rfl⟩
    · obtain ⟨hneg2, _⟩ := arHalf_change c b.2 b.1 _ hc k houter
      rw [hval] at hneg2
      omega

theorem arStep_negCount_le (c : ℤ) (st : List ℤ × Bool) (b : ℕ × ℕ) (hc : 0 ≤ c) :
    negCount (arStep c st b).1 ≤ negCount st.1 :=
  le_trans (arHalf_negCount_le _ _ _ _ hc) (arHalf_negCount_le _ _ _ _ hc)

theorem arStep_negCount_lt (c : ℤ) (st : List ℤ × Bool) (b : ℕ × ℕ) (hc : 0 ≤ c)
    (h0 : st.2 = false) (h1 : (arStep c st b).2 = true) :
    negCount (arStep c st b).1 < negCount st.1 := by
  rw [arStep] at h1 ⊢
  by_cases hM : (arHalf c b.1 b.2 st).2 = true
  · exact lt_of_le_of_lt (arHalf_negCount_le _ _ _ _ hc)
      (arHalf_negCount_lt _ _ _ _ hc h0 hM)
  · have hMeq := (arHalf_unchanged _ _ _ _ (Bool.eq_false_iff.mpr hM)).1
    rw [hMeq] at h1 ⊢
    exact arHalf_negCount_lt _ _ _ _ hc h0 h1

theorem arStep_reach (c : ℤ) (st : List ℤ × Bool) (b : ℕ × ℕ) (R : ℕ → Prop) (n : ℕ)
    (hc : 0 ≤ c) (hlen : st.1.length = n) (hb1 : b.1 < n) (hb2 : b.2 < n)
    (hR12 : R b.1 → R b.2) (hR21 : R b.2 → R b.1)
    (hP : ∀ k, k < n → 0 ≤ st.1.getD k 0 → R k) :
    ∀ k, k < n → 0 ≤ (arStep c st b).1.getD k 0 → R k := by
  rw [arStep]
  exact arHalf_reach c b.2 b.1 _ R n hc (by rw [arHalf_length, hlen]) hb2 hb1 hR21
    (arHalf_reach c b.1 b.2 st R n hc hlen hb1 hb2 hR12 hP)

theorem arPass_length (bonds : List (ℕ × ℕ)) (c : ℤ) (st : List ℤ × Bool) :
    (arPass bonds c st).1.length = st.1.length := by
  induction bonds generalizing st with
  | nil => rfl
  | cons b bonds ih =>
    rw [arPass, List.foldl_cons, ← arPass]
    rw [ih, arStep_length]

theorem arPass_flag_mono (bonds : List (ℕ × ℕ)) (c : ℤ) (st : List ℤ × Bool)
    (h : st.2 = true) : (arPass bonds c st).2 = true := by
  induction bonds generalizing st with
  | nil => exact h
  | cons b bonds ih =>
    rw [arPass, List.foldl_cons, ← arPass]
    exact ih _ (arStep_flag_mono _ _ _ h)

theorem arPass_unchanged (bonds : List (ℕ × ℕ)) (c : ℤ) (st : List ℤ × Bool)
    (h : (arPass bonds c st).2 = false) :
    arPass bonds c st = st ∧ ∀ b ∈ bonds,
      ¬(st.1.getD b.1 0 = c ∧ st.1.getD b.2 0 < 0) ∧
      ¬(st.1.getD b.2 0 = c ∧ st.1.getD b.1 0 < 0) := by
  induction bonds generalizing st with
  | nil => exact ⟨rfl, by intro b hb; cases hb⟩
  | cons b bonds ih =>
    rw [arPass, List.foldl_cons, ← arPass] at h ⊢
    have hstep : (arStep c st b).2 = false := by
      by_contra h2
      rw [arPass_flag_mono bonds c _ (Bool.of_not_eq_false h2)] at h
      cases h
    obtain ⟨hseq, hc1, hc2⟩ := arStep_unchanged _ _ _ hstep
    rw [hseq] at h ⊢
    obtain ⟨hfeq, hrest⟩ := ih _ h
    refine ⟨hfeq, ?_⟩
    intro b2 hb2
    rcases List.mem_cons.mp hb2 with rfl | hb3
    · exact ⟨hc1, hc2⟩
    · exact hrest b2 hb3

theorem arPass_change (bonds : List (ℕ × ℕ)) (c : ℤ) (st : List ℤ × Bool) (hc : 0 ≤ c) :
    ∀ k, (arPass bonds c st).1.getD k 0 ≠ st.1.getD k 0 →
      st.1.getD k 0 < 0 ∧ (arPass bonds c st).1.getD k 0 = c + 1 := by
  induction bonds generalizing st with
  | nil => exact fun k hk => absurd rfl hk
  | cons b bonds ih =>
    intro k hk
    rw [arPass, List.foldl_cons, ← arPass] at hk ⊢
    by_cases hmid : (arStep c st b).1.getD k 0 = st.1.getD k 0
    · rw [← hmid] at hk ⊢
      exact (ih _ k hk).imp (hmid ▸ id) id
    · obtain ⟨hneg, hval⟩ := arStep_change c st b hc k hmid
      by_cases houter : (arPass bonds c (arStep c st b)).1.getD k 0 =
          (arStep c st b).1.getD k 0
      · rw [houter, hval]
        exact ⟨hneg, rfl⟩
      · obtain ⟨hneg2, _⟩ := ih _ k houter
        rw [hval] at hneg2
        omega

theorem arPass_preserve (bonds : List (ℕ × ℕ)) (c : ℤ) (st : List ℤ × Bool) (hc : 0 ≤ c) :
    ∀ k, 0 ≤ st.1.getD k 0 → (arPass bonds c st).1.getD k 0 = st.1.getD k 0 := by
  intro k hk
  by_contra h
  obtain ⟨hneg, _⟩ := arPass_change bonds c st hc k h
  omega

theorem arPass_negCount_le (bonds : List (ℕ × ℕ)) (c : ℤ) (st : List ℤ × Bool)
    (hc : 0 ≤ c) : negCount (arPass bonds c st).1 ≤ negCount st.1 := by
  induction bonds generalizing st with
  | nil => exact le_rfl
  | cons b bonds ih =>
    rw [arPass, List.foldl_cons, ← arPass]
    exact le_trans (ih _) (arStep_negCount_le _ _ _ hc)

theorem arPass_negCount_lt (bonds : List (ℕ × ℕ)) (c : ℤ) (st : List ℤ × Bool)
    (hc : 0 ≤ c) (h0 : st.2 = false) (h1 : (arPass bonds c st).2 = true) :
    negCount (arPass bonds c st).1 < negCount st.1 := by
  induction bonds generalizing st with
  | nil => rw [arPass, List.foldl_nil] at h1; rw [h0] at h1; cases h1
  | cons b bonds ih =>
    rw [arPass, List.foldl_cons, ← arPass] at h1 ⊢
    by_cases hstep : (arStep c st b).2 = true
    · exact lt_of_le_of_lt (arPass_negCount_le _ _ _ hc)
        (arStep_negCount_lt _ _ _ hc h0 hstep)
    · have hseq := (arStep_unchanged _ _ _ (Bool.eq_false_iff.mpr hstep)).1
      rw [hseq] at h1 ⊢
      exact ih _ h0 h1

theorem arPass_reach (bonds2 bonds : List (ℕ × ℕ)) (c : ℤ) (st : List ℤ × Bool)
    (R : ℕ → Prop) (n : ℕ) (hc : 0 ≤ c) (hlen : st.1.length = n)
    (hwf : ∀ b ∈ bonds2, b.1 < n ∧ b.2 < n)
    (hadj : ∀ b ∈ bonds2, (R b.1 → R b.2) ∧ (R b.2 → R b.1))
    (hP : ∀ k, k < n → 0 ≤ st.1.getD k 0 → R k) :
    ∀ k, k < n → 0 ≤ (arPass bonds2 c st).1.getD k 0 → R k := by
  induction bonds2 generalizing st with
  | nil => exact hP
  | cons b bonds2 ih =>
    rw [arPass, List.foldl_cons, ← arPass]
    have hb := hwf b (List.mem_cons_self b bonds2)
    have hbadj := hadj b (List.mem_cons_self b bonds2)
    exact ih _ (by rw [arStep_length, hlen])
      (fun b2 hb2 => hwf b2 (List.mem_cons_of_mem b hb2))
      (fun b2 hb2 => hadj b2 (List.mem_cons_of_mem b hb2))
      (arStep_reach c st b R n hc hlen hb.1 hb.2 hbadj.1 hbadj.2 hP)

theorem list_ne_exists_getD (r2 r : List ℤ) (hlen : r2.length = r.length) (hne : r2 ≠ r) :
    ∃ k, k < r.length ∧ r2.getD k 0 ≠ r.getD k 0 := by
  by_contra h
  push_neg at h
  refine hne (List.ext_getElem hlen ?_)
  intro k hk1 hk2
  have := h k hk2
  rwa [List.getD_eq_getElem _ _ hk1, List.getD_eq_getElem _ _ hk2] at this

theorem negCount_zero_min (r : List ℤ) (h : negCount r = 0) : ¬ minValue r < 0 := by
  intro hmin
  have hne : r ≠ [] := by
    intro h2
    rw [h2] at hmin
    exact absurd hmin (by norm_num [minValue])
  obtain ⟨u, hu, hval⟩ := minValue_mem r hne
  have hmem : r.getD u 0 ∈ r := by
    rw [List.getD_eq_getElem _ _ hu]
    exact List.getElem_mem hu
  have : 0 < negCount r := by
    rw [negCount]
    refine List.countP_pos.mpr ⟨r.getD u 0, hmem, ?_⟩
    simp only [decide_eq_true_eq]
    omega
  omega

theorem arInner_mono (bonds : List (ℕ × ℕ)) (c : ℤ) :
    ∀ f r x, arInner f bonds c r = some x → ∀ f2, f ≤ f2 → arInner f2 bonds c r = some x := by
  intro f
  induction f with
  | zero => intro r x h; cases h
  | succ f ih =>
    intro r x h f2 hf2
    obtain ⟨f3, rfl⟩ : ∃ f3, f2 = f3 + 1 := ⟨f2 - 1, by omega⟩
    rw [arInner] at h ⊢
    by_cases hflag : (arPass bonds c (r, false)).2 = true
    · rw [if_pos hflag] at h ⊢
      exact ih _ _ h f3 (by omega)
    · rw [if_neg hflag] at h ⊢
      exact h

theorem arInner_some (bonds : List (ℕ × ℕ)) (c : ℤ) (hc : 0 ≤ c) :
    ∀ f r, negCount r + 1 ≤ f →
      ∃ r2, arInner f bonds c r = some r2 ∧
        (arPass bonds c (r2, false)).2 = false ∧
        r2.length = r.length ∧
        (∀ k, 0 ≤ r.getD k 0 → r2.getD k 0 = r.getD k 0) ∧
        (∀ k, r2.getD k 0 ≠ r.getD k 0 → r.getD k 0 < 0 ∧ r2.getD k 0 = c + 1) ∧
        (r2 = r ∨ negCount r2 < negCount r) := by
  intro f
  induction f with
  | zero => intro r hf; omega
  | succ f ih =>
    intro r hf
    by_cases hflag : (arPass bonds c (r, false)).2 = true
    · have hlt : negCount (arPass bonds c (r, false)).1 < negCount r :=
        arPass_negCount_lt bonds c (r, false) hc rfl hflag
      obtain ⟨r2, hi, hfix, hlen, hpres, hchange, hdisj⟩ :=
        ih (arPass bonds c (r, false)).1 (by omega)
      refine ⟨r2, ?_, hfix, ?_, ?_, ?_, ?_⟩
      · rw [arInner, if_pos hflag]
        exact hi
      · rw [hlen, arPass_length]
      · intro k hk
        have hmid := arPass_preserve bonds c (r, false) hc k hk
        rw [hpres k (by rw [hmid]; exact hk), hmid]
      · intro k hk
        by_cases hmid : (arPass bonds c (r, false)).1.getD k 0 = r.getD k 0
        · obtain ⟨hneg, hval⟩ := hchange k (by rw [hmid]; exact hk)
          exact ⟨by rw [← hmid]; exact hneg, hval⟩
        · obtain ⟨hneg, hval⟩ := arPass_change bonds c (r, false) hc k hmid
          refine ⟨hneg, ?_⟩
          by_cases hout : r2.getD k 0 = (arPass bonds c (r, false)).1.getD k 0
          · rw [hout, hval]
          · obtain ⟨hneg2, _⟩ := hchange k hout
            rw [hval] at hneg2
            omega
      · right
        rcases hdisj with rfl | hlt2
        · exact hlt
        · exact lt_trans hlt2 hlt
    · refine ⟨(arPass bonds c (r, false)).1, ?_, ?_, ?_, ?_, ?_, ?_⟩
      · rw [arInner, if_neg hflag]
      · rw [(arPass_unchanged bonds c (r, false) (Bool.eq_false_iff.mpr hflag)).1]
        exact Bool.eq_false_iff.mpr hflag
      · exact arPass_length _ _ _
      · intro k hk
        exact arPass_preserve bonds c (r, false) hc k hk
      · exact arPass_change bonds c (r, false) hc
      · left
        rw [(arPass_unchanged bonds c (r, false) (Bool.eq_false_iff.mpr hflag)).1]

theorem arInner_inv (bonds : List (ℕ × ℕ)) (c : ℤ) (hc : 0 ≤ c) :
    ∀ f r r2, arInner f bonds c r = some r2 →
      r2.length = r.length ∧
      (∀ k, 0 ≤ r.getD k 0 → r2.getD k 0 = r.getD k 0) := by
  intro f
  induction f with
  | zero => intro r r2 h; cases h
  | succ f ih =>
    intro r r2 h
    rw [arInner] at h
    by_cases hflag : (arPass bonds c (r, false)).2 = true
    · rw [if_pos hflag] at h
      obtain ⟨hlen, hpres⟩ := ih _ _ h
      constructor
      · rw [hlen, arPass_length]
      · intro k hk
        have hmid := arPass_preserve bonds c (r, false) hc k hk
        rw [hpres k (by rw [hmid]; exact hk), hmid]
    · rw [if_neg hflag] at h
      cases h
      exact ⟨arPass_length _ _ _, arPass_preserve bonds c (r, false) hc⟩

theorem arInner_reach (bonds : List (ℕ × ℕ)) (c : ℤ) (R : ℕ → Prop) (n : ℕ)
    (hc : 0 ≤ c)
    (hwf : ∀ b ∈ bonds, b.1 < n ∧ b.2 < n)
    (hadj : ∀ b ∈ bonds, (R b.1 → R b.2) ∧ (R b.2 → R b.1)) :
    ∀ f r r2, arInner f bonds c r = some r2 → r.length = n →
      (∀ k, k < n → 0 ≤ r.getD k 0 → R k) →
      (∀ k, k < n → 0 ≤ r2.getD k 0 → R k) := by
  intro f
  induction f with
  | zero => intro r r2 h; cases h
  | succ f ih =>
    intro r r2 h hlen hP
    rw [arInner] at h
    have hP2 := arPass_reach bonds bonds c (r, false) R n hc hlen hwf hadj hP
    by_cases hflag : (arPass bonds c (r, false)).2 = true
    · rw [if_pos hflag] at h
      exact ih _ _ h (by rw [arPass_length, hlen]) hP2
    · rw [if_neg hflag] at h
      cases h
      exact hP2

theorem arOuter_mono (bonds : List (ℕ × ℕ)) :
    ∀ f r x, arOuter f bonds r = some x → ∀ f2, f ≤ f2 → arOuter f2 bonds r = some x := by
  intro f
  induction f with
  | zero => intro r x h; cases h
  | succ f ih =>
    intro r x h f2 hf2
    obtain ⟨f3, rfl⟩ : ∃ f3, f2 = f3 + 1 := ⟨f2 - 1, by omega⟩
    rw [arOuter] at h ⊢
    by_cases hmin : minValue r < 0
    · rw [if_pos hmin] at h ⊢
      cases heq : arInner f bonds (maxValue r) r with
      | none => rw [heq] at h; cases h
      | some r2 =>
        rw [heq] at h
        rw [arInner_mono bonds _ f r r2 heq f3 (by omega)]
        exact ih _ _ h f3 (by omega)
    · rw [if_neg hmin] at h ⊢
      exact h

/-- When some atom of the graph is not reachable from the initially ranked
set, the outer loop of `assign_rank` never exits: for every fuel the result
is `none`. -/
theorem arOuter_none (bonds : List (ℕ × ℕ)) (R : ℕ → Prop) (n : ℕ)
    (hwf : ∀ b ∈ bonds, b.1 < n ∧ b.2 < n)
    (hadj : ∀ b ∈ bonds, (R b.1 → R b.2) ∧ (R b.2 → R b.1))
    (u : ℕ) (hu : u < n) (hRu : ¬ R u) :
    ∀ f r, r.length = n → (∀ k, k < n → 0 ≤ r.getD k 0 → R k) →
      (∃ s, s < n ∧ 0 ≤ r.getD s 0) →
      arOuter f bonds r = none := by
  intro f
  induction f with
  | zero => intro r _ _ _; rfl
  | succ f ih =>
    intro r hlen hP hranked
    obtain ⟨s, hs, hsval⟩ := hranked
    have hun : r.getD u 0 < 0 := by
      by_contra h2
      exact hRu (hP u hu (by omega))
    have hmin : minValue r < 0 :=
      lt_of_le_of_lt (minValue_le r u (by omega)) hun
    have hc : 0 ≤ maxValue r :=
      le_trans hsval (maxValue_ge r s (by omega))
    rw [arOuter, if_pos hmin]
    cases heq : arInner f bonds (maxValue r) r with
    | none => rfl
    | some r2 =>
      obtain ⟨hlen2, hpres⟩ := arInner_inv bonds _ hc f r r2 heq
      refine ih r2 (by rw [hlen2, hlen]) ?_ ⟨s, hs, ?_⟩
      · exact arInner_reach bonds _ R n hc hwf hadj f r r2 heq hlen hP
      · rw [hpres s hsval]
        exact hsval

/-- When every atom is reachable from the initially ranked set, the outer
loop of `assign_rank` terminates with enough fuel.  `SG` is the set of atoms
ranked 0 at the start (the rigid group of the start atom). -/
theorem arOuter_term (bonds : List (ℕ × ℕ)) (n : ℕ) (SG : ℕ → Prop)
    (hwf : ∀ b ∈ bonds, b.1 < n ∧ b.2 < n)
    (hall : ∀ j, j < n → ∃ s, s < n ∧ SG s ∧
      Relation.ReflTransGen (adjacentBond bonds) s j) :
    ∀ N r, negCount r ≤ N → r.length = n →
      (∀ s, s < n → SG s → 0 ≤ r.getD s 0) →
      (∃ s, s < n ∧ 0 ≤ r.getD s 0) →
      (∀ k, k < n → 0 ≤ r.getD k 0 → r.getD k 0 < maxValue r →
        ∀ m, m < n → adjacentBond bonds k m → 0 ≤ r.getD m 0) →
      ∃ f r2, arOuter f bonds r = some r2 := by
  intro N
  induction N with
  | zero =>
    intro r hN _ _ _ _
    refine ⟨1, r, ?_⟩
    rw [arOuter, if_neg (negCount_zero_min r (by omega))]
  | succ N ih =>
    intro r hN hlen hSG hranked hclosed
    by_cases hmin : minValue r < 0
    · obtain ⟨s0, hs0, hs0val⟩ := hranked
      have hc : 0 ≤ maxValue r := le_trans hs0val (maxValue_ge r s0 (by omega))
      obtain ⟨r2, hinner, hfix, hlen2, hpres, hchange, hdisj⟩ :=
        arInner_some bonds (maxValue r) hc (negCount r + 1) r le_rfl
      -- if the inner loop changed nothing, every ranked atom has ranked
      -- neighbors, hence every reachable atom is ranked, contradicting hmin
      have hprog : negCount r2 < negCount r := by
        rcases hdisj with heq | h2
        · exfalso
          rw [heq] at hfix
          have hallranked : ∀ k, k < n → 0 ≤ r.getD k 0 →
              ∀ m, m < n → adjacentBond bonds k m → 0 ≤ r.getD m 0 := by
            intro k hk hkval m hm hkm
            rcases lt_trichotomy (r.getD k 0) (maxValue r) with h3 | h3 | h3
            · exact hclosed k hk hkval h3 m hm hkm
            · obtain ⟨heq2, hconds⟩ := arPass_unchanged bonds (maxValue r) (r, false) hfix
              rcases hkm with hb | hb
              · have hcc : ¬(r.getD k 0 = maxValue r ∧ r.getD m 0 < 0) :=
                  (hconds (k, m) hb).1
                push_neg at hcc
                have := hcc h3
                omega
              · have hcc : ¬(r.getD k 0 = maxValue r ∧ r.getD m 0 < 0) :=
                  (hconds (m, k) hb).2
                push_neg at hcc
                have := hcc h3
                omega
            · exact absurd (maxValue_ge r k (by omega)) (not_le.mpr h3)
          have hreach : ∀ j, j < n → 0 ≤ r.getD j 0 := by
            intro j hj
            obtain ⟨s, hs, hsSG, hpath⟩ := hall j hj
            clear hj
            induction hpath with
            | refl => exact hSG s hs hsSG
            | tail hp hstep ihp =>
              rename_i m j2
              have hm : m < n := by
                rcases hstep with hb | hb
                · exact (hwf _ hb).1
                · exact (hwf _ hb).2
              have hj2 : j2 < n := by
                rcases hstep with hb | hb
                · exact (hwf _ hb).2
                · exact (hwf _ hb).1
              exact hallranked m hm ihp j2 hj2 hstep
          obtain ⟨v, hv, hvval⟩ := minValue_mem r (by
            intro h2
            rw [h2] at hmin
            exact absurd hmin (by norm_num [minValue]))
          have := hreach v (by omega)
          omega
        · exact h2
      -- the new maximum is maxValue r + 1
      have hne : r2 ≠ r := by
        intro h2
        rw [h2] at hprog
        omega
      obtain ⟨kd, hkd, hkdne⟩ := list_ne_exists_getD r2 r (by rw [hlen2]) hne
      obtain ⟨hkdneg, hkdval⟩ := hchange kd hkdne
      have hmax2 : maxValue r2 = maxValue r + 1 := by
        refine le_antisymm ?_ ?_
        · obtain ⟨w, hw, hwval⟩ := maxValue_mem r2 (by
            refine List.length_pos.mp ?_
            rw [hlen2]
            omega)
          rw [← hwval]
          by_cases hwch : r2.getD w 0 = r.getD w 0
          · rw [hwch]
            have := maxValue_ge r w (by rw [← hlen2]; exact hw)
            omega
          · rw [(hchange w hwch).2]
        · rw [← hkdval]
          exact maxValue_ge r2 kd (by rw [hlen2]; exact hkd)
      have hSG2 : ∀ s, s < n → SG s → 0 ≤ r2.getD s 0 := by
        intro s hs hsSG
        rw [hpres s (hSG s hs hsSG)]
        exact hSG s hs hsSG
      have hranked2 : ∃ s, s < n ∧ 0 ≤ r2.getD s 0 := by
        refine ⟨s0, hs0, ?_⟩
        rw [hpres s0 hs0val]
        exact hs0val
      have hclosed2 : ∀ k, k < n → 0 ≤ r2.getD k 0 → r2.getD k 0 < maxValue r2 →
          ∀ m, m < n → adjacentBond bonds k m → 0 ≤ r2.getD m 0 := by
        intro k hk hkval hkmax m hm hkm
        rw [hmax2] at hkmax
        by_cases hkch : r2.getD k 0 = r.getD k 0
        · rcases lt_trichotomy (r.getD k 0) (maxValue r) with h3 | h3 | h3
          · -- old rank below the old maximum: old closure applies
            have := hclosed k hk (by omega) h3 m hm hkm
            rw [hpres m this]
            exact this
          · -- rank equal to the old maximum: the pass fixpoint on r2 applies
            obtain ⟨_, hconds⟩ := arPass_unchanged bonds (maxValue r) (r2, false) hfix
            rcases hkm with hb | hb
            · have hcc : ¬(r2.getD k 0 = maxValue r ∧ r2.getD m 0 < 0) :=
                (hconds (k, m) hb).1
              push_neg at hcc
              have := hcc (by rw [hkch]; exact h3)
              omega
            · have hcc : ¬(r2.getD k 0 = maxValue r ∧ r2.getD m 0 < 0) :=
                (hconds (m, k) hb).2
              push_neg at hcc
              have := hcc (by rw [hkch]; exact h3)
              omega
          · exact absurd (maxValue_ge r k (by omega)) (not_le.mpr h3)
        · rw [(hchange k hkch).2] at hkmax
          omega
      obtain ⟨f2, r3, hf3⟩ :=
        ih r2 (by omega) (by rw [hlen2, hlen]) hSG2 hranked2 hclosed2
      refine ⟨max (negCount r + 1) f2 + 1, r3, ?_⟩
      rw [arOuter, if_pos hmin]
      rw [arInner_mono bonds _ _ _ _ hinner _ (le_max_left _ _)]
      exact arOuter_mono bonds f2 r2 _ hf3 _ (le_max_right _ _)
    · exact ⟨1, r, by rw [arOuter, if_neg hmin]⟩

theorem assignRankGroup_aux (assign : List ℤ) (t v : ℤ) (rank : List ℤ) :
    ∀ n, n ≤ rank.length →
      (((List.range n).foldl
          (fun r i => if assign.getD i 0 = t then r.set i v else r) rank).length
            = rank.length) ∧
      (∀ k, k < n → ((List.range n).foldl
          (fun r i => if assign.getD i 0 = t then r.set i v else r) rank).getD k 0 =
            if assign.getD k 0 = t then v else rank.getD k 0) ∧
      (∀ k, n ≤ k → ((List.range n).foldl
          (fun r i => if assign.getD i 0 = t then r.set i v else r) rank).getD k 0 =
            rank.getD k 0) := by
  intro n
  induction n with
  | zero => exact fun _ => ⟨rfl, fun k hk => absurd hk (Nat.not_lt_zero k), fun k _ => rfl⟩
  | succ n ih =>
    intro hn
    obtain ⟨ihlen, ihin, ihout⟩ := ih (by omega)
    rw [List.range_succ, List.foldl_append, List.foldl_cons, List.foldl_nil]
    by_cases hcond : assign.getD n 0 = t
    · rw [if_pos hcond]
      refine ⟨by rw [List.length_set, ihlen], ?_, ?_⟩
      · intro k hk
        rcases Nat.eq_or_lt_of_le (Nat.le_of_lt_succ hk) with rfl | hk2
        · rw [set_getD_self _ _ _ (by rw [ihlen]; omega), if_pos hcond]
        · rw [set_getD_ne _ _ _ _ (by omega)]
          exact ihin k hk2
      · intro k hk
        rw [set_getD_ne _ _ _ _ (by omega)]
        exact ihout k (by omega)
    · rw [if_neg hcond]
      refine ⟨ihlen, ?_, fun k hk => ihout k (by omega)⟩
      intro k hk
      rcases Nat.eq_or_lt_of_le (Nat.le_of_lt_succ hk) with rfl | hk2
      · rw [if_neg hcond]
        exact ihout k le_rfl
      · exact ihin k hk2

/-- Characterization of the initial rank list built by `assign_rank`: rank 0
on the rigid group of the start atom, -1 everywhere else. -/
theorem assignRankGroup_spec (atomNum : ℤ) (assign : List ℤ) :
    (assignRankGroup atomNum assign (assign.map (fun _ => (-1 : ℤ))) 0).length
      = assign.length ∧
    ∀ k, k < assign.length →
      (assignRankGroup atomNum assign (assign.map (fun _ => (-1 : ℤ))) 0).getD k 0 =
        if assign.getD k 0 = pyGet assign atomNum then 0 else -1 := by
  have hmaplen : (assign.map (fun _ => (-1 : ℤ))).length = assign.length :=
    List.length_map _ _
  obtain ⟨hlen, hin, _⟩ :=
    assignRankGroup_aux assign (pyGet assign atomNum) 0
      (assign.map (fun _ => (-1 : ℤ))) assign.length (by rw [hmaplen])
  refine ⟨by rw [assignRankGroup, hlen, hmaplen], ?_⟩
  intro k hk
  rw [assignRankGroup, hin k hk]
  by_cases hcond : assign.getD k 0 = pyGet assign atomNum
  · rw [if_pos hcond, if_pos hcond]
  · rw [if_neg hcond, if_neg hcond]
    rw [List.getD_eq_getElem _ _ (by rw [hmaplen]; exact hk), List.getElem_map]

/-- C10.  `assign_rank` terminates exactly when every atom is reachable
through the bond list from the rigid group containing the start atom: with
full reachability some fuel makes the embedded loops return a rank list,
and with any unreachable atom the outer loop makes no further assignments
and never exits (the result is `none` for every fuel). -/
theorem claim_C10_assign_rank_termination
    (bonds : List (ℕ × ℕ)) (assign : List ℤ) (atomNum : ℤ)
    (hwf : ∀ b ∈ bonds, b.1 < assign.length ∧ b.2 < assign.length)
    (hs : ∃ s, s < assign.length ∧ assign.getD s 0 = pyGet assign atomNum) :
    ((∀ j, j < assign.length → reachesFromGroup bonds assign atomNum j) →
      ∃ fuel r, assignRank fuel bonds assign atomNum = some r) ∧
    ((∃ u, u < assign.length ∧ ¬ reachesFromGroup bonds assign atomNum u) →
      ∀ fuel, assignRank fuel bonds assign atomNum = none) := by
  obtain ⟨hlen0, hchar⟩ := assignRankGroup_spec atomNum assign
  obtain ⟨s1, hs1, hs1g⟩ := hs
  set r0 := assignRankGroup atomNum assign (assign.map (fun _ => (-1 : ℤ))) 0 with hr0def
  have hSGr : ∀ s, s < assign.length → assign.getD s 0 = pyGet assign atomNum →
      0 ≤ r0.getD s 0 := by
    intro s hs2 hst
    rw [hchar s hs2, if_pos hst]
  have hrk : ∃ s, s < assign.length ∧ 0 ≤ r0.getD s 0 :=
    ⟨s1, hs1, hSGr s1 hs1 hs1g⟩
  have hvals : ∀ u, u < assign.length → r0.getD u 0 ≤ 0 := by
    intro u hu
    rw [hchar u hu]
    by_cases hcond : assign.getD u 0 = pyGet assign atomNum
    · rw [if_pos hcond]
    · rw [if_neg hcond]; norm_num
  have hmax0 : maxValue r0 = 0 := by
    refine le_antisymm ?_ ?_
    · obtain ⟨w, hw, hwval⟩ := maxValue_mem r0 (by
        refine List.length_pos.mp ?_
        rw [hlen0]
        omega)
      rw [← hwval]
      exact hvals w (by rw [← hlen0]; exact hw)
    · have := maxValue_ge r0 s1 (by rw [hlen0]; exact hs1)
      have h2 := hSGr s1 hs1 hs1g
      omega
  have hclosed0 : ∀ k, k < assign.length → 0 ≤ r0.getD k 0 →
      r0.getD k 0 < maxValue r0 →
      ∀ m, m < assign.length → adjacentBond bonds k m → 0 ≤ r0.getD m 0 := by
    intro k hk hkval hkmax m hm hkm
    rw [hmax0] at hkmax
    omega
  have hP0 : ∀ k, k < assign.length → 0 ≤ r0.getD k 0 →
      reachesFromGroup bonds assign atomNum k := by
    intro k hk hkval
    rw [hchar k hk] at hkval
    by_cases hcond : assign.getD k 0 = pyGet assign atomNum
    · exact ⟨k, hk, hcond, Relation.ReflTransGen.refl⟩
    · rw [if_neg hcond] at hkval
      omega
  have hadjR : ∀ b ∈ bonds,
      (reachesFromGroup bonds assign atomNum b.1 → reachesFromGroup bonds assign atomNum b.2) ∧
      (reachesFromGroup bonds assign atomNum b.2 → reachesFromGroup bonds assign atomNum b.1) := by
    intro b hb
    constructor
    · rintro ⟨s, h1, h2, h3⟩
      exact ⟨s, h1, h2, h3.tail (Or.inl hb)⟩
    · rintro ⟨s, h1, h2, h3⟩
      exact ⟨s, h1, h2, h3.tail (Or.inr hb)⟩
  constructor
  · intro hall
    obtain ⟨f, r2, hf⟩ :=
      arOuter_term bonds assign.length (fun s => assign.getD s 0 = pyGet assign atomNum)
        hwf (fun j hj => hall j hj) (negCount r0) r0 le_rfl hlen0 hSGr hrk hclosed0
    exact ⟨f, r2, hf⟩
  · rintro ⟨u, hu, hRu⟩ fuel
    exact arOuter_none bonds (reachesFromGroup bonds assign atomNum) assign.length
      hwf hadjR u hu hRu fuel r0 hlen0 hP0 hrk

/-- Witness for C10: a two-atom connected molecule, where `assign_rank`
from atom 0 terminates. -/
theorem claim_C10_assign_rank_termination_witness :
    ∃ fuel r, assignRank fuel [(0, 1)] [7, 7] 0 = some r := by
  refine (claim_C10_assign_rank_termination [(0, 1)] [7, 7] 0 (by decide)
    ⟨0, by norm_num, by decide⟩).1 ?_
  intro j hj
  match j with
  | 0 => exact ⟨0, by norm_num, by decide, Relation.ReflTransGen.refl⟩
  | 1 => exact ⟨0, by norm_num, by decide,
      Relation.ReflTransGen.single (Or.inl (List.mem_singleton.mpr rfl))⟩
  | (j + 2) => simp at hj

/-! Characterization of the candidate loop of `FindCore_GetCoreAtom`. -/

theorem fcLoop_spec_aux (fuel : ℕ) (bonds : List (ℕ × ℕ)) (assign : List ℤ)
    (tors back : List (ℕ × ℕ)) (natoms : ℕ) (rk : ℕ → List ℤ)
    (hrk : ∀ a, a < natoms → assignRank fuel bonds assign (a : ℤ) = some (rk a)) :
    ∀ m, m ≤ natoms →
      ∃ mr ca, (List.range m).foldlM
          (fun st atomNum => do
            let rank ← assignRank fuel bonds assign (atomNum : ℤ)
            pure (if maxValue rank < st.1 ∧ 0 ≤ (getStartAtom (tors ++ back) rank).1 then
                (maxValue rank, (atomNum : ℤ))
              else st))
          ((10000 : ℤ), (-1 : ℤ)) = some (mr, ca) ∧
        (∀ a, a < m → 0 ≤ (getStartAtom (tors ++ back) (rk a)).1 →
          mr ≤ maxValue (rk a)) ∧
        ((ca = -1 ∧ mr = 10000) ∨
          (0 ≤ ca ∧ ca.toNat < m ∧
            0 ≤ (getStartAtom (tors ++ back) (rk ca.toNat)).1 ∧
            maxValue (rk ca.toNat) = mr ∧
            ∀ a, a < ca.toNat → 0 ≤ (getStartAtom (tors ++ back) (rk a)).1 →
              mr < maxValue (rk a))) := by
  intro m
  induction m with
  | zero =>
    intro _
    exact ⟨10000, -1, rfl, fun a ha => absurd ha (Nat.not_lt_zero a),
      Or.inl ⟨rfl, rfl⟩⟩
  | succ m ih =>
    intro hm
    obtain ⟨mr, ca, hfold, hA, hB⟩ := ih (by omega)
    rw [List.range_succ _, List.foldlM_append, hfold]
    simp only [Option.bind_eq_bind, Option.some_bind, List.foldlM_cons, List.foldlM_nil,
      hrk m (by omega), Option.some_bind, Option.pure_def, Option.bind_some]
    by_cases hcond : maxValue (rk m) < mr ∧ 0 ≤ (getStartAtom (tors ++ back) (rk m)).1
    · rw [if_pos hcond]
      refine ⟨maxValue (rk m), (m : ℤ), rfl, ?_, Or.inr ⟨by positivity, ?_, ?_, rfl, ?_⟩⟩
      · intro a ha hav
        rcases Nat.eq_or_lt_of_le (Nat.le_of_lt_succ ha) with rfl | ha2
        · exact le_rfl
        · exact le_trans (le_of_lt hcond.1) (hA a ha2 hav)
      · rw [Int.toNat_natCast]
        omega
      · rw [Int.toNat_natCast]
        exact hcond.2
      · rw [Int.toNat_natCast]
        intro a ha hav
        exact lt_of_lt_of_le hcond.1 (hA a ha hav)
    · rw [if_neg hcond]
      refine ⟨mr, ca, rfl, ?_, ?_⟩
      · intro a ha hav
        rcases Nat.eq_or_lt_of_le (Nat.le_of_lt_succ ha) with rfl | ha2
        · by_contra hlt
          push_neg at hlt
          exact hcond ⟨hlt, hav⟩
        · exact hA a ha2 hav
      · rcases hB with hB | ⟨h1, h2, h3, h4, h5⟩
        · exact Or.inl hB
        · exact Or.inr ⟨h1, by omega, h3, h4, h5⟩

theorem fcLoop_spec (fuel : ℕ) (bonds : List (ℕ × ℕ)) (assign : List ℤ)
    (tors back : List (ℕ × ℕ)) (natoms : ℕ) (rk : ℕ → List ℤ)
    (hrk : ∀ a, a < natoms → assignRank fuel bonds assign (a : ℤ) = some (rk a)) :
    ∃ mr ca, fcLoop fuel bonds assign tors back natoms = some (mr, ca) ∧
      (∀ a, a < natoms → 0 ≤ (getStartAtom (tors ++ back) (rk a)).1 →
        mr ≤ maxValue (rk a)) ∧
      ((ca = -1 ∧ mr = 10000) ∨
        (0 ≤ ca ∧ ca.toNat < natoms ∧
          0 ≤ (getStartAtom (tors ++ back) (rk ca.toNat)).1 ∧
          maxValue (rk ca.toNat) = mr ∧
          ∀ a, a < ca.toNat → 0 ≤ (getStartAtom (tors ++ back) (rk a)).1 →
            mr < maxValue (rk a))) := by
  have h := fcLoop_spec_aux fuel bonds assign tors back natoms rk hrk natoms le_rfl
  simp only [fcLoop]
  exact h

/-- C3.  Root selection in `FindCore_GetCoreAtom`: whenever the per-candidate
rank computations terminate and some candidate admits a valid start atom with
maximum rank below the initial sentinel 10000, the selection loop returns the
candidate whose maximum rank is minimal among candidates with a valid start
atom, ties broken by the first atom index; in particular, for a 3-atom chain
0-1-2 with the single rotatable bond (1,2), the selected root is atom 0
(chain atom A). -/
theorem claim_C3_root_selection (fuel : ℕ) (bonds : List (ℕ × ℕ)) (assign : List ℤ)
    (tors back : List (ℕ × ℕ)) (natoms : ℕ) (rk : ℕ → List ℤ)
    (hrk : ∀ a, a < natoms → assignRank fuel bonds assign (a : ℤ) = some (rk a))
    (hex : ∃ a, a < natoms ∧ 0 ≤ (getStartAtom (tors ++ back) (rk a)).1 ∧
      maxValue (rk a) < 10000) :
    (∃ (mr : ℤ) (ca : ℕ), fcLoop fuel bonds assign tors back natoms = some (mr, (ca : ℤ)) ∧
      ca < natoms ∧ 0 ≤ (getStartAtom (tors ++ back) (rk ca)).1 ∧
      maxValue (rk ca) = mr ∧
      (∀ a, a < natoms → 0 ≤ (getStartAtom (tors ++ back) (rk a)).1 →
        mr ≤ maxValue (rk a)) ∧
      (∀ a, a < ca → 0 ≤ (getStartAtom (tors ++ back) (rk a)).1 →
        mr < maxValue (rk a))) ∧
    findCoreGetCoreAtom 20 [(1, 2)] [(0, 1), (1, 2)] 3 0 [] true =
      some (0, [1, 1, 2], [0, 0, 1], [-1, -1, -1]) := by
  constructor
  · obtain ⟨mr, ca, hfc, hA, hB⟩ := fcLoop_spec fuel bonds assign tors back natoms rk hrk
    obtain ⟨a0, ha0, ha0v, ha0m⟩ := hex
    rcases hB with ⟨rfl, rfl⟩ | ⟨h1, h2, h3, h4, h5⟩
    · exact absurd (hA a0 ha0 ha0v) (not_le.mpr ha0m)
    · refine ⟨mr, ca.toNat, ?_, h2, h3, h4, hA, h5⟩
      rw [Int.toNat_of_nonneg h1]
      exact hfc
  · decide

/-- Witness for C3: the 3-atom chain with bonds (0,1), (1,2), rotatable bond
(1,2) and ligand groups [1,1,2]; atom 0 is selected with maximum rank 1. -/
theorem claim_C3_root_selection_witness :
    (∃ (mr : ℤ) (ca : ℕ), fcLoop 20 [(0, 1), (1, 2)] [1, 1, 2] [(1, 2)] [] 3 =
        some (mr, (ca : ℤ)) ∧
      ca < 3 ∧
      0 ≤ (getStartAtom ([(1, 2)] ++ [])
        ((fun a => if a = 2 then [2, 1, 0] else [0, 0, 1]) ca)).1 ∧
      maxValue ((fun a => if a = 2 then [2, 1, 0] else [0, 0, 1]) ca) = mr ∧
      (∀ a, a < 3 →
        0 ≤ (getStartAtom ([(1, 2)] ++ [])
          ((fun a => if a = 2 then [2, 1, 0] else [0, 0, 1]) a)).1 →
        mr ≤ maxValue ((fun a => if a = 2 then [2, 1, 0] else [0, 0, 1]) a)) ∧
      (∀ a, a < ca →
        0 ≤ (getStartAtom ([(1, 2)] ++ [])
          ((fun a => if a = 2 then [2, 1, 0] else [0, 0, 1]) a)).1 →
        mr < maxValue ((fun a => if a = 2 then [2, 1, 0] else [0, 0, 1]) a))) ∧
    findCoreGetCoreAtom 20 [(1, 2)] [(0, 1), (1, 2)] 3 0 [] true =
      some (0, [1, 1, 2], [0, 0, 1], [-1, -1, -1]) := by
  refine claim_C3_root_selection 20 [(0, 1), (1, 2)] [1, 1, 2] [(1, 2)] [] 3
    (fun a => if a = 2 then [2, 1, 0] else [0, 0, 1]) ?_ ?_
  · intro a ha
    match a with
    | 0 => decide
    | 1 => decide
    | 2 => decide
  · exact ⟨0, by norm_num, by decide, by decide⟩

/-- C6 counterexample.  A 2-atom molecule whose only bond is rotatable: no
candidate has a valid start atom, yet `FindCore_GetCoreAtom` raises nothing.
The loop leaves `core_atom = -1` (the loop state stays `(10000, -1)`) and the
function returns normally, ranking from `assign[-1]` (Python negative
indexing, the last atom's rigid group). -/
theorem claim_C6_counterexample :
    fcLoop 20 [(0, 1)] [1, 2] [(0, 1)] [] 2 = some (10000, -1) ∧
    findCoreGetCoreAtom 20 [(0, 1)] [(0, 1)] 2 0 [] true =
      some (-1, [1, 2], [1, 0], [-1, -1]) := by
  decide

/-- C6 (amended).  When no candidate atom has a valid start atom, root
selection does not fail: the candidate loop returns the sentinel state
`(10000, -1)`, `core_atom` stays -1, and `FindCore_GetCoreAtom` continues,
computing ranks from the rigid group of Python's `assign[-1]` (the last
atom); no `NoValidRootError` exists in the code. -/
theorem claim_C6_no_valid_root_behavior (fuel : ℕ) (bonds : List (ℕ × ℕ))
    (assign : List ℤ) (tors back : List (ℕ × ℕ)) (natoms : ℕ) (rk : ℕ → List ℤ)
    (hrk : ∀ a, a < natoms → assignRank fuel bonds assign (a : ℤ) = some (rk a))
    (hnone : ∀ a, a < natoms → ¬ 0 ≤ (getStartAtom (tors ++ back) (rk a)).1) :
    fcLoop fuel bonds assign tors back natoms = some (10000, -1) ∧
    findCoreGetCoreAtom 20 [(0, 1)] [(0, 1)] 2 0 [] true =
      some (-1, [1, 2], [1, 0], [-1, -1]) := by
  constructor
  · obtain ⟨mr, ca, hfc, hA, hB⟩ := fcLoop_spec fuel bonds assign tors back natoms rk hrk
    rcases hB with ⟨rfl, rfl⟩ | ⟨h1, h2, h3, _⟩
    · exact hfc
    · exact absurd h3 (hnone ca.toNat h2)
  · decide

/-- Witness for C6 (amended): the 2-atom single-rotatable-bond molecule. -/
theorem claim_C6_no_valid_root_behavior_witness :
    fcLoop 20 [(0, 1)] [1, 2] [(0, 1)] [] 2 = some (10000, -1) ∧
    findCoreGetCoreAtom 20 [(0, 1)] [(0, 1)] 2 0 [] true =
      some (-1, [1, 2], [1, 0], [-1, -1]) := by
  refine claim_C6_no_valid_root_behavior 20 [(0, 1)] [1, 2] [(0, 1)] [] 2
    (fun a => if a = 0 then [0, 1] else [1, 0]) ?_ ?_
  · intro a ha
    match a with
    | 0 => decide
    | 1 => decide
  · intro a ha
    match a with
    | 0 => decide
    | 1 => decide

/-! Lemmas for the `order_atoms` tree invariants. -/

theorem indexOf_le_of_getD (l : List ℕ) (j a : ℕ) (hj : j < l.length)
    (h : l.getD j 0 = a) : l.indexOf a ≤ j := by
  induction l generalizing j with
  | nil => cases hj
  | cons b t ih =>
    cases j with
    | zero =>
      simp only [List.getD_cons_zero] at h
      subst h
      simp [List.indexOf_cons_self]
    | succ j =>
      by_cases hba : b = a
      · subst hba
        simp [List.indexOf_cons_self]
      · rw [List.indexOf_cons_ne _ hba]
        simp only [List.getD_cons_succ] at h
        have := ih j (by simpa using hj) h
        omega

theorem getD_concat_length (l : List ℤ) (a : ℤ) : (l ++ [a]).getD l.length 0 = a := by
  rw [List.getD_eq_getElem _ _ (by simp), List.getElem_append_right (le_refl l.length)]
  simp

theorem getDN_concat_length (l : List ℕ) (a : ℕ) : (l ++ [a]).getD l.length 0 = a := by
  rw [List.getD_eq_getElem _ _ (by simp), List.getElem_append_right (le_refl l.length)]
  simp

theorem oaCoreFind_spec (bonds : List (ℕ × ℕ)) (rank asg : List ℤ) (cp : ℕ × ℕ)
    (h : oaCoreFind bonds rank asg = some cp) :
    ((cp.1, cp.2) ∈ bonds ∨ (cp.2, cp.1) ∈ bonds) ∧
    rank.getD cp.1 0 = 0 ∧ rank.getD cp.2 0 = 0 ∧
    asg.getD cp.2 0 = -1 ∧ asg.getD cp.1 0 > -1 := by
  rw [oaCoreFind] at h
  cases hf : bonds.find? (fun b => decide
      ((rank.getD b.1 0 = 0 ∧ rank.getD b.2 0 = 0 ∧ asg.getD b.1 0 = -1 ∧
          asg.getD b.2 0 > -1) ∨
        (rank.getD b.2 0 = 0 ∧ rank.getD b.1 0 = 0 ∧ asg.getD b.2 0 = -1 ∧
          asg.getD b.1 0 > -1))) with
  | none => rw [hf] at h; cases h
  | some b =>
    rw [hf] at h
    dsimp only at h
    have hb : b ∈ bonds := List.mem_of_find?_eq_some hf
    have hp := List.find?_some hf
    rw [decide_eq_true_eq] at hp
    by_cases hc1 : rank.getD b.1 0 = 0 ∧ rank.getD b.2 0 = 0 ∧ asg.getD b.1 0 = -1 ∧
        asg.getD b.2 0 > -1
    · rw [if_pos hc1] at h
      cases h
      exact ⟨Or.inr (by simpa using hb), hc1.2.1, hc1.1, hc1.2.2.1, hc1.2.2.2⟩
    · rw [if_neg hc1] at h
      cases h
      rcases hp with hp | hp
      · exact absurd hp hc1
      · exact ⟨Or.inl (by simpa using hb), hp.2.1, hp.1, hp.2.2.1, hp.2.2.2⟩

theorem oaGroupFind_spec (bonds : List (ℕ × ℕ)) (rank group asg : List ℤ)
    (grp curRank : ℤ) (cp : ℕ × ℕ)
    (h : oaGroupFind bonds rank group asg grp curRank = some cp) :
    ((cp.1, cp.2) ∈ bonds ∨ (cp.2, cp.1) ∈ bonds) ∧
    rank.getD cp.1 0 = rank.getD cp.2 0 + 1 ∧
    asg.getD cp.2 0 = -1 ∧ asg.getD cp.1 0 > -1 := by
  rw [oaGroupFind] at h
  cases hf : bonds.find? (fun b => decide
      ((rank.getD b.2 0 - rank.getD b.1 0 = 1 ∧ asg.getD b.1 0 = -1 ∧
          asg.getD b.2 0 > -1 ∧ rank.getD b.1 0 = curRank ∧ group.getD b.2 0 = grp) ∨
        (rank.getD b.1 0 - rank.getD b.2 0 = 1 ∧ asg.getD b.2 0 = -1 ∧
          asg.getD b.1 0 > -1 ∧ rank.getD b.2 0 = curRank ∧ group.getD b.1 0 = grp))) with
  | none => rw [hf] at h; cases h
  | some b =>
    rw [hf] at h
    dsimp only at h
    have hb : b ∈ bonds := List.mem_of_find?_eq_some hf
    have hp := List.find?_some hf
    rw [decide_eq_true_eq] at hp
    by_cases hc1 : rank.getD b.2 0 - rank.getD b.1 0 = 1 ∧ asg.getD b.1 0 = -1 ∧
        asg.getD b.2 0 > -1 ∧ rank.getD b.1 0 = curRank ∧ group.getD b.2 0 = grp
    · rw [if_pos hc1] at h
      cases h
      exact ⟨Or.inr (by simpa using hb), by dsimp only; omega, hc1.2.1, hc1.2.2.1⟩
    · rw [if_neg hc1] at h
      cases h
      rcases hp with hp | hp
      · exact absurd hp hc1
      · exact ⟨Or.inl (by simpa using hb), by dsimp only; omega, hp.2.1, hp.2.2.1⟩

theorem stInv_append (rank : List ℤ) (n : ℕ) (ord : List ℕ) (par asg : List ℤ)
    (child parentAtom : ℕ)
    (hinv : stInv rank n (ord, par, asg))
    (hcn : child < n) (hpn : parentAtom < n)
    (hpg : asg.getD parentAtom 0 = -1)
    (hcg : asg.getD child 0 > -1)
    (hrk : (rank.getD parentAtom 0 = 0 ∧ rank.getD child 0 = 0) ∨
      rank.getD child 0 = rank.getD parentAtom 0 + 1) :
    stInv rank n (ord ++ [child], par ++ [(parentAtom : ℤ)], asg.set child (-1)) := by
  unfold stInv at hinv ⊢
  dsimp only at hinv ⊢
  obtain ⟨i1, i2, i3, i4, ⟨i5a, i5b⟩, i6⟩ := hinv
  have hchild_new : child ∉ ord := by
    intro hmem
    have := (i3 child hcn).mpr hmem
    omega
  have hpar_mem : parentAtom ∈ ord := (i3 parentAtom hpn).mp hpg
  refine ⟨by simp [i1], by simp [i2], ?_, ?_, ?_, ?_⟩
  · intro x hx
    by_cases hxc : x = child
    · subst hxc
      constructor
      · intro _; exact List.mem_append_right _ (List.mem_singleton.mpr rfl)
      · intro _
        rw [set_getD_self _ _ _ (by rw [i2]; exact hx)]
    · rw [set_getD_ne _ _ _ _ hxc]
      rw [i3 x hx]
      simp [hxc]
  · intro i hi0 hilen
    simp only [List.length_append, List.length_singleton] at hilen
    rcases Nat.lt_or_ge i ord.length with hio | hio
    · obtain ⟨a, ha1, ha2, ⟨j, hj1, hj2⟩, ha4⟩ := i4 i hi0 hio
      refine ⟨a, ha1, ?_, ⟨j, hj1, ?_⟩, ?_⟩
      · rw [List.getD_append _ _ _ _ (by rw [i1]; exact hio)]
        exact ha2
      · rw [List.getD_append _ _ _ _ (by omega)]
        exact hj2
      · rw [List.getD_append _ _ _ _ hio]
        exact ha4
    · have hieq : i = ord.length := by omega
      subst hieq
      obtain ⟨j, hjlen, hjval⟩ : ∃ j, j < ord.length ∧ ord.getD j 0 = parentAtom := by
        obtain ⟨j, hj, hg⟩ := List.mem_iff_getElem.mp hpar_mem
        exact ⟨j, hj, by rw [List.getD_eq_getElem _ _ hj]; exact hg⟩
      refine ⟨parentAtom, hpn, ?_, ⟨j, hjlen, ?_⟩, ?_⟩
      · rw [← i1, getD_concat_length]
      · rw [List.getD_append _ _ _ _ hjlen]
        exact hjval
      · rw [getDN_concat_length]
        exact hrk
  · constructor
    · simp
    · rw [List.getD_append _ _ _ _ (by omega)]
      exact i5b
  · rw [List.getD_append _ _ _ _ (by omega)]
    exact i6

theorem oaCore_inv (bonds : List (ℕ × ℕ)) (rank : List ℤ) (n : ℕ)
    (hwf : ∀ b ∈ bonds, b.1 < n ∧ b.2 < n) :
    ∀ fuel numCore st st2, oaCore fuel bonds rank numCore st = some st2 →
      stInv rank n st → stInv rank n st2 := by
  intro fuel
  induction fuel with
  | zero => intro numCore st st2 h; cases h
  | succ fuel ih =>
    intro numCore st st2 h hinv
    obtain ⟨ord, par, asg⟩ := st
    rw [oaCore] at h
    by_cases hlen : (ord, par, asg).1.length < numCore
    · rw [if_pos hlen] at h
      cases hfind : oaCoreFind bonds rank (ord, par, asg).2.2 with
      | none => rw [hfind] at h; cases h
      | some cp =>
        rw [hfind] at h
        obtain ⟨hmem, hr1, hr2, hg2, hg1⟩ := oaCoreFind_spec bonds rank _ cp hfind
        have hn1 : cp.1 < n ∧ cp.2 < n := by
          rcases hmem with hb | hb
          · exact (hwf _ hb)
          · exact ⟨(hwf _ hb).2, (hwf _ hb).1⟩
        exact ih numCore _ st2 h
          (stInv_append rank n ord par asg cp.1 cp.2 hinv hn1.1 hn1.2 hg2 hg1
            (Or.inl ⟨hr2, hr1⟩))
    · rw [if_neg hlen] at h
      cases h
      exact hinv

theorem oaGroupInner_inv (bonds : List (ℕ × ℕ)) (rank group : List ℤ) (n : ℕ)
    (hwf : ∀ b ∈ bonds, b.1 < n ∧ b.2 < n) :
    ∀ fuel grp maxRank curRank st st2,
      oaGroupInner fuel bonds rank group grp maxRank curRank st = some st2 →
      stInv rank n st → stInv rank n st2 := by
  intro fuel
  induction fuel with
  | zero => intro grp maxRank curRank st st2 h; cases h
  | succ fuel ih =>
    intro grp maxRank curRank st st2 h hinv
    obtain ⟨ord, par, asg⟩ := st
    rw [oaGroupInner] at h
    by_cases hlen : (ord, par, asg).1.length < (ord, par, asg).2.2.length
    · rw [if_pos hlen] at h
      cases hfind : oaGroupFind bonds rank group (ord, par, asg).2.2 grp curRank with
      | some cp =>
        rw [hfind] at h
        dsimp only at h
        obtain ⟨hmem, hr, hg2, hg1⟩ := oaGroupFind_spec bonds rank group _ grp curRank cp hfind
        have hn1 : cp.1 < n ∧ cp.2 < n := by
          rcases hmem with hb | hb
          · exact (hwf _ hb)
          · exact ⟨(hwf _ hb).2, (hwf _ hb).1⟩
        have hstep := stInv_append rank n ord par asg cp.1 cp.2 hinv hn1.1 hn1.2 hg2 hg1
          (Or.inr hr)
        by_cases hbr : curRank > maxRank
        · rw [if_pos hbr] at h
          cases h
          exact hstep
        · rw [if_neg hbr] at h
          exact ih grp maxRank curRank _ st2 h hstep
      | none =>
        rw [hfind] at h
        dsimp only at h
        by_cases hbr : curRank + 1 > maxRank
        · rw [if_pos hbr] at h
          cases h
          exact hinv
        · rw [if_neg hbr] at h
          exact ih grp maxRank (curRank + 1) _ st2 h hinv
    · rw [if_neg hlen] at h
      cases h
      exact hinv

theorem oaGroups_inv (bonds : List (ℕ × ℕ)) (rank group : List ℤ) (n : ℕ)
    (hwf : ∀ b ∈ bonds, b.1 < n ∧ b.2 < n) :
    ∀ grpList fuel maxRank st st2,
      oaGroups fuel bonds rank group maxRank grpList st = some st2 →
      stInv rank n st → stInv rank n st2 := by
  intro grpList
  induction grpList with
  | nil => intro fuel maxRank st st2 h hinv; cases h; exact hinv
  | cons grp rest ih =>
    intro fuel maxRank st st2 h hinv
    rw [oaGroups] at h
    cases hstep : oaGroupInner fuel bonds rank group grp maxRank 0 st with
    | none => rw [hstep] at h; cases h
    | some stmid =>
      rw [hstep] at h
      exact ih fuel maxRank stmid st2 h
        (oaGroupInner_inv bonds rank group n hwf fuel grp maxRank 0 st stmid hstep hinv)

theorem getStartAtom_spec (tors : List (ℕ × ℕ)) (rank : List ℤ)
    (h : 0 ≤ (getStartAtom tors rank).1) :
    (getStartAtom tors rank).1.toNat < rank.length ∧
    rank.getD (getStartAtom tors rank).1.toNat 0 = 0 := by
  simp only [getStartAtom] at h ⊢
  cases hf : (List.range rank.length).find? (fun i =>
      decide (rank.getD i 0 = 0 ∧ ∀ t ∈ tors, ¬(t.1 = i ∨ t.2 = i))) with
  | none =>
    rw [hf] at h
    exact absurd h (by decide)
  | some i =>
    dsimp only at h ⊢
    have hmem : i ∈ List.range rank.length := List.mem_of_find?_eq_some hf
    have hp := List.find?_some hf
    rw [decide_eq_true_eq] at hp
    rw [Int.toNat_natCast]
    exact ⟨List.mem_range.mp hmem, hp.1⟩

theorem mapRange_getD (f : ℕ → ℤ) (n i : ℕ) (h : i < n) :
    ((List.range n).map f).getD i 0 = f i := by
  rw [List.getD_eq_getElem _ _ (by simpa using h)]
  simp

theorem mem_of_getDN (l : List ℕ) (j a : ℕ) (hj : j < l.length) (h : l.getD j 0 = a) :
    a ∈ l := by
  rw [List.getD_eq_getElem _ _ hj] at h
  exact h ▸ List.getElem_mem hj

theorem getD_indexOf (l : List ℕ) (a : ℕ) (h : a ∈ l) :
    l.getD (l.indexOf a) 0 = a := by
  rw [List.getD_eq_getElem _ _ (List.indexOf_lt_length.mpr h)]
  exact List.getElem_indexOf (List.indexOf_lt_length.mpr h)

/-- From the construction invariant, the outputs of `order_atoms` satisfy the
tree shape: position 0 is the root (parent -1), every later position's parent
is an earlier position, and each parent step lowers the output rank by exactly
one for as long as the rank is positive. -/
theorem stInv_output (rank : List ℤ) (n : ℕ) (ord : List ℕ) (par asg : List ℤ)
    (opar orank : List ℤ)
    (hinv : stInv rank n (ord, par, asg))
    (hoparDef : opar = (List.range par.length).map (fun i =>
      if par.getD i 0 < 0 then par.getD i 0
      else (ord.indexOf (par.getD i 0).toNat : ℤ)))
    (horankDef : orank = (List.range par.length).map (fun i =>
      rank.getD (ord.getD i 0) 0)) :
    opar.getD 0 0 = -1 ∧
    (∀ i, 0 < i → i < ord.length → 0 ≤ opar.getD i 0 ∧ opar.getD i 0 < (i : ℤ)) ∧
    (∀ i, i < ord.length → ∀ k, k ≤ (orank.getD i 0).toNat →
      (parentStep opar)^[k] i < ord.length ∧
      orank.getD ((parentStep opar)^[k] i) 0 = orank.getD i 0 - (k : ℤ)) := by
  unfold stInv at hinv
  dsimp only at hinv
  obtain ⟨i1, i2, i3, i4, ⟨i5a, i5b⟩, i6⟩ := hinv
  have hopar_at : ∀ i, i < ord.length → opar.getD i 0 =
      if par.getD i 0 < 0 then par.getD i 0
      else (ord.indexOf (par.getD i 0).toNat : ℤ) := by
    intro i hi
    rw [hoparDef]
    exact mapRange_getD _ par.length i (by omega)
  have horank_at : ∀ i, i < ord.length → orank.getD i 0 =
      rank.getD (ord.getD i 0) 0 := by
    intro i hi
    rw [horankDef]
    exact mapRange_getD _ par.length i (by omega)
  have c1 : opar.getD 0 0 = -1 := by
    rw [hopar_at 0 i5a, i5b]
    norm_num
  have c2 : ∀ i, 0 < i → i < ord.length →
      0 ≤ opar.getD i 0 ∧ opar.getD i 0 < (i : ℤ) := by
    intro i hi0 hilen
    obtain ⟨a, han, hpa, ⟨j, hji, hja⟩, _⟩ := i4 i hi0 hilen
    rw [hopar_at i hilen, hpa, if_neg (not_lt.mpr (Int.natCast_nonneg a)),
      Int.toNat_natCast]
    refine ⟨Int.natCast_nonneg _, ?_⟩
    exact_mod_cast lt_of_le_of_lt (indexOf_le_of_getD ord j a (by omega) hja) hji
  have hstep : ∀ p, p < ord.length → 0 < orank.getD p 0 →
      parentStep opar p < p ∧
      orank.getD (parentStep opar p) 0 = orank.getD p 0 - 1 := by
    intro p hp hpos
    have hp0 : 0 < p := by
      by_contra hc
      have hpz : p = 0 := by omega
      subst hpz
      rw [horank_at 0 hp, i6] at hpos
      exact absurd hpos (by norm_num)
    obtain ⟨a, han, hpa, ⟨j, hji, hja⟩, hrk⟩ := i4 p hp0 hp
    have hjlen : j < ord.length := by omega
    have hamem : a ∈ ord := mem_of_getDN ord j a hjlen hja
    have hps : parentStep opar p = ord.indexOf a := by
      rw [parentStep, hopar_at p hp, hpa, if_neg (not_lt.mpr (Int.natCast_nonneg a)),
        Int.toNat_natCast, Int.toNat_natCast]
    have hidx_lt : ord.indexOf a < p :=
      lt_of_le_of_lt (indexOf_le_of_getD ord j a hjlen hja) hji
    have hgi : ord.getD (ord.indexOf a) 0 = a := getD_indexOf ord a hamem
    refine ⟨by rw [hps]; exact hidx_lt, ?_⟩
    rw [hps, horank_at _ (by omega), hgi, horank_at p hp]
    rcases hrk with ⟨h0a, h0c⟩ | hsucc
    · rw [horank_at p hp, h0c] at hpos
      exact absurd hpos (by norm_num)
    · rw [hsucc]
      omega
  have c3 : ∀ k i, i < ord.length → k ≤ (orank.getD i 0).toNat →
      (parentStep opar)^[k] i < ord.length ∧
      orank.getD ((parentStep opar)^[k] i) 0 = orank.getD i 0 - (k : ℤ) := by
    intro k
    induction k with
    | zero =>
      intro i hi _
      refine ⟨by simpa using hi, by simp⟩
    | succ k ih =>
      intro i hi hk
      obtain ⟨hlt, heq⟩ := ih i hi (by omega)
      have hpos : 0 < orank.getD ((parentStep opar)^[k] i) 0 := by
        rw [heq]
        omega
      obtain ⟨hlt2, heq2⟩ := hstep _ hlt hpos
      rw [Function.iterate_succ_apply']
      refine ⟨by omega, ?_⟩
      rw [heq2, heq]
      push_cast
      ring
  exact ⟨c1, c2, fun i hi k hk => c3 k i hi hk⟩

/-- C4 (counterexample to the literal claim): on the 2-atom core with the
single non-rotatable bond 0-1 and ranks [0, 0], `order_atoms` returns
ordering [0, 1] with output parents [-1, 0]; position 1 has rank 0, yet
following the parent pointers from it for rank[1] = 0 steps does not land on
the root (its parent entry is 0, not -1).  Rank counts the steps to a rank-0
core atom, not to the root itself. -/
theorem claim_C4_counterexample :
    orderAtoms 20 [(0, 1)] [] [] [1, 1] [0, 0] [-1, -1] =
      some ([0, 1], [-1, 0], [0, 0], [-1, -1]) ∧
    ¬ (∀ i, i < 2 → ([-1, 0] : List ℤ).getD
        ((parentStep [-1, 0])^[(([0, 0] : List ℤ).getD i 0).toNat] i) 0 = -1) := by
  decide

/-- C4 (amended): for every successful run of `order_atoms` on a bond list
whose endpoints index into `rank` and an `assign` list of the same length
with no sentinel -1 entries, the output parent array has -1 at position 0,
every later position's parent is an earlier position of the ordering (so the
parent structure is a tree rooted at position 0 with no cycles), and from any
position each parent step lowers the output rank by exactly one for
rank-many steps, reaching a rank-0 (core) position in exactly `rank[atom]`
steps. -/
theorem claim_C4_tree_invariant (fuel : ℕ) (bonds tors backTors : List (ℕ × ℕ))
    (assign rank group : List ℤ) (ord : List ℕ) (opar orank ogrp : List ℤ)
    (hwf : ∀ b ∈ bonds, b.1 < rank.length ∧ b.2 < rank.length)
    (hlen : assign.length = rank.length)
    (hasg : ∀ x, x < rank.length → assign.getD x 0 > -1)
    (hrun : orderAtoms fuel bonds tors backTors assign rank group =
      some (ord, opar, orank, ogrp)) :
    opar.getD 0 0 = -1 ∧
    (∀ i, 0 < i → i < ord.length → 0 ≤ opar.getD i 0 ∧ opar.getD i 0 < (i : ℤ)) ∧
    (∀ i, i < ord.length → ∀ k, k ≤ (orank.getD i 0).toNat →
      (parentStep opar)^[k] i < ord.length ∧
      orank.getD ((parentStep opar)^[k] i) 0 = orank.getD i 0 - (k : ℤ)) := by
  simp only [orderAtoms] at hrun
  by_cases hs : (getStartAtom (tors ++ backTors) rank).1 < 0
  · rw [if_pos hs] at hrun
    cases hrun
  · rw [if_neg hs] at hrun
    obtain ⟨hslt, hs0⟩ := getStartAtom_spec (tors ++ backTors) rank (not_lt.mp hs)
    cases h1 : oaCore fuel bonds rank (getStartAtom (tors ++ backTors) rank).2
        ([(getStartAtom (tors ++ backTors) rank).1.toNat], [(-1 : ℤ)],
          assign.set (getStartAtom (tors ++ backTors) rank).1.toNat (-1)) with
    | none =>
      rw [h1] at hrun
      cases hrun
    | some st1 =>
      rw [h1] at hrun
      dsimp only at hrun
      cases h2 : oaGroups fuel bonds rank group (maxValue rank)
          ((List.range (maxValue group + 2).toNat).map (fun (k : ℕ) => (k : ℤ) - 1)) st1 with
      | none =>
        rw [h2] at hrun
        cases hrun
      | some st2 =>
        rw [h2] at hrun
        dsimp only at hrun
        have hinv0 : stInv rank rank.length
            ([(getStartAtom (tors ++ backTors) rank).1.toNat], [(-1 : ℤ)],
              assign.set (getStartAtom (tors ++ backTors) rank).1.toNat (-1)) := by
          unfold stInv
          dsimp only
          refine ⟨rfl, by simp [hlen], ?_, ?_, ⟨by simp, rfl⟩, hs0⟩
          · intro x hx
            by_cases hxs : x = (getStartAtom (tors ++ backTors) rank).1.toNat
            · subst hxs
              constructor
              · intro _
                exact List.mem_singleton.mpr rfl
              · intro _
                exact set_getD_self _ _ _ (by omega)
            · rw [set_getD_ne _ _ _ _ hxs]
              constructor
              · intro hcon
                have := hasg x hx
                omega
              · intro hmem
                exact absurd (List.mem_singleton.mp hmem) hxs
          · intro i hi0 hi1
            simp only [List.length_singleton] at hi1
            exact absurd hi1 (by omega)
        have hinv1 := oaCore_inv bonds rank rank.length hwf fuel _ _ st1 h1 hinv0
        have hinv2 := oaGroups_inv bonds rank group rank.length hwf _ fuel _ st1 st2 h2 hinv1
        obtain ⟨o2, p2, a2⟩ := st2
        simp only [Option.some.injEq, Prod.mk.injEq] at hrun
        obtain ⟨hord, hopar, horank, _⟩ := hrun
        subst hord
        exact stInv_output rank rank.length o2 p2 a2 opar orank hinv2 hopar.symm horank.symm

theorem claim_C4_tree_invariant_witness :
    ([-1, 0] : List ℤ).getD 0 0 = -1 ∧
    (∀ i, 0 < i → i < ([0, 1] : List ℕ).length →
      0 ≤ ([-1, 0] : List ℤ).getD i 0 ∧ ([-1, 0] : List ℤ).getD i 0 < (i : ℤ)) ∧
    (∀ i, i < ([0, 1] : List ℕ).length → ∀ k, k ≤ ((([0, 0] : List ℤ).getD i 0).toNat) →
      (parentStep [-1, 0])^[k] i < ([0, 1] : List ℕ).length ∧
      ([0, 0] : List ℤ).getD ((parentStep [-1, 0])^[k] i) 0 =
        ([0, 0] : List ℤ).getD i 0 - (k : ℤ)) :=
  claim_C4_tree_invariant 20 [(0, 1)] [] [] [1, 1] [0, 0] [-1, -1]
    [0, 1] [-1, 0] [0, 0] [-1, -1]
    (by decide) (by decide) (by decide) (by decide)

theorem foldlN_max_ge_init (t : List ℕ) (a : ℕ) : a ≤ t.foldl max a := by
  induction t generalizing a with
  | nil => exact le_rfl
  | cons b t ih => exact le_trans (le_max_left a b) (ih (max a b))

theorem foldlN_max_ge_mem (t : List ℕ) (a x : ℕ) (hx : x ∈ t) : x ≤ t.foldl max a := by
  induction t generalizing a with
  | nil => cases hx
  | cons b t ih =>
    rcases List.mem_cons.mp hx with rfl | hx2
    · exact le_trans (le_max_right a x) (foldlN_max_ge_init t (max a x))
    · exact ih (max a b) hx2

theorem foldlN_max_mem (t : List ℕ) (a : ℕ) : t.foldl max a = a ∨ t.foldl max a ∈ t := by
  induction t generalizing a with
  | nil => exact Or.inl rfl
  | cons b t ih =>
    rcases ih (max a b) with h | h
    · rcases max_choice a b with h2 | h2
      · exact Or.inl (by rw [List.foldl_cons, h, h2])
      · exact Or.inr (by rw [List.foldl_cons, h, h2]; exact List.mem_cons_self b t)
    · exact Or.inr (List.mem_cons_of_mem b h)

theorem foldlN_max_le (t : List ℕ) (a M : ℕ) (ha : a ≤ M) (h : ∀ v ∈ t, v ≤ M) :
    t.foldl max a ≤ M := by
  induction t generalizing a with
  | nil => exact ha
  | cons b t ih =>
    rw [List.foldl_cons]
    exact ih (max a b) (max_le ha (h b (List.mem_cons_self b t)))
      (fun v hv => h v (List.mem_cons_of_mem b hv))

theorem maxNat_ge (l : List ℕ) (v : ℕ) (h : v ∈ l) : v ≤ maxNat l :=
  foldlN_max_ge_mem l 0 v h

theorem maxNat_le_of_forall (l : List ℕ) (M : ℕ) (h : ∀ v ∈ l, v ≤ M) : maxNat l ≤ M :=
  foldlN_max_le l 0 M (Nat.zero_le M) h

theorem maxNat_mem_or (l : List ℕ) : maxNat l ∈ l ∨ maxNat l = 0 := by
  rcases foldlN_max_mem l 0 with h | h
  · exact Or.inr h
  · exact Or.inl h

theorem mapN_getD (l : List ℕ) (f : ℕ → ℕ) (i : ℕ) (h : i < l.length) :
    (l.map f).getD i 0 = f (l.getD i 0) := by
  rw [List.getD_eq_getElem _ _ (by simpa using h), List.getD_eq_getElem _ _ h]
  simp

theorem findBlanks_spec (l : List ℕ) (t : ℕ) :
    ∀ fuel b, maxNat l < fuel + (t + b) →
      (∀ d, d < b → t + d ∉ l ∧ t + d < maxNat l) →
      (∀ d, d < findBlanks l t fuel b → t + d ∉ l ∧ t + d < maxNat l) ∧
      b ≤ findBlanks l t fuel b ∧
      (t + findBlanks l t fuel b ∈ l ∨ maxNat l ≤ t + findBlanks l t fuel b) := by
  intro fuel
  induction fuel with
  | zero =>
    intro b hf hd
    rw [findBlanks]
    exact ⟨hd, le_refl b, Or.inr (by omega)⟩
  | succ fuel ih =>
    intro b hf hd
    rw [findBlanks]
    by_cases hc : (t + b) ∉ l ∧ t + b < maxNat l
    · rw [if_pos hc]
      obtain ⟨ha, hb2, hc2⟩ := ih (b + 1) (by omega) (by
        intro d hdb
        rcases Nat.lt_or_ge d b with h1 | h1
        · exact hd d h1
        · have hdeq : d = b := by omega
          subst hdeq
          exact hc)
      exact ⟨ha, by omega, hc2⟩
    · rw [if_neg hc]
      push_neg at hc
      refine ⟨hd, le_refl b, ?_⟩
      by_cases hm : t + b ∈ l
      · exact Or.inl hm
      · exact Or.inr (hc hm)

theorem ringPairs_mem (bond : ℕ → ℕ → Bool) (ring : List ℕ) (a1 a2 : ℕ)
    (h1 : a1 ∈ ring) (h2 : a2 ∈ ring) (hlt : a1 < a2) (hb : bond a1 a2 = true) :
    (a1 - 1, a2 - 1) ∈ ringPairs bond ring := by
  rw [ringPairs, List.mem_flatMap]
  exact ⟨a1, h1, List.mem_map.mpr ⟨a2, List.mem_filter.mpr ⟨h2, by simp [hlt, hb]⟩, rfl⟩⟩

theorem ftrFold_mono (tors : List (ℕ × ℕ)) (bond : ℕ → ℕ → Bool) :
    ∀ (rings : List (List ℕ)) (st : ℕ × List (ℕ × ℕ) × List ℕ) (x : ℕ × ℕ),
      x ∈ st.2.1 → x ∈ (rings.foldl (ftrStep tors bond) st).2.1 := by
  intro rings
  induction rings with
  | nil => exact fun st x h => h
  | cons ring rest ih =>
    intro st x h
    rw [List.foldl_cons]
    apply ih
    rw [ftrStep]
    by_cases hc : ftrIncl tors ring = true
    · rw [if_pos hc]
      exact List.mem_append_left _ h
    · rw [if_neg hc]
      exact h

theorem ftrFold_emits (tors : List (ℕ × ℕ)) (bond : ℕ → ℕ → Bool) :
    ∀ (rings : List (List ℕ)) (st : ℕ × List (ℕ × ℕ) × List ℕ) (ring : List ℕ),
      ring ∈ rings → ftrIncl tors ring = true → ∀ x ∈ ringPairs bond ring,
      x ∈ (rings.foldl (ftrStep tors bond) st).2.1 := by
  intro rings
  induction rings with
  | nil => intro st ring h; cases h
  | cons r rest ih =>
    intro st ring hmem hincl x hx
    rw [List.foldl_cons]
    rcases List.mem_cons.mp hmem with heq | hmem2
    · subst heq
      apply ftrFold_mono
      rw [ftrStep, if_pos hincl]
      exact List.mem_append_right _ hx
    · exact ih _ ring hmem2 hincl x hx

theorem mergeStep_length (outTors : List (ℕ × ℕ)) (acc : List ℕ) (i j : ℕ) :
    (mergeStep outTors acc i j).length = acc.length := by
  simp only [mergeStep]
  split
  · rw [List.length_map]
  · rfl

theorem mergeStep_preserves_eq (outTors : List (ℕ × ℕ)) (acc : List ℕ) (p q i j : ℕ)
    (hi : i < acc.length) (hj : j < acc.length)
    (h : acc.getD i 0 = acc.getD j 0) :
    (mergeStep outTors acc p q).getD i 0 = (mergeStep outTors acc p q).getD j 0 := by
  simp only [mergeStep]
  split
  · rw [mapN_getD _ _ _ hi, mapN_getD _ _ _ hj, h]
  · exact h

theorem mergeStep_equalizes (outTors : List (ℕ × ℕ)) (acc : List ℕ) (i j : ℕ)
    (hi : i < acc.length) (hj : j < acc.length)
    (hshare : sharesAtomB (outTors.getD i (0, 0)) (outTors.getD j (0, 0)) = true) :
    (mergeStep outTors acc i j).getD i 0 = (mergeStep outTors acc i j).getD j 0 := by
  by_cases hne : acc.getD i 0 = acc.getD j 0
  · exact mergeStep_preserves_eq outTors acc i j i j hi hj hne
  · simp only [mergeStep]
    rw [if_pos ⟨hne, hshare⟩, mapN_getD _ _ _ hi, mapN_getD _ _ _ hj]
    rcases le_total (acc.getD i 0) (acc.getD j 0) with hle | hle
    · rw [max_eq_right hle, min_eq_left hle, if_neg hne, if_pos rfl]
    · rw [max_eq_left hle, min_eq_right hle, if_pos rfl, if_neg (Ne.symm hne)]

theorem mergeFold_length (outTors : List (ℕ × ℕ)) :
    ∀ (ps : List (ℕ × ℕ)) (acc : List ℕ),
      (ps.foldl (fun acc p => mergeStep outTors acc p.1 p.2) acc).length = acc.length := by
  intro ps
  induction ps with
  | nil => exact fun acc => rfl
  | cons p rest ih =>
    intro acc
    rw [List.foldl_cons, ih, mergeStep_length]

theorem mergeFold_preserves (outTors : List (ℕ × ℕ)) :
    ∀ (ps : List (ℕ × ℕ)) (acc : List ℕ) (i j : ℕ),
      i < acc.length → j < acc.length → acc.getD i 0 = acc.getD j 0 →
      (ps.foldl (fun acc p => mergeStep outTors acc p.1 p.2) acc).getD i 0 =
        (ps.foldl (fun acc p => mergeStep outTors acc p.1 p.2) acc).getD j 0 := by
  intro ps
  induction ps with
  | nil => exact fun acc i j _ _ h => h
  | cons p rest ih =>
    intro acc i j hi hj h
    rw [List.foldl_cons]
    exact ih _ i j (by rw [mergeStep_length]; exact hi) (by rw [mergeStep_length]; exact hj)
      (mergeStep_preserves_eq outTors acc p.1 p.2 i j hi hj h)

theorem mergeFold_trigger (outTors : List (ℕ × ℕ)) :
    ∀ (ps : List (ℕ × ℕ)) (acc : List ℕ) (i j : ℕ),
      (i, j) ∈ ps → i < acc.length → j < acc.length →
      sharesAtomB (outTors.getD i (0, 0)) (outTors.getD j (0, 0)) = true →
      (ps.foldl (fun acc p => mergeStep outTors acc p.1 p.2) acc).getD i 0 =
        (ps.foldl (fun acc p => mergeStep outTors acc p.1 p.2) acc).getD j 0 := by
  intro ps
  induction ps with
  | nil => intro acc i j h; cases h
  | cons p rest ih =>
    intro acc i j hmem hi hj hshare
    rw [List.foldl_cons]
    rcases List.mem_cons.mp hmem with heq | hmem2
    · rw [← heq]
      exact mergeFold_preserves outTors rest _ i j
        (by rw [mergeStep_length]; exact hi) (by rw [mergeStep_length]; exact hj)
        (mergeStep_equalizes outTors acc i j hi hj hshare)
    · exact ih _ i j hmem2 (by rw [mergeStep_length]; exact hi)
        (by rw [mergeStep_length]; exact hj) hshare

theorem mergePairs_mem (n i j : ℕ) (hij : i < j) (hj : j < n) : (i, j) ∈ mergePairs n := by
  rw [mergePairs, List.mem_flatMap]
  refine ⟨i, List.mem_range.mpr (by omega), ?_⟩
  rw [List.mem_map]
  exact ⟨j, List.mem_range'_1.mpr ⟨by omega, by omega⟩, rfl⟩

theorem mergeAll_length (outTors : List (ℕ × ℕ)) (outRing : List ℕ) :
    (mergeAll outTors outRing).length = outRing.length := by
  rw [mergeAll]
  exact mergeFold_length outTors _ outRing

theorem mergeAll_equalizes (outTors : List (ℕ × ℕ)) (outRing : List ℕ) (i j : ℕ)
    (hij : i < j) (hj : j < outTors.length) (hlen : outRing.length = outTors.length)
    (hshare : sharesAtomB (outTors.getD i (0, 0)) (outTors.getD j (0, 0)) = true) :
    (mergeAll outTors outRing).getD i 0 = (mergeAll outTors outRing).getD j 0 := by
  rw [mergeAll]
  exact mergeFold_trigger outTors (mergePairs outTors.length) outRing i j
    (mergePairs_mem _ _ _ hij hj) (by omega) (by omega) hshare

theorem renStep_length (acc : List ℕ) (rn : ℕ) : (renStep acc rn).length = acc.length := by
  simp only [renStep]
  split
  · rw [List.length_map]
  · rfl

theorem renStep_preserves_eq (acc : List ℕ) (rn i j : ℕ)
    (hi : i < acc.length) (hj : j < acc.length)
    (h : acc.getD i 0 = acc.getD j 0) :
    (renStep acc rn).getD i 0 = (renStep acc rn).getD j 0 := by
  simp only [renStep]
  split
  · rw [mapN_getD _ _ _ hi, mapN_getD _ _ _ hj, h]
  · exact h

theorem renFold_preserves_eq :
    ∀ (rns : List ℕ) (acc : List ℕ) (i j : ℕ),
      i < acc.length → j < acc.length → acc.getD i 0 = acc.getD j 0 →
      (rns.foldl renStep acc).getD i 0 = (rns.foldl renStep acc).getD j 0 := by
  intro rns
  induction rns with
  | nil => exact fun acc i j _ _ h => h
  | cons rn rest ih =>
    intro acc i j hi hj h
    rw [List.foldl_cons]
    exact ih _ i j (by rw [renStep_length]; exact hi) (by rw [renStep_length]; exact hj)
      (renStep_preserves_eq acc rn i j hi hj h)

theorem renumber_preserves_eq (l : List ℕ) (i j : ℕ) (hi : i < l.length)
    (hj : j < l.length) (h : l.getD i 0 = l.getD j 0) :
    (renumber l).getD i 0 = (renumber l).getD j 0 := by
  rw [renumber]
  split
  · exact renFold_preserves_eq _ l i j hi hj h
  · exact h

/-- The density step: processing ring number `t + 1` keeps all ids positive,
never raises the maximum, and fills the id range up to `t + 1`. -/
theorem renStep_inv (acc : List ℕ) (t : ℕ)
    (hpos : ∀ v ∈ acc, 1 ≤ v)
    (hden : ∀ v, 1 ≤ v → v ≤ t → v ≤ maxNat acc → v ∈ acc) :
    (∀ v ∈ renStep acc (t + 1), 1 ≤ v) ∧
    (∀ v, 1 ≤ v → v ≤ t + 1 → v ≤ maxNat (renStep acc (t + 1)) → v ∈ renStep acc (t + 1)) ∧
    maxNat (renStep acc (t + 1)) ≤ maxNat acc := by
  obtain ⟨hint, _, hstop⟩ := findBlanks_spec acc (t + 1) (maxNat acc + 1) 0
    (by omega) (fun d hd => absurd hd (Nat.not_lt_zero d))
  simp only [renStep]
  by_cases hbp : 0 < findBlanks acc (t + 1) (maxNat acc + 1) 0
  · rw [if_pos hbp]
    set b := findBlanks acc (t + 1) (maxNat acc + 1) 0 with hbdef
    have hge : ∀ r ∈ acc, t + 1 < r → t + 1 + b ≤ r := by
      intro r hr hlt
      by_contra hcon
      have hd : r - (t + 1) < b := by omega
      have := (hint _ hd).1
      have hreq : t + 1 + (r - (t + 1)) = r := by omega
      rw [hreq] at this
      exact this hr
    have hmax : maxNat (acc.map (fun r => if t + 1 < r then r - b else r)) ≤ maxNat acc := by
      apply maxNat_le_of_forall
      intro v hv
      obtain ⟨r, hr, hfr⟩ := List.mem_map.mp hv
      have hrm := maxNat_ge acc r hr
      split at hfr <;> omega
    refine ⟨?_, ?_, hmax⟩
    · intro v hv
      obtain ⟨r, hr, hfr⟩ := List.mem_map.mp hv
      have h1 := hpos r hr
      have h2 : t + 1 < r → t + 1 + b ≤ r := hge r hr
      split at hfr <;> omega
    · intro v h1 h2 h3
      rcases Nat.lt_or_ge v (t + 1) with hvt | hvt
      · have hva : v ∈ acc := hden v h1 (by omega) (le_trans h3 hmax)
        refine List.mem_map.mpr ⟨v, hva, ?_⟩
        rw [if_neg (by omega)]
      · have hveq : v = t + 1 := by omega
        subst hveq
        by_cases hb2 : t + 1 + b ∈ acc
        · refine List.mem_map.mpr ⟨t + 1 + b, hb2, ?_⟩
          rw [if_pos (by omega)]
          omega
        · have hmle : maxNat acc ≤ t + 1 + b := by
            rcases hstop with hin | hle
            · exact absurd hin hb2
            · exact hle
          have hsmall : ∀ u ∈ acc.map (fun r => if t + 1 < r then r - b else r), u ≤ t := by
            intro u hu
            obtain ⟨r, hr, hfr⟩ := List.mem_map.mp hu
            rcases Nat.lt_or_ge (t + 1) r with hrt | hrt
            · have hge2 := hge r hr hrt
              have hrm := maxNat_ge acc r hr
              have hreq : r = t + 1 + b := by omega
              rw [hreq] at hr
              exact absurd hr hb2
            · have hrne : r ≠ t + 1 := by
                intro hcon
                rw [hcon] at hr
                exact (hint 0 hbp).1 (by simpa using hr)
              split at hfr <;> omega
          have := maxNat_le_of_forall _ t hsmall
          omega
  · rw [if_neg hbp]
    have hbz : findBlanks acc (t + 1) (maxNat acc + 1) 0 = 0 := by omega
    rw [hbz] at hstop
    refine ⟨hpos, ?_, le_refl _⟩
    intro v h1 h2 h3
    rcases Nat.lt_or_ge v (t + 1) with hvt | hvt
    · exact hden v h1 (by omega) h3
    · have hveq : v = t + 1 := by omega
      subst hveq
      rcases hstop with hin | hle
      · simpa using hin
      · have hmax_mem := maxNat_mem_or acc
        have : t + 1 + 0 = maxNat acc := by omega
        rcases hmax_mem with hm | hm
        · rw [← this] at hm
          simpa using hm
        · omega

theorem renFold_inv :
    ∀ (M s : ℕ) (acc : List ℕ),
      (∀ v ∈ acc, 1 ≤ v) →
      (∀ v, 1 ≤ v → v ≤ s → v ≤ maxNat acc → v ∈ acc) →
      (∀ v ∈ (List.range' (s + 1) M).foldl renStep acc, 1 ≤ v) ∧
      (∀ v, 1 ≤ v → v ≤ s + M →
        v ≤ maxNat ((List.range' (s + 1) M).foldl renStep acc) →
        v ∈ (List.range' (s + 1) M).foldl renStep acc) ∧
      maxNat ((List.range' (s + 1) M).foldl renStep acc) ≤ maxNat acc := by
  intro M
  induction M with
  | zero =>
    intro s acc hpos hden
    refine ⟨hpos, ?_, le_refl _⟩
    intro v h1 h2 h3
    exact hden v h1 (by omega) h3
  | succ M ih =>
    intro s acc hpos hden
    rw [List.range'_succ, List.foldl_cons]
    obtain ⟨p1, p2, p3⟩ := renStep_inv acc s hpos hden
    obtain ⟨q1, q2, q3⟩ := ih (s + 1) (renStep acc (s + 1)) p1 p2
    exact ⟨q1, fun v h1 h2 h3 => q2 v h1 (by omega) h3, le_trans q3 p3⟩

/-- After renumbering, the ring ids are dense: every value from 1 to the
maximum occurs. -/
theorem renumber_dense (l : List ℕ) (hpos : ∀ v ∈ l, 1 ≤ v) :
    ∀ v, 1 ≤ v → v ≤ maxNat (renumber l) → v ∈ renumber l := by
  intro v h1 h2
  rw [renumber] at h2 ⊢
  by_cases hl : 0 < l.length
  · rw [if_pos hl] at h2 ⊢
    have h0 : ∀ v, 1 ≤ v → v ≤ 0 → v ≤ maxNat l → v ∈ l := by
      intro v hv1 hv0 _
      omega
    obtain ⟨_, q2, q3⟩ := renFold_inv (maxNat l) 0 l hpos h0
    simp only [Nat.zero_add] at q2 q3
    exact q2 v h1 (by omega) h2
  · rw [if_neg hl] at h2 ⊢
    have hnil : l = [] := List.length_eq_zero.mp (by omega)
    subst hnil
    exact absurd h2 (by simp [maxNat]; omega)

theorem getDN_mem (l : List ℕ) (i : ℕ) (h : i < l.length) : l.getD i 0 ∈ l := by
  rw [List.getD_eq_getElem _ _ h]
  exact List.getElem_mem h

theorem ftrFold_lens (tors : List (ℕ × ℕ)) (bond : ℕ → ℕ → Bool) :
    ∀ (rings : List (List ℕ)) (st : ℕ × List (ℕ × ℕ) × List ℕ),
      st.2.2.length = st.2.1.length →
      (rings.foldl (ftrStep tors bond) st).2.2.length =
        (rings.foldl (ftrStep tors bond) st).2.1.length := by
  intro rings
  induction rings with
  | nil => exact fun st h => h
  | cons ring rest ih =>
    intro st h
    rw [List.foldl_cons]
    apply ih
    rw [ftrStep]
    split
    · simp [h]
    · exact h

theorem ftrFold_pos (tors : List (ℕ × ℕ)) (bond : ℕ → ℕ → Bool) :
    ∀ (rings : List (List ℕ)) (st : ℕ × List (ℕ × ℕ) × List ℕ),
      (∀ v ∈ st.2.2, 1 ≤ v) →
      ∀ v ∈ (rings.foldl (ftrStep tors bond) st).2.2, 1 ≤ v := by
  intro rings
  induction rings with
  | nil => exact fun st h => h
  | cons ring rest ih =>
    intro st h
    rw [List.foldl_cons]
    apply ih
    rw [ftrStep]
    split
    · intro v hv
      rcases List.mem_append.mp hv with h1 | h1
      · exact h v h1
      · obtain ⟨_, _, hw⟩ := List.mem_map.mp h1
        omega
    · exact h

theorem mergeStep_pos (outTors : List (ℕ × ℕ)) (acc : List ℕ) (i j : ℕ)
    (hi : i < acc.length) (hj : j < acc.length)
    (hpos : ∀ v ∈ acc, 1 ≤ v) :
    ∀ v ∈ mergeStep outTors acc i j, 1 ≤ v := by
  simp only [mergeStep]
  split
  · intro v hv
    obtain ⟨r, hr, hfr⟩ := List.mem_map.mp hv
    have h1 := hpos r hr
    have h2 := hpos _ (getDN_mem acc i hi)
    have h3 := hpos _ (getDN_mem acc j hj)
    have h4 : 1 ≤ min (acc.getD i 0) (acc.getD j 0) := le_min h2 h3
    split at hfr <;> omega
  · exact hpos

theorem mergePairs_bound (n : ℕ) : ∀ p ∈ mergePairs n, p.1 < n ∧ p.2 < n := by
  intro p hp
  rw [mergePairs, List.mem_flatMap] at hp
  obtain ⟨i, hi, hpm⟩ := hp
  obtain ⟨j, hj, hpe⟩ := List.mem_map.mp hpm
  rw [List.mem_range'_1] at hj
  rw [List.mem_range] at hi
  subst hpe
  exact ⟨hi, by omega⟩

theorem mergeFold_pos (outTors : List (ℕ × ℕ)) :
    ∀ (ps : List (ℕ × ℕ)) (acc : List ℕ),
      (∀ p ∈ ps, p.1 < acc.length ∧ p.2 < acc.length) →
      (∀ v ∈ acc, 1 ≤ v) →
      ∀ v ∈ ps.foldl (fun acc p => mergeStep outTors acc p.1 p.2) acc, 1 ≤ v := by
  intro ps
  induction ps with
  | nil => exact fun acc _ h => h
  | cons p rest ih =>
    intro acc hb h
    rw [List.foldl_cons]
    have hbp := hb p (List.mem_cons_self p rest)
    apply ih
    · intro q hq
      rw [mergeStep_length]
      exact hb q (List.mem_cons_of_mem p hq)
    · exact mergeStep_pos outTors acc p.1 p.2 hbp.1 hbp.2 h

theorem mergeAll_pos (outTors : List (ℕ × ℕ)) (outRing : List ℕ)
    (hlen : outRing.length = outTors.length) (hpos : ∀ v ∈ outRing, 1 ≤ v) :
    ∀ v ∈ mergeAll outTors outRing, 1 ≤ v := by
  rw [mergeAll]
  apply mergeFold_pos outTors _ outRing _ hpos
  intro p hp
  have := mergePairs_bound outTors.length p hp
  omega

/-- C5: ring merging in `find_tors_in_rings`.  (1) Every internal bond of a
ring containing both endpoints of some rotatable torsion is emitted as a
ring torsion (0-based).  (2) Any two emitted ring bonds sharing an endpoint
atom end up with the same final ring id.  (3) The final ring ids are dense:
every id from 1 to the maximum occurs.  (4) On the two-triangle example
sharing atom 3, with one rotatable bond in each ring, the result is a single
ring id 1 carrying the union of both rings' six bonds. -/
theorem claim_C5_ring_merging :
    (∀ (tors : List (ℕ × ℕ)) (bond : ℕ → ℕ → Bool) (rings : List (List ℕ))
      (ring : List ℕ) (a1 a2 : ℕ),
      ring ∈ rings → ftrIncl tors ring = true → a1 ∈ ring → a2 ∈ ring →
      a1 < a2 → bond a1 a2 = true →
      (a1 - 1, a2 - 1) ∈ (findTorsInRings tors bond rings).1) ∧
    (∀ (tors : List (ℕ × ℕ)) (bond : ℕ → ℕ → Bool) (rings : List (List ℕ)) (i j : ℕ),
      i < j → j < (ftrEmit tors bond rings).2.1.length →
      sharesAtomB ((ftrEmit tors bond rings).2.1.getD i (0, 0))
        ((ftrEmit tors bond rings).2.1.getD j (0, 0)) = true →
      (findTorsInRings tors bond rings).2.getD i 0 =
        (findTorsInRings tors bond rings).2.getD j 0) ∧
    (∀ (tors : List (ℕ × ℕ)) (bond : ℕ → ℕ → Bool) (rings : List (List ℕ)) (v : ℕ),
      1 ≤ v → v ≤ maxNat (findTorsInRings tors bond rings).2 →
      v ∈ (findTorsInRings tors bond rings).2) ∧
    findTorsInRings [(0, 1), (3, 4)] exBond [[1, 2, 3], [3, 4, 5]] =
      ([(0, 1), (0, 2), (1, 2), (2, 3), (2, 4), (3, 4)], [1, 1, 1, 1, 1, 1]) := by
  refine ⟨?_, ?_, ?_, by decide⟩
  · intro tors bond rings ring a1 a2 hr hincl h1 h2 hlt hb
    show (a1 - 1, a2 - 1) ∈ (ftrEmit tors bond rings).2.1
    exact ftrFold_emits tors bond rings (0, [], []) ring hr hincl _
      (ringPairs_mem bond ring a1 a2 h1 h2 hlt hb)
  · intro tors bond rings i j hij hj hshare
    have hlen : (ftrEmit tors bond rings).2.2.length =
        (ftrEmit tors bond rings).2.1.length :=
      ftrFold_lens tors bond rings (0, [], []) rfl
    show (renumber (mergeAll (ftrEmit tors bond rings).2.1
        (ftrEmit tors bond rings).2.2)).getD i 0 = _
    apply renumber_preserves_eq
    · rw [mergeAll_length]
      omega
    · rw [mergeAll_length]
      omega
    · exact mergeAll_equalizes _ _ i j hij hj hlen hshare
  · intro tors bond rings v h1 h2
    have hlen : (ftrEmit tors bond rings).2.2.length =
        (ftrEmit tors bond rings).2.1.length :=
      ftrFold_lens tors bond rings (0, [], []) rfl
    have hpos0 : ∀ w ∈ (ftrEmit tors bond rings).2.2, 1 ≤ w :=
      ftrFold_pos tors bond rings (0, [], []) (by intro w hw; cases hw)
    exact renumber_dense _ (mergeAll_pos _ _ hlen hpos0) v h1 h2

theorem claim_C5_ring_merging_witness :
    ((1 : ℕ) - 1, (2 : ℕ) - 1) ∈
      (findTorsInRings [(0, 1), (3, 4)] exBond [[1, 2, 3], [3, 4, 5]]).1 ∧
    (findTorsInRings [(0, 1), (3, 4)] exBond [[1, 2, 3], [3, 4, 5]]).2.getD 1 0 =
      (findTorsInRings [(0, 1), (3, 4)] exBond [[1, 2, 3], [3, 4, 5]]).2.getD 3 0 ∧
    (1 : ℕ) ∈ (findTorsInRings [(0, 1), (3, 4)] exBond [[1, 2, 3], [3, 4, 5]]).2 :=
  ⟨claim_C5_ring_merging.1 [(0, 1), (3, 4)] exBond [[1, 2, 3], [3, 4, 5]] [1, 2, 3] 1 2
      (by decide) (by decide) (by decide) (by decide) (by decide) (by decide),
    claim_C5_ring_merging.2.1 [(0, 1), (3, 4)] exBond [[1, 2, 3], [3, 4, 5]] 1 3
      (by decide) (by decide) (by decide),
    claim_C5_ring_merging.2.2.1 [(0, 1), (3, 4)] exBond [[1, 2, 3], [3, 4, 5]] 1
      (by decide) (by decide)⟩

/-- C2: on collinear inputs `bangle` and `calc_tors` raise no domain error,
and the 0-side clamps are exact; but the π-side clamp of `bangle` returns
the literal 3.13159 of the source, which is not π (`calc_tors` does clamp
to exactly π).  Points (1,0,0), vertex (0,0,0), (-1,0,0) give cosine -1 and
the value 3.13159; points (1,0,0), vertex (0,0,0), (2,0,0) give cosine 1
and exactly 0; the planar trans torsion gives exactly π. -/
theorem claim_C2_collinear_clamp :
    bangle 1 0 0 0 0 0 (-1) 0 0 = some (313159 / 100000) ∧
    (313159 / 100000 : ℝ) ≠ Real.pi ∧
    bangle 1 0 0 0 0 0 2 0 0 = some 0 ∧
    calc_tors 0 1 0 0 0 0 1 0 0 1 (-1) 0 = Real.pi := by
  refine ⟨?_, ?_, ?_, ?_⟩
  · norm_num [bangle, Real.sqrt_one]
  · intro h
    have hpi := Real.pi_gt_3141592
    rw [← h] at hpi
    norm_num at hpi
  · have h4 : Real.sqrt 4 = 2 := by
      rw [show (4 : ℝ) = 2 ^ 2 by norm_num, Real.sqrt_sq (by norm_num : (0:ℝ) ≤ 2)]
    norm_num [bangle, h4]
  · norm_num [calc_tors, Real.sqrt_one]

/-- C9: `bangle` raises its `zero angle` exception exactly on perpendicular
bond vectors (dot product zero), so `xyz2int` is partial even on
geometrically valid, non-collinear conformations: the single-atom molecule
at (2/5, -3/10, 3/10) has its bond vector to the dummy parent atom
perpendicular to the dummy parent-grandparent bond (both vectors nonzero),
and the conversion aborts. -/
theorem claim_C9_bangle_partiality :
    (∀ xj yj zj xi yi zi xk yk zk : ℝ,
      (xj - xi) * (xk - xi) + (yj - yi) * (yk - yi) + (zj - zi) * (zk - zi) = 0 →
      bangle xj yj zj xi yi zi xk yk zk = none) ∧
    xyz2int [(2 / 5, -(3 / 10), 3 / 10)] [0] [-1] = none ∧
    ((2 / 5 - 1 / 10 : ℝ), (-(3 / 10) - 2 / 10 : ℝ), (3 / 10 - 3 / 10 : ℝ)) ≠ (0, 0, 0) ∧
    ((6 / 10 - 1 / 10 : ℝ), (5 / 10 - 2 / 10 : ℝ), (4 / 10 - 3 / 10 : ℝ)) ≠ (0, 0, 0) := by
  have hgen : ∀ xj yj zj xi yi zi xk yk zk : ℝ,
      (xj - xi) * (xk - xi) + (yj - yi) * (yk - yi) + (zj - zi) * (zk - zi) = 0 →
      bangle xj yj zj xi yi zi xk yk zk = none := by
    intro xj yj zj xi yi zi xk yk zk h
    simp only [bangle]
    rw [h]
    norm_num
  refine ⟨hgen, ?_, by norm_num, by norm_num⟩
  have hb := hgen (2 / 5) (-(3 / 10)) (3 / 10) (1 / 10) (2 / 10) (3 / 10)
    (6 / 10) (5 / 10) (4 / 10) (by norm_num)
  have hrow : zmatRow [dummy_atom1, dummy_atom2, dummy_atom3, (2 / 5, -(3 / 10), 3 / 10)]
      [-1, 0, 1, 2] [0, 1, 2, 3] ((0 : ℤ) + 3) = none := by
    simp only [zmatRow]
    have hj : pyGet [-1, 0, 1, 2] ((0 : ℤ) + 3) = 2 := by decide
    rw [hj]
    have hk : pyGet [-1, 0, 1, 2] (2 : ℤ) = 1 := by decide
    rw [hk]
    have hl2 : pyGet [-1, 0, 1, 2] (1 : ℤ) = 0 := by decide
    rw [hl2]
    have ho3 : pyGet [0, 1, 2, 3] ((0 : ℤ) + 3) = 3 := by decide
    rw [ho3]
    have ho2 : pyGet [0, 1, 2, 3] (2 : ℤ) = 2 := by decide
    rw [ho2]
    have ho1 : pyGet [0, 1, 2, 3] (1 : ℤ) = 1 := by decide
    rw [ho1]
    have ho0 : pyGet [0, 1, 2, 3] (0 : ℤ) = 0 := by decide
    rw [ho0]
    have hc3 : pyGetP [dummy_atom1, dummy_atom2, dummy_atom3, (2 / 5, -(3 / 10), 3 / 10)]
        (3 : ℤ) = (2 / 5, -(3 / 10), 3 / 10) := rfl
    have hc2 : pyGetP [dummy_atom1, dummy_atom2, dummy_atom3, (2 / 5, -(3 / 10), 3 / 10)]
        (2 : ℤ) = dummy_atom3 := rfl
    have hc1 : pyGetP [dummy_atom1, dummy_atom2, dummy_atom3, (2 / 5, -(3 / 10), 3 / 10)]
        (1 : ℤ) = dummy_atom2 := rfl
    rw [hc3, hc2, hc1]
    simp only [dummy_atom2, dummy_atom3]
    rw [hb]
  simp only [xyz2int]
  norm_num [List.map]
  have hl : ((List.range 1).flatMap fun a => [(a : ℤ)]) = [0] := by decide
  rw [hl]
  simp only [List.mapM.loop]
  rw [hrow]
  rfl

theorem claim_C9_bangle_partiality_witness :
    bangle (2 / 5) (-(3 / 10)) (3 / 10) (1 / 10) (2 / 10) (3 / 10)
      (6 / 10) (5 / 10) (4 / 10) = none :=
  claim_C9_bangle_partiality.1 (2 / 5) (-(3 / 10)) (3 / 10) (1 / 10) (2 / 10) (3 / 10)
    (6 / 10) (5 / 10) (4 / 10) (by norm_num)
theorem sqrt_gt_aux (a b : ℝ) (ha : 0 ≤ a) (hb : 0 ≤ b) (h : b * b < a) :
    b < Real.sqrt a := by
  nlinarith [Real.sq_sqrt ha, Real.sqrt_nonneg a]

set_option maxHeartbeats 2000000 in
theorem nerfPlace_zero_theta (r phi : ℝ) :
    nerfPlace r (0 * Real.pi / 180) phi dummy_atom3 dummy_atom2 dummy_atom1 =
    (r * Real.sqrt (1 - 1/10 / (Real.sqrt 7 / Real.sqrt 20) *
        (1/10 / (Real.sqrt 7 / Real.sqrt 20))) * (1/2 / (Real.sqrt 17 / Real.sqrt 50)) + 1/10,
     r * Real.sqrt (1 - 1/10 / (Real.sqrt 7 / Real.sqrt 20) *
        (1/10 / (Real.sqrt 7 / Real.sqrt 20))) *
       Real.sqrt (1 - 1/2 / (Real.sqrt 17 / Real.sqrt 50) *
        (1/2 / (Real.sqrt 17 / Real.sqrt 50))) + 1/5,
     r * (1/10 / (Real.sqrt 7 / Real.sqrt 20)) + 3/10) := by
  have hng1 : ¬ (Real.sqrt 17 / Real.sqrt 50 ≤ 1/10) := by
    rw [not_le, show Real.sqrt 17 / Real.sqrt 50 = Real.sqrt (17/50) by
      rw [Real.sqrt_div (by norm_num : (0:ℝ) ≤ 17)]]
    exact sqrt_gt_aux _ _ (by norm_num) (by norm_num) (by norm_num)
  have hng2 : ¬ (Real.sqrt 17 / Real.sqrt 50 ≤ epsilon) := by
    rw [not_le, epsilon, show Real.sqrt 17 / Real.sqrt 50 = Real.sqrt (17/50) by
      rw [Real.sqrt_div (by norm_num : (0:ℝ) ≤ 17)]]
    exact sqrt_gt_aux _ _ (by norm_num) (by norm_num) (by norm_num)
  have hng3 : ¬ (Real.sqrt 7 / Real.sqrt 20 ≤ epsilon) := by
    rw [not_le, epsilon, show Real.sqrt 7 / Real.sqrt 20 = Real.sqrt (7/20) by
      rw [Real.sqrt_div (by norm_num : (0:ℝ) ≤ 7)]]
    exact sqrt_gt_aux _ _ (by norm_num) (by norm_num) (by norm_num)
  have hngy : ¬ ((3:ℝ)/10 ≤ 0) := by norm_num
  simp only [nerfPlace, dummy_atom1, dummy_atom2, dummy_atom3]
  norm_num [hng1, hng2, hng3, hngy, Real.sin_zero, Real.cos_zero]

theorem c1_sinph_sq : (1:ℝ)/10 / (Real.sqrt 7 / Real.sqrt 20) *
    (1/10 / (Real.sqrt 7 / Real.sqrt 20)) = 1/35 := by
  have h : (Real.sqrt 7 / Real.sqrt 20) * (Real.sqrt 7 / Real.sqrt 20) = 7/20 := by
    rw [div_mul_div_comm, Real.mul_self_sqrt (by norm_num : (0:ℝ) ≤ 7),
      Real.mul_self_sqrt (by norm_num : (0:ℝ) ≤ 20)]
  rw [div_mul_div_comm, h]
  norm_num

theorem c1_costh_sq : (1:ℝ)/2 / (Real.sqrt 17 / Real.sqrt 50) *
    (1/2 / (Real.sqrt 17 / Real.sqrt 50)) = 25/34 := by
  have h : (Real.sqrt 17 / Real.sqrt 50) * (Real.sqrt 17 / Real.sqrt 50) = 17/50 := by
    rw [div_mul_div_comm, Real.mul_self_sqrt (by norm_num : (0:ℝ) ≤ 17),
      Real.mul_self_sqrt (by norm_num : (0:ℝ) ≤ 50)]
  rw [div_mul_div_comm, h]
  norm_num

theorem c1_ybound :
    1/10^6 < Real.sqrt (175000000017/500000000000) *
      Real.sqrt (1 - 1/10 / (Real.sqrt 7 / Real.sqrt 20) *
        (1/10 / (Real.sqrt 7 / Real.sqrt 20))) *
      Real.sqrt (1 - 1/2 / (Real.sqrt 17 / Real.sqrt 50) *
        (1/2 / (Real.sqrt 17 / Real.sqrt 50))) + 1/5 - 99999/200000 := by
  rw [c1_sinph_sq, c1_costh_sq]
  rw [show (1 - (1:ℝ)/35 : ℝ) = 34/35 by norm_num, show (1 - (25:ℝ)/34 : ℝ) = 9/34 by norm_num]
  rw [mul_assoc, ← Real.sqrt_mul (by norm_num : (0:ℝ) ≤ 34/35),
    ← Real.sqrt_mul (by norm_num : (0:ℝ) ≤ 175000000017/500000000000)]
  have h : (3/10 : ℝ) ≤ Real.sqrt (175000000017/500000000000 * (34/35 * (9/34))) := by
    rw [show (3/10 : ℝ) = Real.sqrt (9/100) by
      rw [show (9/100 : ℝ) = (3/10)^2 by norm_num, Real.sqrt_sq (by norm_num : (0:ℝ) ≤ 3/10)]]
    exact Real.sqrt_le_sqrt (by norm_num)
  linarith

theorem c1_dist (r : ℝ) (hrr : r * r = 175000000017/500000000000) :
    (r * Real.sqrt (1 - 1/10 / (Real.sqrt 7 / Real.sqrt 20) *
        (1/10 / (Real.sqrt 7 / Real.sqrt 20))) * (1/2 / (Real.sqrt 17 / Real.sqrt 50)) +
      1/10 - 1/10) *
    (r * Real.sqrt (1 - 1/10 / (Real.sqrt 7 / Real.sqrt 20) *
        (1/10 / (Real.sqrt 7 / Real.sqrt 20))) * (1/2 / (Real.sqrt 17 / Real.sqrt 50)) +
      1/10 - 1/10) +
    (r * Real.sqrt (1 - 1/10 / (Real.sqrt 7 / Real.sqrt 20) *
        (1/10 / (Real.sqrt 7 / Real.sqrt 20))) *
      Real.sqrt (1 - 1/2 / (Real.sqrt 17 / Real.sqrt 50) *
        (1/2 / (Real.sqrt 17 / Real.sqrt 50))) + 1/5 - 2/10) *
    (r * Real.sqrt (1 - 1/10 / (Real.sqrt 7 / Real.sqrt 20) *
        (1/10 / (Real.sqrt 7 / Real.sqrt 20))) *
      Real.sqrt (1 - 1/2 / (Real.sqrt 17 / Real.sqrt 50) *
        (1/2 / (Real.sqrt 17 / Real.sqrt 50))) + 1/5 - 2/10) +
    (r * (1/10 / (Real.sqrt 7 / Real.sqrt 20)) + 3/10 - 3/10) *
    (r * (1/10 / (Real.sqrt 7 / Real.sqrt 20)) + 3/10 - 3/10) =
    175000000017/500000000000 := by
  have hsp := c1_sinph_sq
  have hct := c1_costh_sq
  have hcp : Real.sqrt (1 - 1/10 / (Real.sqrt 7 / Real.sqrt 20) *
      (1/10 / (Real.sqrt 7 / Real.sqrt 20))) *
      Real.sqrt (1 - 1/10 / (Real.sqrt 7 / Real.sqrt 20) *
      (1/10 / (Real.sqrt 7 / Real.sqrt 20))) =
      1 - 1/10 / (Real.sqrt 7 / Real.sqrt 20) * (1/10 / (Real.sqrt 7 / Real.sqrt 20)) :=
    Real.mul_self_sqrt (by rw [hsp]; norm_num)
  have hst : Real.sqrt (1 - 1/2 / (Real.sqrt 17 / Real.sqrt 50) *
      (1/2 / (Real.sqrt 17 / Real.sqrt 50))) *
      Real.sqrt (1 - 1/2 / (Real.sqrt 17 / Real.sqrt 50) *
      (1/2 / (Real.sqrt 17 / Real.sqrt 50))) =
      1 - 1/2 / (Real.sqrt 17 / Real.sqrt 50) * (1/2 / (Real.sqrt 17 / Real.sqrt 50)) :=
    Real.mul_self_sqrt (by rw [hct]; norm_num)
  linear_combination (r * r) * hcp +
    (r * r * (Real.sqrt (1 - 1/10 / (Real.sqrt 7 / Real.sqrt 20) *
      (1/10 / (Real.sqrt 7 / Real.sqrt 20))) *
      Real.sqrt (1 - 1/10 / (Real.sqrt 7 / Real.sqrt 20) *
      (1/10 / (Real.sqrt 7 / Real.sqrt 20))))) * hst + hrr

/-- When the two bond vectors point within the 1e-10 cosine window of the
same direction, `bangle` returns exactly 0. -/
theorem bangle_clamp_zero (xj yj zj xi yi zi xk yk zk vd A B : ℝ)
    (hvd : (xj - xi) * (xk - xi) + (yj - yi) * (yk - yi) + (zj - zi) * (zk - zi) = vd)
    (hA : (xj - xi) * (xj - xi) + (yj - yi) * (yj - yi) + (zj - zi) * (zj - zi) = A)
    (hB : (xk - xi) * (xk - xi) + (yk - yi) * (yk - yi) + (zk - zi) * (zk - zi) = B)
    (hv : 0 < vd) (hA0 : 0 < A) (hB0 : 0 < B)
    (hclamp : (1 - 1/10^10) * Real.sqrt (A * B) < vd) :
    bangle xj yj zj xi yi zi xk yk zk = some 0 := by
  simp only [bangle]
  rw [hvd, hA, hB]
  rw [if_pos (abs_pos.mpr (ne_of_gt hv))]
  rw [← Real.sqrt_mul hA0.le]
  have hS : (0:ℝ) < Real.sqrt (A * B) := Real.sqrt_pos.mpr (mul_pos hA0 hB0)
  have hgt : (1 - 1/10^10 : ℝ) < vd / Real.sqrt (A * B) := (lt_div_iff hS).mpr hclamp
  rw [if_pos (by linarith)]

theorem c1_bangle :
    bangle (600003/1000000) (99999/200000) (2/5) (1/10) (2/10) (3/10)
      (6/10) (5/10) (4/10) = some 0 := by
  apply bangle_clamp_zero _ _ _ _ _ _ _ _ _ (7/20) (175000000017/500000000000) (7/20)
  · norm_num
  · norm_num
  · norm_num
  · norm_num
  · norm_num
  · norm_num
  · have hs : Real.sqrt ((175000000017/500000000000 : ℝ) * (7/20)) <
        7/20 + 1/(4*10^10) := by
      rw [show ((175000000017/500000000000 : ℝ) * (7/20)) =
        1225000000119/10000000000000 by norm_num]
      have h2 : ((1225000000119/10000000000000 : ℝ)) < (7/20 + 1/(4*10^10))^2 := by
        norm_num
      nlinarith [Real.sq_sqrt (by norm_num : (0:ℝ) ≤ (1225000000119/10000000000000 : ℝ)),
        Real.sqrt_nonneg (1225000000119/10000000000000 : ℝ)]
    nlinarith [Real.sqrt_nonneg ((175000000017/500000000000 : ℝ) * (7/20))]

theorem c1_xyz2int :
    xyz2int [(600003/1000000, 99999/200000, 2/5)] [0] [-1] =
      some [(Real.sqrt (175000000017/500000000000), 0,
        calc_tors (600003/1000000) (99999/200000) (2/5) (1/10) (2/10) (3/10)
          (6/10) (5/10) (4/10) (8/10) (7/10) (9/10) * 180 / Real.pi)] := by
  have hb := c1_bangle
  have hrow : zmatRow [dummy_atom1, dummy_atom2, dummy_atom3,
      (600003/1000000, 99999/200000, 2/5)]
      [-1, 0, 1, 2] [0, 1, 2, 3] ((0 : ℤ) + 3) =
      some (Real.sqrt (175000000017/500000000000), 0,
        calc_tors (600003/1000000) (99999/200000) (2/5) (1/10) (2/10) (3/10)
          (6/10) (5/10) (4/10) (8/10) (7/10) (9/10) * 180 / Real.pi) := by
    simp only [zmatRow]
    rw [show pyGet [-1, 0, 1, 2] ((0 : ℤ) + 3) = 2 by decide]
    rw [show pyGet [-1, 0, 1, 2] (2 : ℤ) = 1 by decide]
    rw [show pyGet [-1, 0, 1, 2] (1 : ℤ) = 0 by decide]
    rw [show pyGet [0, 1, 2, 3] ((0 : ℤ) + 3) = 3 by decide]
    rw [show pyGet [0, 1, 2, 3] (2 : ℤ) = 2 by decide]
    rw [show pyGet [0, 1, 2, 3] (1 : ℤ) = 1 by decide]
    rw [show pyGet [0, 1, 2, 3] (0 : ℤ) = 0 by decide]
    rw [show pyGetP [dummy_atom1, dummy_atom2, dummy_atom3,
        (600003/1000000, 99999/200000, 2/5)] (3 : ℤ) =
        (600003/1000000, 99999/200000, 2/5) from rfl]
    rw [show pyGetP [dummy_atom1, dummy_atom2, dummy_atom3,
        (600003/1000000, 99999/200000, 2/5)] (2 : ℤ) = dummy_atom3 from rfl]
    rw [show pyGetP [dummy_atom1, dummy_atom2, dummy_atom3,
        (600003/1000000, 99999/200000, 2/5)] (1 : ℤ) = dummy_atom2 from rfl]
    rw [show pyGetP [dummy_atom1, dummy_atom2, dummy_atom3,
        (600003/1000000, 99999/200000, 2/5)] (0 : ℤ) = dummy_atom1 from rfl]
    simp only [dummy_atom1, dummy_atom2, dummy_atom3]
    rw [hb]
    rw [show ((600003/1000000 : ℝ) - 1/10) * ((600003/1000000 : ℝ) - 1/10) +
        ((99999/200000 : ℝ) - 2/10) * ((99999/200000 : ℝ) - 2/10) +
        ((2/5 : ℝ) - 3/10) * ((2/5 : ℝ) - 3/10) = 175000000017/500000000000 by norm_num]
    norm_num
  simp only [xyz2int]
  norm_num [List.map]
  rw [show ((List.range 1).flatMap fun a => [(a : ℤ)]) = [0] by decide]
  simp only [List.mapM.loop]
  rw [hrow]
  norm_num

theorem c1_int2xyz (w : ℝ × ℝ × ℝ) :
    int2xyz [w] [-1] 2 = some [nerfPlace w.1 (w.2.1 * Real.pi / 180)
      (2 * Real.pi - w.2.2 * Real.pi / 180) dummy_atom3 dummy_atom2 dummy_atom1] := by
  have hbody : i2xBody [(0, 0, 0), (0, 0, 0), (0, 0, 0), w] [-1, 0, 1, 2]
      ([1, 1, 1, 0], [dummy_atom1, dummy_atom2, dummy_atom3, (0, 0, 0)]) (0 + 3) =
      ([1, 1, 1, 1], [dummy_atom1, dummy_atom2, dummy_atom3,
        nerfPlace w.1 (w.2.1 * Real.pi / 180) (2 * Real.pi - w.2.2 * Real.pi / 180)
          dummy_atom3 dummy_atom2 dummy_atom1]) := by
    simp only [i2xBody]
    rw [show ((0 + 3 : ℕ) : ℤ) = 3 by norm_num]
    rw [show pyGet [-1, 0, 1, 2] (3 : ℤ) = 2 by decide]
    rw [show pyGet [-1, 0, 1, 2] (2 : ℤ) = 1 by decide]
    rw [show pyGet [-1, 0, 1, 2] (1 : ℤ) = 0 by decide]
    rw [if_neg (by decide : ¬ pyGet [1, 1, 1, 0] (3 : ℤ) = 1)]
    rw [if_neg (by decide : ¬ (pyGet [1, 1, 1, 0] (2 : ℤ) = 0 ∨
      pyGet [1, 1, 1, 0] (1 : ℤ) = 0 ∨ pyGet [1, 1, 1, 0] (2 : ℤ) = 0))]
    rw [show pyGetP [(0, 0, 0), (0, 0, 0), (0, 0, 0), w] (3 : ℤ) = w from rfl]
    rw [show pyGetP [dummy_atom1, dummy_atom2, dummy_atom3, (0, 0, 0)] (2 : ℤ) =
      dummy_atom3 from rfl]
    rw [show pyGetP [dummy_atom1, dummy_atom2, dummy_atom3, (0, 0, 0)] (1 : ℤ) =
      dummy_atom2 from rfl]
    rw [show pyGetP [dummy_atom1, dummy_atom2, dummy_atom3, (0, 0, 0)] (0 : ℤ) =
      dummy_atom1 from rfl]
    norm_num [List.set]
  have hpass : i2xPass [(0, 0, 0), (0, 0, 0), (0, 0, 0), w] [-1, 0, 1, 2]
      ([1, 1, 1, 0], [dummy_atom1, dummy_atom2, dummy_atom3, (0, 0, 0)]) =
      ([1, 1, 1, 1], [dummy_atom1, dummy_atom2, dummy_atom3,
        nerfPlace w.1 (w.2.1 * Real.pi / 180) (2 * Real.pi - w.2.2 * Real.pi / 180)
          dummy_atom3 dummy_atom2 dummy_atom1]) := by
    simp only [i2xPass, List.length_cons, List.length_nil]
    rw [show (0 + 1 + 1 + 1 + 1 - 3 : ℕ) = 1 by norm_num]
    rw [show List.range 1 = [0] from rfl]
    rw [List.foldl_cons, List.foldl_nil]
    exact hbody
  simp only [int2xyz, List.map_cons, List.map_nil, List.cons_append, List.nil_append]
  simp only [i2xLoop]
  rw [show (-1 + 3 : ℤ) = 2 by norm_num]
  rw [hpass]
  rw [if_pos (by norm_num [minValue] : ((minValue [1, 1, 1, 0] : ℤ) : ℚ) < 1 / 10)]
  rw [if_neg (by norm_num [minValue] : ¬ ((minValue [1, 1, 1, 1] : ℤ) : ℚ) < 1 / 10)]
  rfl

/-- C1 (counterexample): the 1e-6 round-trip bound fails on a valid tree
(single atom, ordering [0], parent [-1]) at a non-degenerate geometry.  The
atom at (0.600003, 0.499995, 0.4) sits strictly off the axis through dummy
atoms 3 and 2 (last conjunct: strict Cauchy-Schwarz for the two bond
vectors at the dummy vertex), yet its angle cosine is within the 1e-10
clamp window of `bangle`, so `xyz2int` records a bond angle of exactly 0
and `int2xyz` reconstructs the atom on that axis, moving its y coordinate
by more than 1e-6 (it moves by about 5e-6). -/
theorem claim_C1_counterexample :
    ∃ w q,
      xyz2int [(600003/1000000, 99999/200000, 2/5)] [0] [-1] = some [w] ∧
      w.2.1 = 0 ∧
      int2xyz [w] [-1] 2 = some [q] ∧
      1/10^6 < q.2.1 - 99999/200000 ∧
      (((600003/1000000 : ℝ) - 1/10) * ((6/10 : ℝ) - 1/10) +
        ((99999/200000 : ℝ) - 2/10) * ((5/10 : ℝ) - 2/10) +
        ((2/5 : ℝ) - 3/10) * ((4/10 : ℝ) - 3/10)) ^ 2 <
      (((600003/1000000 : ℝ) - 1/10) * ((600003/1000000 : ℝ) - 1/10) +
        ((99999/200000 : ℝ) - 2/10) * ((99999/200000 : ℝ) - 2/10) +
        ((2/5 : ℝ) - 3/10) * ((2/5 : ℝ) - 3/10)) *
      (((6/10 : ℝ) - 1/10) * ((6/10 : ℝ) - 1/10) +
        ((5/10 : ℝ) - 2/10) * ((5/10 : ℝ) - 2/10) +
        ((4/10 : ℝ) - 3/10) * ((4/10 : ℝ) - 3/10)) := by
  refine ⟨(Real.sqrt (175000000017/500000000000), 0,
      calc_tors (600003/1000000) (99999/200000) (2/5) (1/10) (2/10) (3/10)
        (6/10) (5/10) (4/10) (8/10) (7/10) (9/10) * 180 / Real.pi),
    nerfPlace (Real.sqrt (175000000017/500000000000)) ((0 : ℝ) * Real.pi / 180)
      (2 * Real.pi - (calc_tors (600003/1000000) (99999/200000) (2/5) (1/10) (2/10) (3/10)
        (6/10) (5/10) (4/10) (8/10) (7/10) (9/10) * 180 / Real.pi) * Real.pi / 180)
      dummy_atom3 dummy_atom2 dummy_atom1,
    c1_xyz2int, rfl, c1_int2xyz _, ?_, by norm_num⟩
  rw [nerfPlace_zero_theta]
  exact c1_ybound

/-- C1 (amended): on the same valid tree and non-degenerate geometry, the
round trip `int2xyz` after `xyz2int` preserves the recorded structure
exactly in real arithmetic - the reconstructed atom lies at exactly the
recorded distance from its parent (both squared distances to the parent
dummy equal 175000000017/500000000000) - but the recorded bond angle was
clamped to exactly 0 although the true angle is nonzero, so coordinates
are reproduced only up to the angular clamp width and the per-coordinate
error exceeds 1e-6 inside the 1e-10 cosine clamp window. -/
theorem claim_C1_roundtrip_clamped :
    ∃ w q,
      xyz2int [(600003/1000000, 99999/200000, 2/5)] [0] [-1] = some [w] ∧
      w.1 = Real.sqrt (175000000017/500000000000) ∧
      w.2.1 = 0 ∧
      int2xyz [w] [-1] 2 = some [q] ∧
      (q.1 - 1/10) * (q.1 - 1/10) + (q.2.1 - 2/10) * (q.2.1 - 2/10) +
        (q.2.2 - 3/10) * (q.2.2 - 3/10) = 175000000017/500000000000 ∧
      ((600003/1000000 : ℝ) - 1/10) * ((600003/1000000 : ℝ) - 1/10) +
        ((99999/200000 : ℝ) - 2/10) * ((99999/200000 : ℝ) - 2/10) +
        ((2/5 : ℝ) - 3/10) * ((2/5 : ℝ) - 3/10) = 175000000017/500000000000 ∧
      1/10^6 < q.2.1 - 99999/200000 := by
  refine ⟨(Real.sqrt (175000000017/500000000000), 0,
      calc_tors (600003/1000000) (99999/200000) (2/5) (1/10) (2/10) (3/10)
        (6/10) (5/10) (4/10) (8/10) (7/10) (9/10) * 180 / Real.pi),
    nerfPlace (Real.sqrt (175000000017/500000000000)) ((0 : ℝ) * Real.pi / 180)
      (2 * Real.pi - (calc_tors (600003/1000000) (99999/200000) (2/5) (1/10) (2/10) (3/10)
        (6/10) (5/10) (4/10) (8/10) (7/10) (9/10) * 180 / Real.pi) * Real.pi / 180)
      dummy_atom3 dummy_atom2 dummy_atom1,
    c1_xyz2int, rfl, rfl, c1_int2xyz _, ?_, by norm_num, ?_⟩
  · rw [nerfPlace_zero_theta]
    exact c1_dist _ (Real.mul_self_sqrt (by norm_num))
  · rw [nerfPlace_zero_theta]
    exact c1_ybound
